import Mathlib

/-!
Verification of the AksoEo voting library (TypeScript sources) against its
natural-language specification.  The TypeScript code is shallowly embedded:
the binary ballot buffer is modelled by its decoded structure (per-ballot
16-bit word rows, the trailing words after the last ballot, and the mentions
table), JS `Map`s are modelled as insertion-ordered association lists, and
fallible operations return `Except`.  All definitions are executable.
-/

namespace Voting

/-! ## Association lists modelling JS `Map` (insertion ordered) -/

/-- JS `Map.get`: first (and, for maps built by `alSet`, only) matching key. -/
def alGet {β : Type} (m : List (Nat × β)) (k : Nat) : Option β :=
  (m.find? (fun p => p.1 == k)).map (fun p => p.2)

/-- JS `Map.get(k) || 0`-style defaulted lookup. -/
def alGetD {β : Type} (m : List (Nat × β)) (k : Nat) (d : β) : β :=
  (alGet m k).getD d

/-- JS `Map.set`: updates the value in place if the key is present, keeping
insertion order, else appends a new entry. -/
def alSet {β : Type} : List (Nat × β) → Nat → β → List (Nat × β)
  | [], k, v => [(k, v)]
  | p :: m, k, v => if p.1 = k then (k, v) :: m else p :: alSet m k v

/-- Increment of a mention tally entry: `set(k, (get(k) || 0) + 1)`. -/
def alBump (m : List (Nat × Nat)) (k : Nat) : List (Nat × Nat) :=
  alSet m k (alGetD m k 0 + 1)

/-! ## Ballots and the ballot buffer

`src/ballots.ts` encodes a ballot as a `uint16` row stream: nonzero words are
candidate ids, the word `0` separates consecutive ranks.  The finished buffer
is `count`, per-ballot pointers, an end pointer, the concatenated rows,
padding to a 4-byte boundary and the `(candidate, mentions)` table of
`uint32` pairs.  `VoteBuffer` keeps the decoded views of those regions:
`rows` are the per-ballot word lists (pointer differences delimit them),
`tailWords` are the 16-bit words that lie after the last ballot (alignment
padding followed by the mentions table re-read as `uint16` halves; scans that
use the buffer byte length as the last ballot's end run into these words),
and `mentionsTable` is the table as `uint32` pairs. -/

structure VoteBuffer where
  count : Nat
  rows : List (List Nat)
  tailWords : List Nat
  mentionsTable : List (Nat × Nat)
  deriving Repr, DecidableEq

/-- A rank on a ballot as accepted by `BallotEncoder.addBallot`: either a
single id or an unordered set of ids. -/
inductive RankEntry
  | single (id : Nat)
  | group (ids : List Nat)
  deriving Repr, DecidableEq

/-- State of a `BallotEncoder`: the declared ballot count, the rows written
so far (one word list per added ballot; the byte pointers of the real buffer
are recovered from their cumulative lengths) and the running mention tally
(a JS `Map`, insertion ordered). -/
structure BallotEncoder where
  count : Nat
  rows : List (List Nat)
  candidateMentions : List (Nat × Nat)
  deriving Repr, DecidableEq

/-- `new BallotEncoder(count)`. -/
def BallotEncoder.new (count : Nat) : BallotEncoder :=
  { count := count, rows := [], candidateMentions := [] }

/-- Items of one rank set: each item is checked against 0
(`if (!item) throw new Error('ballot item cannot be 0')`), written as a
`uint16` word, and its mention tally incremented. -/
def addGroupItems (m : List (Nat × Nat)) :
    List Nat → Except String (List Nat × List (Nat × Nat))
  | [] => .ok ([], m)
  | id :: rest =>
    if id = 0 then .error "ballot item cannot be 0"
    else do
      let (ws, m') ← addGroupItems (alBump m id) rest
      .ok ((id % 65536) :: ws, m')

/-- The rank loop of `addBallot`: a `0` separator word before every rank but
the first; a rank given as a single number is written with *no* zero check;
a rank given as a set goes through `addGroupItems`. -/
def addBallotRanks (m : List (Nat × Nat)) (isFirst : Bool) :
    List RankEntry → Except String (List Nat × List (Nat × Nat))
  | [] => .ok ([], m)
  | r :: rest =>
    let sep : List Nat := if isFirst then [] else [0]
    match r with
    | .single id => do
      let (ws, mf) ← addBallotRanks (alBump m id) false rest
      .ok (sep ++ [id % 65536] ++ ws, mf)
    | .group ids => do
      let (gws, m') ← addGroupItems m ids
      let (ws, mf) ← addBallotRanks m' false rest
      .ok (sep ++ gws ++ ws, mf)

/-- `BallotEncoder.addBallot`.  Note the source never compares the running
ballot index against the declared `count`: the pointer write and the row
words land in the buffer unconditionally. -/
def BallotEncoder.addBallot (e : BallotEncoder) (ranks : List RankEntry) :
    Except String BallotEncoder := do
  let (ws, m) ← addBallotRanks e.candidateMentions true ranks
  .ok { e with rows := e.rows ++ [ws], candidateMentions := m }

/-- Total number of row words written so far. -/
def BallotEncoder.totalWords (e : BallotEncoder) : Nat :=
  (e.rows.map List.length).sum

/-- `BallotEncoder.finish`: aligns the cursor to 4 bytes (one padding word
when the number of 16-bit row words is odd), then writes the mentions table
as `uint32` pairs (values truncate mod 2^32; each pair is also visible as
four `uint16` half-words after the last ballot). -/
def BallotEncoder.finish (e : BallotEncoder) : VoteBuffer :=
  let pad : List Nat := if e.totalWords % 2 = 0 then [] else [0]
  let table := e.candidateMentions.map (fun p => (p.1 % 4294967296, p.2 % 4294967296))
  { count := e.count
    rows := e.rows
    tailWords := pad ++ (table.map (fun p =>
      [p.1 % 65536, p.1 / 65536 % 65536, p.2 % 65536, p.2 / 65536 % 65536])).flatten
    mentionsTable := table }

/-- Encodes a ballot list with an encoder declared for exactly that many
ballots and finishes the buffer. -/
def encodeBallots (bs : List (List RankEntry)) : Except String VoteBuffer := do
  let e ← bs.foldlM (fun e b => e.addBallot b) (BallotEncoder.new bs.length)
  .ok e.finish

/-! ## Occurrence counts (specification side of the round-trip claim) -/

/-- Number of occurrences of id `c` in an id list. -/
def idCount (c : Nat) : List Nat → Nat
  | [] => 0
  | x :: xs => (if x = c then 1 else 0) + idCount c xs

/-- Number of occurrences of id `c` in one rank. -/
def rankOcc (c : Nat) : RankEntry → Nat
  | .single id => if id = c then 1 else 0
  | .group ids => idCount c ids

/-- Number of occurrences of id `c` on one ballot. -/
def ballotOcc (c : Nat) (b : List RankEntry) : Nat :=
  (b.map (rankOcc c)).sum

/-- Number of occurrences of id `c` across a ballot list. -/
def totalOcc (c : Nat) (bs : List (List RankEntry)) : Nat :=
  (bs.map (ballotOcc c)).sum

/-- All ids of one rank. -/
def rankIds : RankEntry → List Nat
  | .single id => [id]
  | .group ids => ids

/-- Key list of an association list. -/
def alKeys {β : Type} (m : List (Nat × β)) : List Nat :=
  m.map Prod.fst

/-- The keys of a JS-`Map` association list are pairwise distinct. -/
def KeysNodup {β : Type} (m : List (Nat × β)) : Prop :=
  (alKeys m).Nodup

/-- Relation between a mention tally before and after processing a batch of
ids: every count grows by the batch's occurrence count, new keys come from
the batch, and key distinctness is preserved. -/
def MentStep (m m' : List (Nat × Nat)) (occ : Nat → Nat) (src : List Nat) : Prop :=
  (∀ c, alGetD m' c 0 = alGetD m c 0 + occ c) ∧
  (∀ x, x ∈ alKeys m' → x ∈ alKeys m ∨ x ∈ src) ∧
  (KeysNodup m → KeysNodup m')

/-- All ids occurring across a ballot list. -/
def ballotIdsAll (bs : List (List RankEntry)) : List Nat :=
  (bs.map (fun b => (b.map rankIds).flatten)).flatten

/-! ## Scan primitives of `src/config.ts` -/

/-- `countBlanks`: ballots whose pointer equals the successor pointer, i.e.
rows with zero words. -/
def countBlanks (b : VoteBuffer) : Nat :=
  b.rows.countP (fun r => r.length == 0)

/-- `candidateMentions` (`src/config.ts`): reads the mentions table (the read
cursor is `Math.ceil`-aligned, so the table is read exactly) into a fresh JS
`Map` by successive `set`s. -/
def candidateMentions (b : VoteBuffer) : List (Nat × Nat) :=
  b.mentionsTable.foldl (fun t p => alSet t p.1 p.2) []

/-! ## Stable sort

JS `Array.prototype.sort` is required to be stable; on a total preorder
comparator a stable comparison sort's output is uniquely determined, so any
stable sort is a faithful embedding.  `sortByLe` is stable insertion sort:
an element is placed before every strictly greater element and before equal
elements that originally came later. -/

def sortInsert {α : Type} (le : α → α → Bool) (x : α) : List α → List α
  | [] => [x]
  | y :: ys => if le x y then x :: y :: ys else y :: sortInsert le x ys

def sortByLe {α : Type} (le : α → α → Bool) : List α → List α
  | [] => []
  | x :: xs => sortInsert le x (sortByLe le xs)

/-! ## Threshold Majority (`src/threshold-majority.ts`) -/

/-- Threshold majority output: winners plus the mention tally read from the
buffer. -/
structure TmData where
  winners : List Nat
  tally : List (Nat × Nat)
  deriving Repr, DecidableEq

inductive TmResult
  | success (value : TmData)
  | tieBreakerNeeded (tiedNodes : List Nat)
  | incompleteTieBreaker (missing : List Nat)
  deriving Repr, DecidableEq

/-- The mention tally as `thresholdMajority` reads it: the read cursor
`ballots32[1 + ballotCount] / 4` is not `ceil`-aligned, so when the row
region ends on an odd 16-bit word the fractional cursor makes every
`ballots32[i]` read `undefined` and the resulting map holds only an
`undefined ↦ undefined` entry — observationally the empty map for every
candidate lookup.  Otherwise the table is read entry by entry. -/
def tmReadTally (b : VoteBuffer) : List (Nat × Nat) :=
  if (b.rows.map List.length).sum % 2 = 0 then
    b.mentionsTable.foldl (fun t p => alSet t p.1 p.2) []
  else []

/-- `thresholdMajority`.  Candidates are sorted by the comparator
`aMentions - bMentions`, i.e. ascending by mention count, and the winner list
is the head of that ascending order (`splice(maxWinners)`); the boundary
candidates are compared with `===` on the raw `Map.get` results, so two
candidates both missing from the tally (both `undefined`) count as tied.  In
the tie branch the *input* `candidates` array is sorted by tie-breaker index
(only to detect ids missing from the tie breaker; which ids the JS `Set`
accumulates depends on the comparison order of the engine's sort, but its
emptiness does not, since every element of a list of length at least 2 takes
part in at least one comparison), while the ambiguous band is re-appended in
its original mention-sorted order. -/
def tmSorted (b : VoteBuffer) (cands : List Nat) : List Nat :=
  sortByLe (fun a c => alGetD (tmReadTally b) a 0 ≤ alGetD (tmReadTally b) c 0) cands

/-- `tally.get(sortedCandidates[maxWinners - 1])`; the index is `-1` for
`maxWinners = 0` and a missing candidate or tally entry gives `undefined`. -/
def tmStillIncludedValue (mw : Nat) (b : VoteBuffer) (cands : List Nat) : Option Nat :=
  (if mw = 0 then none else (tmSorted b cands).get? (mw - 1)).bind
    (fun c => alGet (tmReadTally b) c)

/-- `tally.get(sortedCandidates[maxWinners])`. -/
def tmFirstExcludedValue (mw : Nat) (b : VoteBuffer) (cands : List Nat) : Option Nat :=
  ((tmSorted b cands).get? mw).bind (fun c => alGet (tmReadTally b) c)

/-- The tied band: every candidate whose tally value `===` the boundary
value. -/
def tmAmbiguous (mw : Nat) (b : VoteBuffer) (cands : List Nat) : List Nat :=
  (tmSorted b cands).filter
    (fun c => alGet (tmReadTally b) c = tmStillIncludedValue mw b cands)

/-- Winner construction of the tie branch: cut the ascending order to
`maxWinners`, `splice` out the first occurrence of each ambiguous candidate,
push the ambiguous band back (in its original mention-sorted order — the
tie-breaker sort was applied to the *input* array, not to this band), and cut
again. -/
def tmTieWinners (mw : Nat) (b : VoteBuffer) (cands : List Nat) : List Nat :=
  (((tmAmbiguous mw b cands).foldl (fun (acc : List Nat) c => acc.erase c)
      ((tmSorted b cands).take mw)) ++ tmAmbiguous mw b cands).take mw

def thresholdMajority (maxWinners : Nat) (candidates : List Nat)
    (b : VoteBuffer) (tieBreaker : Option (List Nat)) : TmResult :=
  if tmStillIncludedValue maxWinners b candidates =
      tmFirstExcludedValue maxWinners b candidates then
    match tieBreaker with
    | none => .tieBreakerNeeded (tmAmbiguous maxWinners b candidates)
    | some tb =>
      if 2 ≤ candidates.length ∧ ∃ c ∈ candidates, c ∉ tb then
        .incompleteTieBreaker (candidates.filter (fun c => ¬ tb.contains c))
      else
        .success ⟨tmTieWinners maxWinners b candidates, tmReadTally b⟩
  else
    .success ⟨(tmSorted b candidates).take maxWinners, tmReadTally b⟩

/-! ## Pairwise rank comparison (`src/ranked-pairs.ts`,
`compareNodesAccordingToBallot`) -/

/-- Result of the pairwise comparison: a finite rank difference or the
`±Infinity` sentinels. -/
inductive BallotCmp
  | negInf
  | posInf
  | fin (d : Int)
  deriving Repr, DecidableEq

/-- The scan loop of `compareNodesAccordingToBallot`: walk the ballot words,
a `0` word increments the rank counter, the first chain hit of `a` (checked
before `b`) records the current rank, and the loop breaks once both ranks
are recorded. -/
def compareLoop (a b : Nat) : List Nat → Option Int → Option Int → Int →
    Option Int × Option Int
  | [], ra, rb, _ => (ra, rb)
  | w :: ws, ra, rb, rank =>
    if w = 0 then
      if ra.isSome ∧ rb.isSome then (ra, rb) else compareLoop a b ws ra rb (rank + 1)
    else
      let ra' := if w = a then some rank else ra
      let rb' := if w ≠ a ∧ w = b then some rank else rb
      if ra'.isSome ∧ rb'.isSome then (ra', rb')
      else compareLoop a b ws ra' rb' rank

/-- `compareNodesAccordingToBallot` on one ballot row: 0 when neither node
appears, `-Infinity` when `a` is absent, `+Infinity` when `b` is absent,
otherwise `rankB - rankA`. -/
def compareNodesAccordingToBallot (ballot : List Nat) (a b : Nat) : BallotCmp :=
  match compareLoop a b ballot none none 0 with
  | (none, none) => .fin 0
  | (none, some _) => .negInf
  | (some _, none) => .posInf
  | (some ra, some rb) => .fin (rb - ra)

/-- Rank of the first occurrence of `x`: the number of zero separators seen
before it (the index of its zero-delimited group). -/
def rankOfFirst (x : Nat) : List Nat → Nat
  | [] => 0
  | w :: ws => if w = x then 0 else (if w = 0 then 1 else 0) + rankOfFirst x ws

/-! ## Ranked Pairs (`src/ranked-pairs.ts`)

The pair graph's per-edge data (`ballots`, `diff`, `leftWon`/`rightWon`) is a
pure function of the ballots, so the imperative `applyBallots`/`applyWinners`
folds are embedded as the functions `pairBallots`, `pairDiff` and `pairWon`.
The lock graph is a node list plus an insertion-ordered edge list;
`isReachableInAcyclic`, a depth-first search without a visited set that
terminates only on DAGs (the source "will throw a stack overflow if the graph
is already cyclic"), is embedded as a fuel-bounded search whose fuel — the
number of edges — suffices for every path in any graph (a shortest witness
path repeats no node, hence no edge); `reachFuel_complete` below proves the
bound exact, so the embedded guard decides exactly reachability. -/

/-- `Math.sign` of a comparison value (`±Infinity` has sign `±1`). -/
def cmpSign : BallotCmp → Int
  | .negInf => -1
  | .posInf => 1
  | .fin d => if 0 < d then 1 else if d < 0 then -1 else 0

/-- `applyBallots`, restricted to one pair: the accumulated signed diff and
the count of ballots leaving a nonzero comparison. -/
def applyBallotsPair (rows : List (List Nat)) (x y : Nat) : Int × Nat :=
  rows.foldl (fun acc row =>
    let d := compareNodesAccordingToBallot row x y
    if d ≠ .fin 0 then (acc.1 + cmpSign d, acc.2 + 1) else acc) (0, 0)

def pairDiff (rows : List (List Nat)) (p : Nat × Nat) : Int :=
  (applyBallotsPair rows p.1 p.2).1

def pairBallots (rows : List (List Nat)) (p : Nat × Nat) : Nat :=
  (applyBallotsPair rows p.1 p.2).2

/-- The inner `for (otherCand of candidates) if (otherCand >= cand) break`
loop over the ascending candidate list. -/
def pairsUnder (cands : List Nat) (c : Nat) : List Nat :=
  cands.takeWhile (fun o => o < c)

/-- All pair keys `(cand, otherCand)` with `otherCand` before `cand` in the
sorted candidate list. -/
def allPairs (cands : List Nat) : List (Nat × Nat) :=
  (cands.map (fun c => (pairsUnder cands c).map (fun o => (c, o)))).flatten

/-- A ballot is empty for `applyBallots` when it leaves every pair
comparison at zero. -/
def rpEmptyCount (cands : List Nat) (rows : List (List Nat)) : Nat :=
  rows.countP (fun row =>
    (allPairs cands).all (fun p => compareNodesAccordingToBallot row p.1 p.2 = .fin 0))

/-- `tieBreaker.indexOf(n)`: first index, `-1` when missing. -/
def tbIndex (tb : List Nat) (n : Nat) : Int :=
  match tb.findIdx? (fun x => x = n) with
  | some i => (i : Int)
  | none => -1

/-- Edge orientation (`leftWon`) as set by `applyWinners`: positive diff
elects the left node, negative the right, and an exact tie goes to the node
with the lower tie-breaker index. -/
def pairWon (rows : List (List Nat)) (tbL : List Nat) (p : Nat × Nat) : Bool :=
  if 0 < pairDiff rows p then true
  else if pairDiff rows p < 0 then false
  else tbIndex tbL p.1 < tbIndex tbL p.2

def pairWinner (rows : List (List Nat)) (tbL : List Nat) (p : Nat × Nat) : Nat :=
  if pairWon rows tbL p then p.1 else p.2

def pairLoser (rows : List (List Nat)) (tbL : List Nat) (p : Nat × Nat) : Nat :=
  if pairWon rows tbL p then p.2 else p.1

/-- Ranked pairs round output. -/
structure RpRound where
  winner : Option Nat
  orderedPairs : List (Nat × Nat)
  lockGraphEdges : List (Nat × Nat)
  deriving Repr, DecidableEq

structure RpData where
  winners : List (Option Nat)
  rounds : List RpRound
  deriving Repr, DecidableEq

/-- Ranked pairs result.  `winner`s are `Option`s because the source reads
`newRoundWinners[0]`, which is `undefined` when the root list is empty.
`fatalError` stands for the thrown `Error` (and for exhausted loop fuel,
which the theorems show unreachable). -/
inductive RpResult
  | success (value : RpData)
  | tieBreakerNeeded (pairs : List (Nat × Nat))
  | incompleteTieBreaker (missing : List Int)
  | majorityEmpty
  | fatalError
  deriving Repr, DecidableEq

/-- Fuel-bounded reachability along a directed edge list. -/
def reachFuel (E : List (Nat × Nat)) : Nat → Nat → Nat → Bool
  | 0, s, t => s == t
  | fuel + 1, s, t =>
    s == t || (E.filter (fun e => e.1 == s)).any (fun e => reachFuel E fuel e.2 t)

/-- `DiGraph.isReachableInAcyclic` (fuel `E.length` is exact, see
`reachFuel_complete`). -/
def isReachable (E : List (Nat × Nat)) (s t : Nat) : Bool :=
  reachFuel E E.length s t

/-- `DiGraph.insertEdge` on the lock graph: a no-op on an existing edge,
else appended (both endpoints are always nodes of the graph where this is
called, so the "node not found" throw cannot fire). -/
def lockInsert (E : List (Nat × Nat)) (u v : Nat) : List (Nat × Nat) :=
  if (u, v) ∈ E then E else E ++ [(u, v)]

/-- One ordered pair locked in: the winning-direction edge is added unless
its reverse is already reachable. -/
def lockStep (rows : List (List Nat)) (tbL : List Nat)
    (E : List (Nat × Nat)) (p : Nat × Nat) : List (Nat × Nat) :=
  if pairWon rows tbL p then
    if isReachable E p.2 p.1 then E else lockInsert E p.1 p.2
  else
    if isReachable E p.1 p.2 then E else lockInsert E p.2 p.1

def buildLockEdges (rows : List (List Nat)) (tbL : List Nat)
    (orderedPairs : List (Nat × Nat)) : List (Nat × Nat) :=
  orderedPairs.foldl (lockStep rows tbL) []

/-- `DiGraph.findRoots`: nodes with no incoming edge, in node insertion
order. -/
def findRoots (nodes : List Nat) (E : List (Nat × Nat)) : List Nat :=
  nodes.filter (fun n => ¬ E.any (fun e => e.2 = n))

/-- Iteration order of the disjoint-root loops: `(node, otherNode)` with
`otherNode` before `node` in the ascending root list. -/
def rootPairsSeq (roots : List Nat) : List (Nat × Nat) :=
  (roots.map (fun n => (roots.takeWhile (fun o => o < n)).map (fun o => (n, o)))).flatten

/-- One tie-breaker-directed edge between two roots: the edge leaves the
node with the smaller `indexOf` (ties — both `-1` — leave the smaller id,
which is iterated as `otherNode`). -/
def tournStep (tbL : List Nat) (E : List (Nat × Nat)) (p : Nat × Nat) :
    List (Nat × Nat) :=
  if tbIndex tbL p.1 < tbIndex tbL p.2 then lockInsert E p.1 p.2
  else lockInsert E p.2 p.1

def insertRootEdges (tbL : List Nat) (E : List (Nat × Nat))
    (roots : List Nat) : List (Nat × Nat) :=
  (rootPairsSeq roots).foldl (tournStep tbL) E

/-- All root pairs reported by `TieBreakerNeeded` in the multi-root case. -/
def rootPairsAll (roots : List Nat) : List (Nat × Nat) :=
  (roots.map (fun n => (roots.filter (fun o => o < n)).map (fun o => (n, o)))).flatten

/-- `lockGraphAndFindRoundWinner`.  In the multi-root branch the source
accumulates the *indexOf results* (`-1`) in the missing set — a slip kept
here — and `newRoundWinners[0]` is `undefined` when no root remains. -/
def lockGraphAndFindRoundWinner (rows : List (List Nat)) (tbL : List Nat)
    (mentioned : List Nat) (orderedPairs : List (Nat × Nat))
    (tieBreaker : Option (List Nat)) : RpResult ⊕ RpRound :=
  let lockE := buildLockEdges rows tbL orderedPairs
  let roots := findRoots mentioned lockE
  if roots.length = 1 then
    .inr ⟨roots.get? 0, orderedPairs, lockE⟩
  else
    match tieBreaker with
    | none => .inl (.tieBreakerNeeded (rootPairsAll roots))
    | some tbv =>
      let sortedRoots := sortByLe (fun x y => x ≤ y) roots
      let lockE' := insertRootEdges tbL lockE sortedRoots
      if rootPairsSeq sortedRoots |>.any
          (fun p => tbIndex tbv p.1 = -1 ∨ tbIndex tbv p.2 = -1) then
        .inl (.incompleteTieBreaker [-1])
      else
        let newRoots := findRoots mentioned lockE'
        if 1 < newRoots.length then .inl .fatalError
        else .inr ⟨newRoots.get? 0, orderedPairs, lockE'⟩

/-- The mention filter of `filterCandidates` (point 6): candidates must be
mentioned on at least half the ballots; a candidate absent from the mentions
map fails (`undefined >= threshold` is false).  The read cursor shares the
missing-`ceil` alignment of the Threshold Majority read. -/
def rpFilterCandidates (cands : List Nat) (b : VoteBuffer) : List Nat :=
  let mentions := if (b.rows.map List.length).sum % 2 = 0 then
    b.mentionsTable.foldl (fun t p => alSet t p.1 p.2) [] else []
  cands.filter (fun c =>
    match alGet mentions c with
    | some m => b.rows.length ≤ 2 * m
    | none => false)

/-- `applyWinners` error detection: the first pair (in pair order) with
ballots but a zero diff needs the tie breaker; with a tie breaker, an
endpoint missing from it is reported (the source reports `[cand, otherCand]`
of the first such pair). -/
def applyWinnersError (rows : List (List Nat)) (pairs : List (Nat × Nat))
    (tieBreaker : Option (List Nat)) : Option RpResult :=
  match pairs.find? (fun p => 0 < pairBallots rows p && pairDiff rows p == 0) with
  | none => none
  | some p =>
    match tieBreaker with
    | none => some (.tieBreakerNeeded [p])
    | some tbv =>
      match pairs.find? (fun p => 0 < pairBallots rows p && pairDiff rows p == 0 &&
          (tbIndex tbv p.1 == -1 || tbIndex tbv p.2 == -1)) with
      | some q => some (.incompleteTieBreaker [(q.1 : Int), (q.2 : Int)])
      | none => none

/-- JS `Set` insertion. -/
def insertUniq (l : List Nat) (x : Nat) : List Nat :=
  if x ∈ l then l else l ++ [x]

/-- The `mentionedCandidates` set: both endpoints of every active pair, in
insertion order. -/
def mentionedOf (pairs : List (Nat × Nat)) : List Nat :=
  pairs.foldl (fun acc p => insertUniq (insertUniq acc p.1) p.2) []

/-- Tideman pair ordering (`orderPairs`), one batch of tied pairs per outer
iteration.  Pairs with equal `|diff|` are first emitted when their loser
already lost, then when their winner already won, and a still-tied batch of
more than one pair is sorted ascending by the tie-breaker index of its
losing node (the comparator is `leftIndex - rightIndex`; ids missing from
the tie breaker fail the round). -/
def orderPairsLoop (rows : List (List Nat)) (tbL : List Nat)
    (tieBreaker : Option (List Nat)) :
    Nat → List (Nat × Nat) → List (Nat × Nat) → List Nat → List Nat →
    RpResult ⊕ List (Nat × Nat)
  | 0, queued, ordered, _, _ =>
    match queued with
    | [] => .inr ordered
    | _ => .inl .fatalError
  | fuel + 1, queued, ordered, winN, loseN =>
    match queued with
    | [] => .inr ordered
    | q0 :: qrest =>
      let wd := (pairDiff rows q0).natAbs
      let tiedTail := qrest.takeWhile (fun p => (pairDiff rows p).natAbs = wd)
      let rest := qrest.drop tiedTail.length
      if tiedTail.length = 0 then
        orderPairsLoop rows tbL tieBreaker fuel rest (ordered ++ [q0])
          (winN ++ [pairWinner rows tbL q0]) (loseN ++ [pairLoser rows tbL q0])
      else
        let tied := q0 :: tiedTail
        let sel1 := tied.filter (fun p => pairLoser rows tbL p ∈ loseN)
        let rem1 := tied.filter (fun p => pairLoser rows tbL p ∉ loseN)
        let winN1 := winN ++ sel1.map (pairWinner rows tbL)
        let sel2 := rem1.filter (fun p => pairWinner rows tbL p ∈ winN1)
        let rem2 := rem1.filter (fun p => pairWinner rows tbL p ∉ winN1)
        let loseN2 := loseN ++ sel2.map (pairLoser rows tbL)
        let ordered' := ordered ++ sel1 ++ sel2
        if 1 < rem2.length then
          match tieBreaker with
          | none => .inl (.tieBreakerNeeded rem2)
          | some tbv =>
            if rem2.any (fun p => tbIndex tbv (pairLoser rows tbL p) = -1) then
              .inl (.incompleteTieBreaker
                ((rem2.filter (fun p => tbIndex tbv (pairLoser rows tbL p) = -1)).map
                  (fun p => ((pairLoser rows tbL p : Nat) : Int))))
            else
              orderPairsLoop rows tbL tieBreaker fuel rest
                (ordered' ++ sortByLe (fun p q =>
                  tbIndex tbv (pairLoser rows tbL p) ≤ tbIndex tbv (pairLoser rows tbL q)) rem2)
                winN1 loseN2
        else
          orderPairsLoop rows tbL tieBreaker fuel rest (ordered' ++ rem2) winN1 loseN2

def orderPairs (rows : List (List Nat)) (tbL : List Nat)
    (tieBreaker : Option (List Nat)) (pairs : List (Nat × Nat)) :
    RpResult ⊕ List (Nat × Nat) :=
  let queued := sortByLe (fun p q => (pairDiff rows q).natAbs ≤ (pairDiff rows p).natAbs) pairs
  orderPairsLoop rows tbL tieBreaker (queued.length + 1) queued [] [] []

/-- The round loop of `rankedPairs` (point 13): find a round winner, record
the round, drop the winner from the active pairs and the mentioned set, and
stop once `maxWinners` winners are found.  Each iteration pushes exactly one
winner, so fuel `maxWinners + 1` never runs out. -/
def rpRoundLoop (rows : List (List Nat)) (tbL : List Nat)
    (tieBreaker : Option (List Nat)) (mw : Nat) :
    Nat → List (Nat × Nat) → List Nat → List (Option Nat) → List RpRound → RpResult
  | 0, _, _, _, _ => .fatalError
  | fuel + 1, pairs, mentioned, winners, rounds =>
    match orderPairs rows tbL tieBreaker pairs with
    | .inl err => err
    | .inr ordered =>
      match lockGraphAndFindRoundWinner rows tbL mentioned ordered tieBreaker with
      | .inl err => err
      | .inr round =>
        let winners' := winners ++ [round.winner]
        let rounds' := rounds ++ [round]
        if mw ≤ winners'.length then .success ⟨winners', rounds'⟩
        else
          match round.winner with
          | none => rpRoundLoop rows tbL tieBreaker mw fuel pairs mentioned winners' rounds'
          | some w =>
            rpRoundLoop rows tbL tieBreaker mw fuel
              (pairs.filter (fun p => p.1 ≠ w ∧ p.2 ≠ w)) (mentioned.erase w)
              winners' rounds'

/-- `rankedPairs`.  The first statement sorts the *caller's* candidate array
in place, ascending by id; the mention filter and everything after operate
on that sorted order. -/
def rankedPairs (maxWinners : Nat) (candidates : List Nat) (b : VoteBuffer)
    (tieBreaker : Option (List Nat)) : RpResult :=
  let sortedCandidates := rpFilterCandidates (sortByLe (fun x y => x ≤ y) candidates) b
  let mw := min maxWinners sortedCandidates.length
  let tbL := tieBreaker.getD []
  if b.rows.length ≤ 2 * rpEmptyCount sortedCandidates b.rows then .majorityEmpty
  else
    let pairs := (allPairs sortedCandidates).filter (fun p => 0 < pairBallots b.rows p)
    match applyWinnersError b.rows pairs tieBreaker with
    | some err => err
    | none => rpRoundLoop b.rows tbL tieBreaker mw (mw + 1) pairs (mentionedOf pairs) [] []

/-- One directed step along an edge list. -/
def stepRel (E : List (Nat × Nat)) (x y : Nat) : Prop := (x, y) ∈ E

/-- Reachability: the reflexive-transitive closure of the edge relation
(the proposition computed by `isReachable`, see `reachFuel_complete`). -/
def Reach (E : List (Nat × Nat)) : Nat → Nat → Prop :=
  Relation.ReflTransGen (stepRel E)

/-- A directed edge list is acyclic: no edge's reverse direction is
reachable. -/
def Acyclic (E : List (Nat × Nat)) : Prop :=
  ∀ e ∈ E, ¬ Reach E e.2 e.1

/-- Executable acyclicity check (used by witnesses). -/
def acyclicB (E : List (Nat × Nat)) : Bool :=
  E.all (fun e => ¬ isReachable E e.2 e.1)

/-- Strict lexicographic order on (tie-breaker index, id): the direction in
which the disjoint-root edges point. -/
def tourLt (tbL : List Nat) (x y : Nat) : Prop :=
  tbIndex tbL x < tbIndex tbL y ∨ (tbIndex tbL x = tbIndex tbL y ∧ x < y)

/-- The tie-breaker-directed edges inserted between roots: both endpoints
are roots and each edge increases the `tourLt` measure. -/
def TournEdges (tbL : List Nat) (roots : List Nat) (T : List (Nat × Nat)) : Prop :=
  ∀ e ∈ T, e.1 ∈ roots ∧ e.2 ∈ roots ∧ tourLt tbL e.1 e.2

/-- The caller's `candidates` array after `rankedPairs` returns:
ranked-pairs.ts line 562 sorts it in place with the comparator
`(a, b) => a - b` before filtering, so any binding the caller retains on
that array (the dispatcher's `mentions.includedByMentions`) afterwards
holds the ascending reordering. -/
def rpCandidatesAfterCall (candidates : List Nat) : List Nat :=
  sortByLe (fun x y => x ≤ y) candidates

/-- `filterCandidatesByMentions` restricted to its `includedByMentions`
output (config.ts lines 158-178): the candidates passing the mention-count
threshold, kept in the caller's original order.  The float comparison
`passesThreshold(mentionThreshold, inclusive, count / ballotCount)` depends
only on the candidate's mention count once the configuration and ballot
count are fixed, so it enters as the abstract per-count test `passes`. -/
def includedByMentionsOf (passes : Nat → Bool) (candidates : List Nat)
    (buf : VoteBuffer) : List Nat :=
  candidates.filter (fun c => passes (alGetD (candidateMentions buf) c 0))

/-! ## Single transferable vote (`src/single-transferable-vote.ts`)

Vote values are JS doubles; the embedding uses exact unreduced fractions
(`Frac`), the algorithm's intended arithmetic.  `Frac`s are compared by
cross-multiplication, so all comparisons (`<`, `<=`, `===`) are value
comparisons, as for doubles. -/

structure Frac where
  num : Int
  den : Nat
  deriving Repr, DecidableEq

def Frac.ofNat (n : Nat) : Frac := ⟨n, 1⟩

def Frac.add (a b : Frac) : Frac :=
  ⟨a.num * b.den + b.num * a.den, a.den * b.den⟩

def Frac.sub (a b : Frac) : Frac :=
  ⟨a.num * b.den - b.num * a.den, a.den * b.den⟩

def Frac.mul (a b : Frac) : Frac := ⟨a.num * b.num, a.den * b.den⟩

/-- Division; a nonpositive divisor numerator cannot arise in any reachable
call (divisors are a positive candidate total and `maxWinners + 1`), the
zero case is a denominator-0 marker. -/
def Frac.div (a b : Frac) : Frac :=
  if b.num < 0 then ⟨-a.num * b.den, a.den * (-b.num).toNat⟩
  else ⟨a.num * b.den, a.den * b.num.toNat⟩

def Frac.blt (a b : Frac) : Bool := a.num * b.den < b.num * a.den

def Frac.ble (a b : Frac) : Bool := a.num * b.den ≤ b.num * a.den

def Frac.beq (a b : Frac) : Bool := a.num * b.den == b.num * a.den

/-- Value of a fraction (proof side only). -/
def Frac.toRat (f : Frac) : ℚ := (f.num : ℚ) / (f.den : ℚ)

/-- JS `===` on two number-or-undefined values. -/
def optValEq : Option Frac → Option Frac → Bool
  | none, none => true
  | some a, some b => Frac.beq a b
  | _, _ => false

inductive StvEvent
  | electWithQuota (elected : List Nat) (values : List (Nat × Frac)) (quota : Frac)
  | electRest (elected : List Nat)
  | eliminate (candidate : Nat) (values : List (Nat × Frac))
  deriving Repr, DecidableEq

inductive StvResult
  | success (winners : List Nat) (events : List StvEvent)
  | tieBreakerNeeded (tiedNodes : List Nat)
  | incompleteTieBreaker (missing : List Nat)
  | fatalError
  deriving Repr, DecidableEq

/-- `forAllBallots`: ballot `i` runs from its pointer to the next pointer,
except the last one, which runs to the end of the *buffer* — so the last
ballot is scanned together with the trailing alignment/mentions words. -/
def forAllRows (b : VoteBuffer) : List (List Nat) :=
  (List.range b.count).map (fun i =>
    if i + 1 < b.count then b.rows.getD i [] else b.rows.getD i [] ++ b.tailWords)

/-- The per-ballot loop of `scanNthPreferences`.  The loop body ends in a
stray `i++` in addition to the loop's own `i++`, so only every other word
is inspected. -/
def scanNthLoop (cands : List Nat) (n : Nat) : List Nat → Nat → Option Nat
  | [], _ => none
  | [w], hp =>
    if cands.contains w then (if n ≤ hp then some w else none) else none
  | w :: _ :: rest, hp =>
    if cands.contains w then
      if n ≤ hp then some w else scanNthLoop cands n rest (hp + 1)
    else scanNthLoop cands n rest hp

/-- `scanNthPreferences`, returning the tally map and the output array
(entry `i` is ballot `i`'s scanned preference, `0` when there is none; a
falsy scan result is neither tallied nor distinguished from 0). -/
def scanNthPreferences (b : VoteBuffer) (cands : List Nat) (n : Nat) :
    List (Nat × Nat) × List Nat :=
  (forAllRows b).foldl (fun acc ws =>
    let w := (scanNthLoop cands n ws 0).getD 0
    (if w ≠ 0 then alBump acc.1 w else acc.1, acc.2 ++ [w])) ([], [])

/-- The per-ballot loop of `scanNextPreferences` (no stray increment). -/
def scanNextLoop (cands : List Nat) (given : Nat) : List Nat → Bool → Option Nat
  | [], _ => none
  | w :: rest, hasGiven =>
    if w = given then scanNextLoop cands given rest true
    else if hasGiven && cands.contains w then some w
    else scanNextLoop cands given rest hasGiven

def scanNextPreferences (b : VoteBuffer) (cands : List Nat) (given : Nat) :
    List (Nat × Nat) × List Nat :=
  (forAllRows b).foldl (fun acc ws =>
    let w := (scanNextLoop cands given ws false).getD 0
    (if w ≠ 0 then alBump acc.1 w else acc.1, acc.2 ++ [w])) ([], [])

/-- The Gregory-method vote table: one row of per-ballot fractional values
per candidate, plus the per-candidate row sums. -/
structure VoteValues where
  ballotCount : Nat
  values : List (Nat × List Frac)
  candValues : List (Nat × Frac)
  deriving Repr, DecidableEq

/-- The `VoteValues` constructor: every candidate gets a zero row, cell
`(c, i)` is set to 1.0 when ballot `i`'s (truthy) first-preference
assignment is `c`, and the row sums start as the first-preference tally. -/
def VoteValues.init (cands : List Nat) (tally : List (Nat × Nat))
    (assign : List Nat) : VoteValues :=
  { ballotCount := assign.length
    values := cands.map (fun c =>
      (c, assign.map (fun a => if c ≠ 0 ∧ a = c then Frac.ofNat 1 else Frac.ofNat 0)))
    candValues := tally.map (fun p => (p.1, Frac.ofNat p.2)) }

/-- The cell loop of `transferVotes`: zero cells and filtered-out ballots
are skipped, others transfer `cell * amount` from the source row to the
target row; returns both updated rows and the left-accumulated total. -/
def transferRows (amount : Frac) (filt : Nat → Bool) :
    Nat → Frac → List Frac → List Frac → List Frac × List Frac × Frac
  | _, tot, [], tr => ([], tr, tot)
  | _, tot, fc :: fr, [] => (fc :: fr, [], tot)
  | i, tot, fc :: fr, tc :: tr =>
    if fc.num == 0 || !(filt i) then
      let r := transferRows amount filt (i + 1) tot fr tr
      (fc :: r.1, tc :: r.2.1, r.2.2)
    else
      let t := Frac.mul fc amount
      let r := transferRows amount filt (i + 1) (Frac.add tot t) fr tr
      (Frac.sub fc t :: r.1, Frac.add tc t :: r.2.1, r.2.2)

/-- `VoteValues.transferVotes`.  Reachable calls always have rows for both
candidates (both are original candidates). -/
def transferVotes (vv : VoteValues) (fromC toC : Nat) (amount : Frac)
    (filt : Nat → Bool) : VoteValues :=
  let fromRow := (alGet vv.values fromC).getD []
  let toRow := (alGet vv.values toC).getD []
  let r := transferRows amount filt 0 (Frac.ofNat 0) fromRow toRow
  { vv with
    values := alSet (alSet vv.values fromC r.1) toC r.2.1
    candValues := alSet (alSet vv.candValues fromC
        (Frac.sub (alGetD vv.candValues fromC (Frac.ofNat 0)) r.2.2)) toC
        (Frac.add (alGetD vv.candValues toC (Frac.ofNat 0)) r.2.2) }

/-- `findCandidatesWithFewestVotes`, generic over the numeric type (it is
called both on fractional vote values and on integer scan tallies):
`smallest` is the fold of `value < smallest` starting from `Infinity`
(`none`), then candidates with `value <= smallest` are kept. -/
def findFewest {α : Type} (lt le : α → α → Bool) (zero : α)
    (cands : List Nat) (vc : List (Nat × α)) : List Nat :=
  let smallest := cands.foldl (fun s c =>
    let v := alGetD vc c zero
    match s with
    | none => some v
    | some sv => if lt v sv then some v else some sv) (none : Option α)
  match smallest with
  | none => []
  | some sv => cands.filter (fun c => le (alGetD vc c zero) sv)

def fewestFrac (cands : List Nat) (vc : List (Nat × Frac)) : List Nat :=
  findFewest Frac.blt Frac.ble (Frac.ofNat 0) cands vc

def fewestNat (cands : List Nat) (vc : List (Nat × Nat)) : List Nat :=
  findFewest (fun a b => decide (a < b)) (fun a b => decide (a ≤ b)) 0 cands vc

/-- `sortByTieBreaker`: with every candidate present in the tie breaker the
comparator is a consistent total order and any (stable) sort yields the
ascending-index order; otherwise the comparator's side effect collects
missing items — which items depends on the comparison pairs the engine's
sort algorithm chooses, so the missing list is modelled canonically as the
candidates absent from the tie breaker (on two or more candidates it is
nonempty exactly when the code's set is). -/
def sortByTieBreaker (cands : List Nat) (tbl : List Nat) :
    Except (List Nat) (List Nat) :=
  let missing := cands.filter (fun c => !(tbl.contains c))
  if missing.isEmpty then
    .ok (sortByLe (fun a b => tbl.indexOf a ≤ tbl.indexOf b) cands)
  else .error missing

/-- The tie-breaker re-cut of an overflowing newly-elected list (the body
of the boundary-tie branch after `sortByTieBreaker` succeeded): cut to
length, drop the ambiguous candidates, append them in tie-breaker order,
cut again. -/
def recutNewly (newlyElected ambiguous sortedAmb : List Nat) (maxNewly : Nat) :
    List Nat :=
  ((ambiguous.foldl (fun (l : List Nat) c => l.erase c)
    (newlyElected.take maxNewly)) ++ sortedAmb).take maxNewly

/-- The overflow branch of `electUsingFixedQuota`, with the still-included
boundary value `sv` and cut length `maxNewly` already computed: on a
boundary-value tie the `ambiguous` candidates (all pool members at the
boundary value) are re-cut using the tie breaker — and with *no* boundary
tie the list is not cut at all. -/
def electOverflow (remaining : List Nat) (vv : VoteValues)
    (tb : Option (List Nat)) (elected : List Nat) (newlyElected : List Nat)
    (sv : Option Frac) (maxNewly : Nat) :
    (List Nat × List Nat × List Nat) ⊕ StvResult :=
  if optValEq sv ((newlyElected.get? maxNewly).bind (fun c => alGet vv.candValues c)) then
    match tb with
    | none => .inr (.tieBreakerNeeded
        (newlyElected.filter (fun c => optValEq (alGet vv.candValues c) sv)))
    | some tbl =>
      match sortByTieBreaker
          (newlyElected.filter (fun c => optValEq (alGet vv.candValues c) sv)) tbl with
      | .error missing => .inr (.incompleteTieBreaker missing)
      | .ok sortedAmb =>
        let n4 := recutNewly newlyElected
          (newlyElected.filter (fun c => optValEq (alGet vv.candValues c) sv))
          sortedAmb maxNewly
        .inl (n4, n4.foldl insertUniq elected, n4.foldl List.erase remaining)
  else
    .inl (newlyElected, newlyElected.foldl insertUniq elected,
      newlyElected.foldl List.erase remaining)

/-- Everything `electUsingFixedQuota` does after computing the sorted
over-quota pool `newlyElected`; `(newlyElected, elected', remaining')` on
the `.inl` side. -/
def electFromPool (remaining : List Nat) (vv : VoteValues) (mw : Nat)
    (tb : Option (List Nat)) (elected : List Nat) (newlyElected : List Nat) :
    (List Nat × List Nat × List Nat) ⊕ StvResult :=
  if mw < elected.length + newlyElected.length then
    electOverflow remaining vv tb elected newlyElected
      ((if mw - elected.length = 0 then none
        else newlyElected.get? (mw - elected.length - 1)).bind
        (fun c => alGet vv.candValues c)) (mw - elected.length)
  else
    .inl (newlyElected, newlyElected.foldl insertUniq elected,
      newlyElected.foldl List.erase remaining)

/-- The sorted over-quota pool: remaining candidates whose stored value is
strictly above the quota, descending by value (stable). -/
def electPool (remaining : List Nat) (vv : VoteValues) (quota : Frac) :
    List Nat :=
  (sortByLe (fun p q : Nat × Frac => Frac.ble q.2 p.2)
    (remaining.filterMap (fun c =>
      match alGet vv.candValues c with
      | some v => if Frac.blt quota v then some (c, v) else none
      | none => none))).map Prod.fst

def electUsingFixedQuota (remaining : List Nat) (vv : VoteValues)
    (quota : Frac) (mw : Nat) (tb : Option (List Nat)) (elected : List Nat) :
    (List Nat × List Nat × List Nat) ⊕ StvResult :=
  electFromPool remaining vv mw tb elected (electPool remaining vv quota)

/-- Fuel bound for the nth-preference descent: past the longest scanned
word list every tally is empty. -/
def elimFuel (b : VoteBuffer) : Nat :=
  (b.rows.map List.length).sum + b.tailWords.length + 2

/-- The nth-preference descent of `findCandidateToEliminate`
(`nthPreferences` memoisation is transparent: every entry is the scan of
the same buffer with the original candidate set). -/
def elimFewestLoop (b : VoteBuffer) (origCands remaining : List Nat) :
    Nat → Nat → List Nat → Option (List Nat)
  | 0, _, _ => none
  | fuel + 1, n, cwf =>
    if cwf.length ≤ 1 then some cwf
    else
      let counts := (scanNthPreferences b origCands n).1
      if counts.isEmpty then some cwf
      else elimFewestLoop b origCands remaining fuel (n + 1) (fewestNat remaining counts)

def findCandidateToEliminate (b : VoteBuffer) (origCands remaining : List Nat)
    (vv : VoteValues) (tb : Option (List Nat)) : Nat ⊕ StvResult :=
  match elimFewestLoop b origCands remaining (elimFuel b) 0
      (fewestFrac remaining vv.candValues) with
  | none => .inr .fatalError
  | some cwf =>
    if 1 < cwf.length then
      match tb with
      | none => .inr (.tieBreakerNeeded cwf)
      | some tbl =>
        match sortByTieBreaker cwf tbl with
        | .error missing => .inr (.incompleteTieBreaker missing)
        | .ok sorted => .inl (sorted.getLastD 0)
    else .inl (cwf.getD 0 0)

/-- Surplus transfer for one quota-elected candidate: the per-vote amount
`(total - quota) / total` of each ballot with this candidate, moved to the
ballot's next remaining preference. -/
def transferSurplus (b : VoteBuffer) (quota : Frac) (remaining : List Nat)
    (vv : VoteValues) (ec : Nat) : VoteValues :=
  let total := alGetD vv.candValues ec (Frac.ofNat 0)
  let perVote := Frac.div (Frac.sub total quota) total
  let scan := scanNextPreferences b remaining ec
  (alKeys scan.1).foldl (fun vv oc =>
    transferVotes vv ec oc perVote (fun i => scan.2.getD i 0 == oc)) vv

/-- Full-value transfer away from an eliminated candidate. -/
def transferElim (b : VoteBuffer) (remaining : List Nat) (vv : VoteValues)
    (cand : Nat) : VoteValues :=
  let scan := scanNextPreferences b remaining cand
  (alKeys scan.1).foldl (fun vv oc =>
    transferVotes vv cand oc (Frac.ofNat 1) (fun i => scan.2.getD i 0 == oc)) vv

structure StvState where
  remaining : List Nat
  elected : List Nat
  vv : VoteValues
  quotaElected : List Nat
  events : List StvEvent
  deriving Repr, DecidableEq

/-- The elimination loop (`while (!quotaElected.length && remaining.size)`):
eliminate, transfer, elect again; `.inl` is the inner `break`/loop exit
(back to the outer loop), `.inr` an early return of the whole vote. -/
def stvInner (b : VoteBuffer) (origCands : List Nat) (quota : Frac) (mw : Nat)
    (tb : Option (List Nat)) : Nat → StvState → StvState ⊕ StvResult
  | 0, _ => .inr .fatalError
  | fuel + 1, st =>
    if st.quotaElected.isEmpty && !st.remaining.isEmpty then
      match findCandidateToEliminate b origCands st.remaining st.vv tb with
      | .inr r => .inr r
      | .inl cand =>
        let remaining' := st.remaining.erase cand
        let vv' := transferElim b remaining' st.vv cand
        let events' := st.events ++ [.eliminate cand vv'.candValues]
        match electUsingFixedQuota remaining' vv' quota mw tb st.elected with
        | .inr r => .inr r
        | .inl newly =>
          let st' : StvState := ⟨newly.2.2, newly.2.1, vv', newly.1,
            events' ++ [.electWithQuota newly.1 vv'.candValues quota]⟩
          if mw ≤ st'.elected.length then .inl st'
          else if !st'.quotaElected.isEmpty then .inl st'
          else stvInner b origCands quota mw tb fuel st'
    else .inl st

/-- The outer `while (true)` loop of `singleTransferableVote`. -/
def stvOuter (b : VoteBuffer) (origCands : List Nat) (quota : Frac) (mw : Nat)
    (tb : Option (List Nat)) : Nat → StvState → StvResult
  | 0, _ => .fatalError
  | fuel + 1, st =>
    if st.elected.length + st.remaining.length ≤ mw then
      .success (st.remaining.foldl insertUniq st.elected)
        (st.events ++ [.electRest st.remaining])
    else
      let vv' := st.quotaElected.foldl (transferSurplus b quota st.remaining) st.vv
      match electUsingFixedQuota st.remaining vv' quota mw tb st.elected with
      | .inr r => r
      | .inl newly =>
        let st' : StvState := ⟨newly.2.2, newly.2.1, vv', newly.1,
          st.events ++ [.electWithQuota newly.1 vv'.candValues quota]⟩
        if mw ≤ st'.elected.length then .success st'.elected st'.events
        else
          match stvInner b origCands quota mw tb (st'.remaining.length + 1) st' with
          | .inr r => r
          | .inl st'' => stvOuter b origCands quota mw tb fuel st''

def singleTransferableVote (maxWinners : Nat) (candidates : List Nat)
    (b : VoteBuffer) (tb : Option (List Nat)) : StvResult :=
  if candidates.length ≤ maxWinners then
    .success candidates [.electRest candidates]
  else
    let mw := min maxWinners candidates.length
    let origCands := candidates.foldl insertUniq []
    let scan0 := scanNthPreferences b origCands 0
    let vv := VoteValues.init origCands scan0.1 scan0.2
    let quota := Frac.div (Frac.ofNat b.count) (Frac.ofNat (mw + 1))
    match electUsingFixedQuota origCands vv quota mw tb [] with
    | .inr r => r
    | .inl newly =>
      stvOuter b origCands quota mw tb (origCands.length + 3)
        ⟨newly.2.2, newly.2.1, vv, newly.1,
          [.electWithQuota newly.1 vv.candValues quota]⟩

/-- The specification's reading of `scanNthPreferences` (claim C3): ballot
ids in encoded order, skipping rank separators and ids outside the active
set; entry `n` of that sequence, `0` when absent. -/
def specNthBallot (active : List Nat) (n : Nat) (row : List Nat) : Nat :=
  ((row.filter (fun w => w ≠ 0 && active.contains w)).get? n).getD 0

def specNthPreferences (b : VoteBuffer) (active : List Nat) (n : Nat) :
    List (Nat × Nat) × List Nat :=
  b.rows.foldl (fun acc row =>
    let w := specNthBallot active n row
    (if w ≠ 0 then alBump acc.1 w else acc.1, acc.2 ++ [w])) ([], [])

/-- Every `ElectWithQuota` event carries the fixed quota and only elects
candidates whose snapshotted vote value is strictly above it. -/
def ElectEventsOk (quota : Frac) (events : List StvEvent) : Prop :=
  ∀ ev ∈ events, ∀ elected vals q, ev = StvEvent.electWithQuota elected vals q →
    q = quota ∧ ∀ c ∈ elected, ∃ v, alGet vals c = some v ∧ Frac.blt quota v = true

/-- `ElectEventsOk` for the event log of a success result. -/
def StvResultOk (quota : Frac) (r : StvResult) : Prop :=
  ∀ w evs, r = StvResult.success w evs → ElectEventsOk quota evs

/-- Combined goal for the two outcomes of the inner loop. -/
def InnerOut (quota : Frac) : StvState ⊕ StvResult → Prop
  | .inl st => ElectEventsOk quota st.events
  | .inr r => StvResultOk quota r

/-- Value of one table row (proof side). -/
def rowQ (r : List Frac) : ℚ := (r.map Frac.toRat).sum

/-- Sum of all row values of the table. -/
def tableRowsQ (values : List (Nat × List Frac)) : ℚ :=
  (values.map (fun p => rowQ p.2)).sum

/-- Value of one ballot column of the table. -/
def colQ (values : List (Nat × List Frac)) (i : Nat) : ℚ :=
  (values.map (fun p => Frac.toRat (p.2.getD i (Frac.ofNat 0)))).sum

/-- Well-formedness of the Gregory table: one row per original candidate,
rows of ballot length, nonnegative well-formed cells, ballot columns
summing to at most one, and row sums coherent with `candValues`. -/
structure VVInv (N : Nat) (keys : List Nat) (vv : VoteValues) : Prop where
  keysEq : alKeys vv.values = keys
  keysNodup : keys.Nodup
  rowsLen : ∀ p ∈ vv.values, p.2.length = N
  cellsOk : ∀ p ∈ vv.values, ∀ f ∈ p.2, 0 < f.den ∧ 0 ≤ f.num
  colLe : ∀ i, i < N → colQ vv.values i ≤ 1
  cvKeys : ∀ k ∈ alKeys vv.candValues, k ∈ keys
  cvDen : ∀ p ∈ vv.candValues, 0 < p.2.den
  cvEq : ∀ c ∈ keys, Frac.toRat (alGetD vv.candValues c (Frac.ofNat 0)) =
    rowQ ((alGet vv.values c).getD [])

/-- Loop invariant of `singleTransferableVote` (conservation of vote value
plus the bookkeeping of the elected/remaining partition). -/
structure StInv (N : Nat) (origCands : List Nat) (quota : Frac) (mw : Nat)
    (st : StvState) : Prop where
  remSub : ∀ c ∈ st.remaining, c ∈ origCands
  remNodup : st.remaining.Nodup
  elSub : ∀ c ∈ st.elected, c ∈ origCands
  elNodup : st.elected.Nodup
  disj : ∀ c ∈ st.elected, c ∉ st.remaining
  elLen : st.elected.length ≤ mw
  vvInv : VVInv N origCands st.vv
  elVal : ∀ c ∈ st.elected, Frac.toRat quota ≤
    Frac.toRat (alGetD st.vv.candValues c (Frac.ofNat 0))
  qeSub : ∀ c ∈ st.quotaElected, c ∈ st.elected
  qeNodup : st.quotaElected.Nodup
  qeVal : ∀ c ∈ st.quotaElected, Frac.toRat quota <
    Frac.toRat (alGetD st.vv.candValues c (Frac.ofNat 0))

/-- The running tally of the scan folds: bump every nonzero scanned value. -/
def tallyFrom (t : List (Nat × Nat)) (ws : List Nat) : List (Nat × Nat) :=
  ws.foldl (fun t w => if w ≠ 0 then alBump t w else t) t

/-- Goal shape for the inner elimination loop: the continuation state
satisfies `P`, an early return is never a success. -/
def InnerStOut (P : StvState → Prop) : StvState ⊕ StvResult → Prop
  | .inl st => P st
  | .inr r => ∀ w evs, r ≠ StvResult.success w evs

end Voting

namespace Voting

/-! ## Theorems: association list basics -/

theorem alGet_alSet_self {β : Type} (m : List (Nat × β)) (k : Nat) (v : β) :
    alGet (alSet m k v) k = some v := by
  induction m with
  | nil => simp [alSet, alGet, List.find?]
  | cons q m ih =>
    by_cases hqk : q.1 = k
    · simp [alSet, hqk, alGet, List.find?]
    · simp only [alSet, if_neg hqk]
      have h2 : (q.1 == k) = false := by simp [hqk]
      simpa [alGet, List.find?, h2] using ih

theorem alGet_alSet_ne {β : Type} (m : List (Nat × β)) (k k' : Nat) (v : β)
    (hne : k' ≠ k) : alGet (alSet m k v) k' = alGet m k' := by
  have h1 : (k == k') = false := by simp [Ne.symm hne]
  induction m with
  | nil => simp [alSet, alGet, List.find?, h1]
  | cons q m ih =>
    by_cases hqk : q.1 = k
    · have h2 : (q.1 == k') = false := by simp [hqk, Ne.symm hne]
      simp [alSet, hqk, alGet, List.find?, h1, h2]
    · by_cases hq' : q.1 = k'
      · subst hq'
        simp [alSet, if_neg hqk, alGet, List.find?]
      · have h2 : (q.1 == k') = false := by simp [hq']
        simp only [alSet, if_neg hqk]
        simpa [alGet, List.find?, h2] using ih

theorem alGetD_alBump_self (m : List (Nat × Nat)) (k : Nat) :
    alGetD (alBump m k) k 0 = alGetD m k 0 + 1 := by
  unfold alBump alGetD
  rw [alGet_alSet_self]
  rfl

theorem alGetD_alBump_ne (m : List (Nat × Nat)) (k k' : Nat) (hne : k' ≠ k) :
    alGetD (alBump m k) k' 0 = alGetD m k' 0 := by
  unfold alBump alGetD
  rw [alGet_alSet_ne _ _ _ _ hne]

end Voting

namespace Voting

/-! ## Theorems: encoder mention tally -/

theorem alGetD_alBump (m : List (Nat × Nat)) (k c : Nat) :
    alGetD (alBump m k) c 0 = alGetD m c 0 + (if k = c then 1 else 0) := by
  by_cases h : c = k
  · subst h
    simp [alGetD_alBump_self]
  · rw [alGetD_alBump_ne m k c h, if_neg (Ne.symm h)]
    simp

theorem alKeys_alSet_mem {β : Type} (m : List (Nat × β)) (k : Nat) (v : β) :
    ∀ x, x ∈ alKeys (alSet m k v) → x ∈ alKeys m ∨ x = k := by
  induction m with
  | nil => intro x hx; simp [alSet, alKeys] at hx; right; exact hx
  | cons q m ih =>
    intro x hx
    by_cases hqk : q.1 = k
    · simp only [alSet, if_pos hqk, alKeys, List.map_cons, List.mem_cons] at hx
      rcases hx with h | h
      · right; exact h
      · left; simp [alKeys, List.mem_cons]; right; simpa [alKeys] using h
    · simp only [alSet, if_neg hqk, alKeys, List.map_cons, List.mem_cons] at hx
      rcases hx with h | h
      · left; simp [alKeys, h]
      · rcases ih x (by simpa [alKeys] using h) with h' | h'
        · left; simp [alKeys] at h' ⊢; right; exact h'
        · right; exact h'

theorem alSet_of_not_mem {β : Type} (m : List (Nat × β)) (k : Nat) (v : β)
    (h : k ∉ alKeys m) : alSet m k v = m ++ [(k, v)] := by
  induction m with
  | nil => simp [alSet]
  | cons q m ih =>
    simp only [alKeys, List.map_cons, List.mem_cons] at h
    push_neg at h
    have hqk : ¬q.1 = k := fun hh => h.1 hh.symm
    simp only [alSet, if_neg hqk]
    rw [List.cons_append, ih (by simpa [alKeys] using h.2)]

theorem alKeys_alSet_of_mem {β : Type} (m : List (Nat × β)) (k : Nat) (v : β)
    (h : k ∈ alKeys m) : alKeys (alSet m k v) = alKeys m := by
  induction m with
  | nil => simp [alKeys] at h
  | cons q m ih =>
    by_cases hqk : q.1 = k
    · simp [alSet, if_pos hqk, alKeys, hqk]
    · simp only [alKeys, List.map_cons, List.mem_cons] at h
      rcases h with h | h
      · exact absurd h.symm hqk
      · simp only [alSet, if_neg hqk, alKeys, List.map_cons]
        rw [show List.map Prod.fst (alSet m k v) = alKeys (alSet m k v) from rfl,
          ih (by simpa [alKeys] using h)]
        rfl

theorem keysNodup_alSet {β : Type} (m : List (Nat × β)) (k : Nat) (v : β)
    (h : KeysNodup m) : KeysNodup (alSet m k v) := by
  by_cases hk : k ∈ alKeys m
  · unfold KeysNodup
    rw [alKeys_alSet_of_mem m k v hk]
    exact h
  · unfold KeysNodup at h ⊢
    rw [alSet_of_not_mem m k v hk]
    unfold alKeys at h hk ⊢
    rw [List.map_append]
    simp only [List.map_cons, List.map_nil]
    exact List.Nodup.append h (List.nodup_singleton _) (by
      intro x hx hmem
      simp only [List.mem_singleton] at hmem
      subst hmem
      exact hk hx)

theorem mentStep_alBump (m : List (Nat × Nat)) (k : Nat) :
    MentStep m (alBump m k) (fun c => if k = c then 1 else 0) [k] := by
  refine ⟨fun c => alGetD_alBump m k c, ?_, ?_⟩
  · intro x hx
    rcases alKeys_alSet_mem m k _ x hx with h | h
    · left; exact h
    · right; simp [h]
  · intro h
    exact keysNodup_alSet m k _ h

theorem mentStep_refl (m : List (Nat × Nat)) : MentStep m m (fun _ => 0) [] := by
  exact ⟨fun c => by simp, fun x hx => Or.inl hx, fun h => h⟩

theorem mentStep_trans {m m' m'' : List (Nat × Nat)} {o1 o2 : Nat → Nat}
    {s1 s2 : List Nat} (h1 : MentStep m m' o1 s1) (h2 : MentStep m' m'' o2 s2) :
    MentStep m m'' (fun c => o1 c + o2 c) (s1 ++ s2) := by
  obtain ⟨a1, b1, c1⟩ := h1
  obtain ⟨a2, b2, c2⟩ := h2
  refine ⟨fun c => ?_, fun x hx => ?_, fun h => c2 (c1 h)⟩
  · rw [a2, a1, Nat.add_assoc]
  · rcases b2 x hx with h | h
    · rcases b1 x h with h' | h'
      · left; exact h'
      · right; exact List.mem_append_left _ h'
    · right; exact List.mem_append_right _ h

theorem addGroupItems_ok (ids : List Nat) :
    ∀ m, (∀ id ∈ ids, id ≠ 0) →
    ∃ ws m', addGroupItems m ids = .ok (ws, m') ∧
      MentStep m m' (fun c => idCount c ids) ids := by
  induction ids with
  | nil =>
    intro m _
    refine ⟨[], m, rfl, ?_⟩
    have := mentStep_refl m
    simpa [idCount] using this
  | cons id rest ih =>
    intro m h
    have hid : id ≠ 0 := h id (List.mem_cons_self _ _)
    obtain ⟨ws, m', hok, hstep⟩ := ih (alBump m id) (fun i hi => h i (List.mem_cons_of_mem _ hi))
    refine ⟨(id % 65536) :: ws, m', ?_, ?_⟩
    · unfold addGroupItems
      rw [if_neg hid, hok]
      rfl
    · have htr := mentStep_trans (mentStep_alBump m id) hstep
      refine ⟨fun c => ?_, fun x hx => ?_, htr.2.2⟩
      · rw [htr.1 c]
        rfl
      · rcases htr.2.1 x hx with h' | h'
        · left; exact h'
        · right
          rcases List.mem_append.mp h' with h'' | h''
          · simp only [List.mem_singleton] at h''
            simp [h'']
          · exact List.mem_cons_of_mem _ h''

theorem addBallotRanks_ok (ranks : List RankEntry) :
    ∀ m isFirst, (∀ r ∈ ranks, ∀ id ∈ rankIds r, id ≠ 0) →
    ∃ ws mf, addBallotRanks m isFirst ranks = .ok (ws, mf) ∧
      MentStep m mf (fun c => (ranks.map (rankOcc c)).sum) ((ranks.map rankIds).flatten) := by
  induction ranks with
  | nil =>
    intro m isFirst _
    refine ⟨[], m, rfl, ?_⟩
    simpa using mentStep_refl m
  | cons r rest ih =>
    intro m isFirst h
    have hr : ∀ id ∈ rankIds r, id ≠ 0 := h r (List.mem_cons_self _ _)
    have hrest : ∀ r' ∈ rest, ∀ id ∈ rankIds r', id ≠ 0 :=
      fun r' hr' => h r' (List.mem_cons_of_mem _ hr')
    match r with
    | .single id =>
      obtain ⟨ws, mf, hok, hstep⟩ := ih (alBump m id) false hrest
      refine ⟨(if isFirst then [] else [0]) ++ [id % 65536] ++ ws, mf, ?_, ?_⟩
      · show (do
          let (ws2, mf2) ← addBallotRanks (alBump m id) false rest
          Except.ok ((if isFirst then [] else [0]) ++ [id % 65536] ++ ws2, mf2)) =
          Except.ok ((if isFirst then [] else [0]) ++ [id % 65536] ++ ws, mf)
        rw [hok]
        rfl
      · have htr := mentStep_trans (mentStep_alBump m id) hstep
        refine ⟨fun c => ?_, fun x hx => ?_, htr.2.2⟩
        · rw [htr.1 c]
          simp [rankOcc]
        · rcases htr.2.1 x hx with h' | h'
          · left; exact h'
          · right
            simp only [List.map_cons, List.flatten_cons, rankIds]
            rcases List.mem_append.mp h' with h'' | h''
            · simp only [List.mem_singleton] at h''
              simp [h'']
            · exact List.mem_append_right _ h''
    | .group ids =>
      obtain ⟨gws, m', hgok, hgstep⟩ := addGroupItems_ok ids m (by simpa [rankIds] using hr)
      obtain ⟨ws, mf, hok, hstep⟩ := ih m' false hrest
      refine ⟨(if isFirst then [] else [0]) ++ gws ++ ws, mf, ?_, ?_⟩
      · show (do
          let (gws2, m2) ← addGroupItems m ids
          let (ws2, mf2) ← addBallotRanks m2 false rest
          Except.ok ((if isFirst then [] else [0]) ++ gws2 ++ ws2, mf2)) =
          Except.ok ((if isFirst then [] else [0]) ++ gws ++ ws, mf)
        rw [hgok]
        show (do
          let (ws2, mf2) ← addBallotRanks m' false rest
          Except.ok ((if isFirst then [] else [0]) ++ gws ++ ws2, mf2)) =
          Except.ok ((if isFirst then [] else [0]) ++ gws ++ ws, mf)
        rw [hok]
        rfl
      · have htr := mentStep_trans hgstep hstep
        refine ⟨fun c => ?_, fun x hx => ?_, htr.2.2⟩
        · rw [htr.1 c]
          simp [rankOcc]
        · rcases htr.2.1 x hx with h' | h'
          · left; exact h'
          · right
            simp only [List.map_cons, List.flatten_cons, rankIds]
            exact List.mem_append.mpr (by
              rcases List.mem_append.mp h' with h'' | h''
              · exact Or.inl h''
              · exact Or.inr h'')

end Voting

namespace Voting

/-! ## Theorems: the encoder fold and the mentions round trip -/

theorem addBallot_ok (e : BallotEncoder) (b : List RankEntry)
    (h : ∀ r ∈ b, ∀ id ∈ rankIds r, id ≠ 0) :
    ∃ e', e.addBallot b = .ok e' ∧ e'.count = e.count ∧
      MentStep e.candidateMentions e'.candidateMentions
        (fun c => ballotOcc c b) ((b.map rankIds).flatten) := by
  obtain ⟨ws, mf, hok, hstep⟩ := addBallotRanks_ok b e.candidateMentions true h
  refine ⟨{ e with rows := e.rows ++ [ws], candidateMentions := mf }, ?_, rfl, hstep⟩
  unfold BallotEncoder.addBallot
  rw [hok]
  rfl

theorem encodeFold_ok (bs : List (List RankEntry)) :
    ∀ e : BallotEncoder, (∀ b ∈ bs, ∀ r ∈ b, ∀ id ∈ rankIds r, id ≠ 0) →
    ∃ e', bs.foldlM (fun e b => e.addBallot b) e = .ok e' ∧ e'.count = e.count ∧
      MentStep e.candidateMentions e'.candidateMentions
        (fun c => totalOcc c bs) (ballotIdsAll bs) := by
  induction bs with
  | nil =>
    intro e _
    refine ⟨e, rfl, rfl, ?_⟩
    simpa [totalOcc, ballotIdsAll] using mentStep_refl e.candidateMentions
  | cons b rest ih =>
    intro e h
    obtain ⟨e1, hok1, hc1, hstep1⟩ := addBallot_ok e b (h b (List.mem_cons_self _ _))
    obtain ⟨e2, hok2, hc2, hstep2⟩ := ih e1 (fun b' hb' => h b' (List.mem_cons_of_mem _ hb'))
    refine ⟨e2, ?_, hc2.trans hc1, ?_⟩
    · rw [List.foldlM_cons, hok1]
      exact hok2
    · have htr := mentStep_trans hstep1 hstep2
      refine ⟨fun c => ?_, fun x hx => ?_, htr.2.2⟩
      · rw [htr.1 c]
        simp [totalOcc, ballotOcc]
      · rcases htr.2.1 x hx with h' | h'
        · left; exact h'
        · right
          simp only [ballotIdsAll, List.map_cons, List.flatten_cons]
          exact List.mem_append.mpr (by
            rcases List.mem_append.mp h' with h'' | h''
            · exact Or.inl h''
            · exact Or.inr (by simpa [ballotIdsAll] using h''))

theorem alGet_map_snd {β γ : Type} (m : List (Nat × β)) (f : β → γ) (k : Nat) :
    alGet (m.map (fun p => (p.1, f p.2))) k = (alGet m k).map f := by
  induction m with
  | nil => simp [alGet, List.find?]
  | cons q m ih =>
    by_cases hq : q.1 = k
    · simp [alGet, List.find?, hq]
    · have h2 : (q.1 == k) = false := by simp [hq]
      simp only [List.map_cons]
      simpa [alGet, List.find?, h2] using ih

theorem foldl_alSet_fresh {β : Type} (t : List (Nat × β)) :
    ∀ acc : List (Nat × β), KeysNodup (acc ++ t) →
    t.foldl (fun m p => alSet m p.1 p.2) acc = acc ++ t := by
  induction t with
  | nil => intro acc _; simp
  | cons p rest ih =>
    intro acc hnd
    have hp : p.1 ∉ alKeys acc := by
      intro hmem
      unfold KeysNodup alKeys at hnd
      rw [List.map_append, List.nodup_append] at hnd
      exact hnd.2.2 (by simpa [alKeys] using hmem) (by simp)
    rw [List.foldl_cons, alSet_of_not_mem acc p.1 p.2 hp]
    have := ih (acc ++ [p]) (by simpa using hnd)
    simpa using this

/-- Mentions table of a finished buffer, unfolded. -/
theorem finish_mentionsTable (e : BallotEncoder) :
    (e.finish).mentionsTable =
      e.candidateMentions.map (fun p => (p.1 % 4294967296, p.2 % 4294967296)) := rfl

/-- C7: encoding a list of ballots whose ranks contain only nonzero ids
(within the buffer's id range) and then reading `candidateMentions` on the
finished buffer yields, for every candidate id `c` whose total occurrence
count fits the 32-bit mentions field, exactly the number of occurrences of
`c` across all ranks of all input ballots. -/
theorem c7_mentions_roundTrip (bs : List (List RankEntry)) (buf : VoteBuffer)
    (hids : ∀ b ∈ bs, ∀ r ∈ b, ∀ id ∈ rankIds r, 0 < id ∧ id < 4294967296)
    (hbuf : encodeBallots bs = .ok buf) :
    ∀ c, totalOcc c bs < 4294967296 →
      alGetD (candidateMentions buf) c 0 = totalOcc c bs := by
  obtain ⟨e', hfold, _, hstep⟩ := encodeFold_ok bs (BallotEncoder.new bs.length)
    (fun b hb r hr id hid => Nat.pos_iff_ne_zero.mp (hids b hb r hr id hid).1)
  have hbuf2 : (Except.ok e'.finish : Except String VoteBuffer) = Except.ok buf := by
    rw [← hbuf]
    unfold encodeBallots
    rw [hfold]
    rfl
  have hbuf' : buf = e'.finish := (Except.ok.inj hbuf2).symm
  -- every key of the final tally is an id occurring on some ballot
  have hkeys : ∀ x ∈ alKeys e'.candidateMentions, 0 < x ∧ x < 4294967296 := by
    intro x hx
    rcases hstep.2.1 x hx with h | h
    · simp [BallotEncoder.new, alKeys] at h
    · simp only [ballotIdsAll, List.mem_flatten, List.mem_map] at h
      obtain ⟨l, ⟨b, hb, rfl⟩, hl⟩ := h
      simp only [List.mem_flatten, List.mem_map] at hl
      obtain ⟨l2, ⟨r, hr, rfl⟩, hl2⟩ := hl
      exact hids b hb r hr x hl2
  have hnodup : KeysNodup e'.candidateMentions := by
    refine hstep.2.2 ?_
    simp [KeysNodup, alKeys, BallotEncoder.new]
  have hcount : ∀ c, alGetD e'.candidateMentions c 0 = totalOcc c bs := by
    intro c
    have := hstep.1 c
    simpa [BallotEncoder.new, alGetD, alGet, List.find?] using this
  -- the written table truncates only values; keys are unchanged
  have htable : buf.mentionsTable =
      e'.candidateMentions.map (fun p => (p.1, p.2 % 4294967296)) := by
    rw [hbuf', finish_mentionsTable]
    refine List.map_congr_left (fun p hp => ?_)
    have h1 : p.1 % 4294967296 = p.1 :=
      Nat.mod_eq_of_lt (hkeys p.1 (by simp [alKeys]; exact ⟨p.2, hp⟩)).2
    rw [h1]
  have hkeysTable : alKeys buf.mentionsTable = alKeys e'.candidateMentions := by
    rw [htable]
    simp [alKeys, List.map_map]
  have hread : candidateMentions buf = buf.mentionsTable := by
    unfold candidateMentions
    have := foldl_alSet_fresh buf.mentionsTable []
    refine (this ?_).trans (by simp)
    simpa [KeysNodup, hkeysTable] using hnodup
  intro c hc
  rw [hread, htable]
  have hmap := alGet_map_snd e'.candidateMentions (fun v => v % 4294967296) c
  unfold alGetD
  rw [hmap]
  have hcc := hcount c
  unfold alGetD at hcc
  rcases hval : alGet e'.candidateMentions c with _ | v
  · rw [hval] at hcc
    simp at hcc
    simp [← hcc]
  · rw [hval] at hcc
    simp at hcc
    subst hcc
    simpa using Nat.mod_eq_of_lt hc

/-- C8: the id-zero check of `addBallot` covers only ids given inside a rank
set.  A rank given as the single number 0 is encoded without any error: the
word 0 (a rank separator) is written and candidate id 0 is tallied, while the
same id inside a rank set raises the error. -/
theorem c8_zeroSingleRank_notRejected :
    (BallotEncoder.new 1).addBallot [RankEntry.single 0] =
      .ok { count := 1, rows := [[0]], candidateMentions := [(0, 1)] } ∧
    (BallotEncoder.new 1).addBallot [RankEntry.group [0]] =
      .error "ballot item cannot be 0" := by
  constructor
  · rfl
  · rfl

/-- C9: `addBallot` never compares the running ballot index with the declared
count, so adding more ballots than declared completes without any error: an
encoder declared for one ballot accepts a second ballot and returns a state
with two rows (the second pointer write lands in the slot reserved for the
mentions offset of the real buffer). -/
theorem c9_overflow_notRejected :
    (BallotEncoder.new 1).addBallot [RankEntry.single 1] =
      .ok { count := 1, rows := [[1]], candidateMentions := [(1, 1)] } ∧
    ({ count := 1, rows := [[1]], candidateMentions := [(1, 1)] } :
        BallotEncoder).addBallot [RankEntry.single 2] =
      .ok { count := 1, rows := [[1], [2]], candidateMentions := [(1, 1), (2, 1)] } := by
  constructor
  · rfl
  · rfl

/-- Witness for the round-trip theorem at a concrete ballot list. -/
theorem c7_mentions_roundTrip_witness :
    alGetD (candidateMentions
      { count := 2, rows := [[1, 2, 0, 3], [1]],
        tailWords := [0, 1, 0, 2, 0, 2, 0, 1, 0, 3, 0, 1, 0],
        mentionsTable := [(1, 2), (2, 1), (3, 1)] }) 1 0 =
      totalOcc 1 [[RankEntry.group [1, 2], RankEntry.single 3], [RankEntry.group [1]]] :=
  c7_mentions_roundTrip
    [[RankEntry.group [1, 2], RankEntry.single 3], [RankEntry.group [1]]]
    { count := 2, rows := [[1, 2, 0, 3], [1]],
      tailWords := [0, 1, 0, 2, 0, 2, 0, 1, 0, 3, 0, 1, 0],
      mentionsTable := [(1, 2), (2, 1), (3, 1)] }
    (by decide) (by rfl) 1 (by decide)

end Voting

namespace Voting

/-! ## Theorems: stable sort and erase-fold facts -/

theorem sortInsert_perm {α : Type} (le : α → α → Bool) (x : α) :
    ∀ l : List α, (sortInsert le x l).Perm (x :: l) := by
  intro l
  induction l with
  | nil => simp [sortInsert]
  | cons y ys ih =>
    unfold sortInsert
    split
    · exact List.Perm.refl _
    · exact (ih.cons y).trans (List.Perm.swap x y ys)

theorem sortByLe_perm {α : Type} (le : α → α → Bool) :
    ∀ l : List α, (sortByLe le l).Perm l := by
  intro l
  induction l with
  | nil => simp [sortByLe]
  | cons x xs ih =>
    exact (sortInsert_perm le x (sortByLe le xs)).trans (ih.cons x)

theorem foldl_erase_subset {α : Type} [DecidableEq α] (xs : List α) :
    ∀ (l : List α) (x : α),
      x ∈ xs.foldl (fun (acc : List α) c => acc.erase c) l → x ∈ l := by
  induction xs with
  | nil => intro l x h; simpa using h
  | cons c cs ih =>
    intro l x h
    rw [List.foldl_cons] at h
    exact List.erase_subset _ _ (ih (l.erase c) x h)

theorem foldl_erase_nodup {α : Type} [DecidableEq α] (xs : List α) :
    ∀ l : List α, l.Nodup →
      (xs.foldl (fun (acc : List α) c => acc.erase c) l).Nodup := by
  induction xs with
  | nil => intro l h; simpa using h
  | cons c cs ih =>
    intro l h
    rw [List.foldl_cons]
    exact ih _ (h.erase c)

theorem foldl_erase_not_mem {α : Type} [DecidableEq α] (xs : List α) :
    ∀ (l : List α) (x : α), l.Nodup → x ∈ xs →
      x ∉ xs.foldl (fun (acc : List α) c => acc.erase c) l := by
  induction xs with
  | nil => intro l x _ h; cases h
  | cons c cs ih =>
    intro l x hnd hx hmem
    rw [List.foldl_cons] at hmem
    rcases List.mem_cons.mp hx with rfl | hx'
    · exact hnd.not_mem_erase (foldl_erase_subset cs (l.erase x) x hmem)
    · exact ih (l.erase c) x (hnd.erase c) hx' hmem

end Voting

namespace Voting

/-! ## Theorems: Threshold Majority -/

/-- C1: refuted by the code.  `thresholdMajority` sorts candidates by the
comparator `aMentions - bMentions`, which is *ascending* order, and then
keeps the head of that order, so on a buffer where candidate 2 has two
mentions and candidate 1 has none (more candidates than `max_winners`, no
boundary tie) it elects the candidate with the *fewest* mentions: the result
is `Success` with winners `[1]` although candidate 2 has strictly more
mentions than candidate 1.  This contradicts the claim, the function's own
doc comment ("The candidates with the most votes will be chosen") and the
repository's tests, which expect the most-mentioned candidates. -/
theorem c1_thresholdMajority_electsFewestMentioned :
    thresholdMajority 1 [1, 2]
      { count := 2, rows := [[2], [2]], tailWords := [2, 0, 2, 0],
        mentionsTable := [(2, 2)] } none =
      .success { winners := [1], tally := [(2, 2)] } ∧
    alGetD [(2, 2)] 1 0 < alGetD [(2, 2)] 2 0 := by
  constructor
  · rfl
  · decide

theorem tm_winners_of_perm (sorted cands : List Nat) (mw : Nat)
    (hperm : sorted.Perm cands) (hnd : cands.Nodup) :
    (sorted.take mw).length ≤ mw ∧ (∀ w ∈ sorted.take mw, w ∈ cands) ∧
      (sorted.take mw).Nodup := by
  have hsnd : sorted.Nodup := hperm.symm.nodup hnd
  refine ⟨List.length_take_le mw sorted, ?_, (List.take_sublist mw sorted).nodup hsnd⟩
  intro w hw
  exact hperm.mem_iff.mp ((List.take_sublist mw sorted).subset hw)

theorem tm_winners_tie_branch (mw : Nat) (b : VoteBuffer) (cands : List Nat)
    (hnd : cands.Nodup) :
    (tmTieWinners mw b cands).length ≤ mw ∧
      (∀ w ∈ tmTieWinners mw b cands, w ∈ cands) ∧
      (tmTieWinners mw b cands).Nodup := by
  have hperm : (tmSorted b cands).Perm cands := sortByLe_perm _ cands
  have hsnd : (tmSorted b cands).Nodup := hperm.symm.nodup hnd
  have hcutnd : ((tmSorted b cands).take mw).Nodup :=
    (List.take_sublist mw _).nodup hsnd
  have hambnd : (tmAmbiguous mw b cands).Nodup :=
    (List.filter_sublist _).nodup hsnd
  have hrebuilt : (((tmAmbiguous mw b cands).foldl (fun (acc : List Nat) c => acc.erase c)
      ((tmSorted b cands).take mw)) ++ tmAmbiguous mw b cands).Nodup := by
    refine List.Nodup.append (foldl_erase_nodup _ _ hcutnd) hambnd ?_
    intro x hx hxamb
    exact foldl_erase_not_mem _ _ x hcutnd hxamb hx
  refine ⟨List.length_take_le _ _, ?_, (List.take_sublist _ _).nodup hrebuilt⟩
  intro w hw
  have hw' := (List.take_sublist mw _).subset hw
  rcases List.mem_append.mp hw' with h | h
  · have := foldl_erase_subset _ _ w h
    exact hperm.mem_iff.mp ((List.take_sublist mw _).subset this)
  · exact hperm.mem_iff.mp ((List.filter_sublist _).subset h)

/-- Winners invariant for `thresholdMajority`: any `Success` result elects at
most `maxWinners` candidates, all drawn from the input candidate list,
without duplicates (for a duplicate-free input list). -/
theorem tm_winners_invariant (mw : Nat) (cands : List Nat) (b : VoteBuffer)
    (tb : Option (List Nat)) (d : TmData) (hnd : cands.Nodup)
    (h : thresholdMajority mw cands b tb = .success d) :
    d.winners.length ≤ mw ∧ (∀ w ∈ d.winners, w ∈ cands) ∧ d.winners.Nodup := by
  have hperm : (tmSorted b cands).Perm cands := sortByLe_perm _ cands
  unfold thresholdMajority at h
  split at h
  · rcases tb with _ | tbv
    · cases h
    · dsimp only at h
      by_cases hc : 2 ≤ cands.length ∧ ∃ c ∈ cands, c ∉ tbv
      · rw [if_pos hc] at h
        cases h
      · rw [if_neg hc] at h
        cases h
        exact tm_winners_tie_branch mw b cands hnd
  · cases h
    exact tm_winners_of_perm _ cands mw hperm hnd

end Voting

namespace Voting

/-! ## Theorems: pairwise rank comparison (C4) -/

theorem idCount_eq_zero_not_mem (c : Nat) :
    ∀ ws : List Nat, idCount c ws = 0 → c ∉ ws := by
  intro ws
  induction ws with
  | nil => intro _ h; cases h
  | cons w ws ih =>
    intro h hmem
    unfold idCount at h
    by_cases hw : w = c
    · rw [if_pos hw] at h; omega
    · rw [if_neg hw] at h
      simp only [Nat.zero_add] at h
      rcases List.mem_cons.mp hmem with rfl | hmem'
      · exact hw rfl
      · exact ih h hmem'

theorem compareLoop_none_none (a b : Nat) :
    ∀ (ws : List Nat) (rank : Int), a ∉ ws → b ∉ ws →
    compareLoop a b ws none none rank = (none, none) := by
  intro ws
  induction ws with
  | nil => intro rank _ _; rfl
  | cons w ws ih =>
    intro rank ha hb
    have hwa : w ≠ a := fun h => ha (h ▸ List.mem_cons_self w ws)
    have hwb : w ≠ b := fun h => hb (h ▸ List.mem_cons_self w ws)
    have ha' : a ∉ ws := fun h => ha (List.mem_cons_of_mem _ h)
    have hb' : b ∉ ws := fun h => hb (List.mem_cons_of_mem _ h)
    unfold compareLoop
    by_cases hw0 : w = 0
    · rw [if_pos hw0]
      simpa using ih (rank + 1) ha' hb'
    · rw [if_neg hw0]
      simp only [if_neg hwa]
      have : ¬(w ≠ a ∧ w = b) := fun hc => hwb hc.2
      simp only [if_neg this]
      simpa using ih rank ha' hb'

theorem compareLoop_some_none (a b : Nat) :
    ∀ (ws : List Nat) (r rank : Int), b ∉ ws →
    ∃ r', compareLoop a b ws (some r) none rank = (some r', none) := by
  intro ws
  induction ws with
  | nil => intro r rank _; exact ⟨r, rfl⟩
  | cons w ws ih =>
    intro r rank hb
    have hwb : w ≠ b := fun h => hb (h ▸ List.mem_cons_self w ws)
    have hb' : b ∉ ws := fun h => hb (List.mem_cons_of_mem _ h)
    unfold compareLoop
    by_cases hw0 : w = 0
    · rw [if_pos hw0]
      simpa using ih r (rank + 1) hb'
    · rw [if_neg hw0]
      have hnb : ¬(w ≠ a ∧ w = b) := fun hc => hwb hc.2
      by_cases hwa : w = a
      · simp only [if_pos hwa, if_neg hnb]
        simpa using ih rank rank hb'
      · simp only [if_neg hwa, if_neg hnb]
        simpa using ih r rank hb'

theorem compareLoop_a_only (a b : Nat) :
    ∀ (ws : List Nat) (rank : Int), a ∈ ws → b ∉ ws → a ≠ 0 →
    ∃ r', compareLoop a b ws none none rank = (some r', none) := by
  intro ws
  induction ws with
  | nil => intro rank h; cases h
  | cons w ws ih =>
    intro rank ha hb ha0
    have hwb : w ≠ b := fun h => hb (h ▸ List.mem_cons_self w ws)
    have hb' : b ∉ ws := fun h => hb (List.mem_cons_of_mem _ h)
    unfold compareLoop
    by_cases hw0 : w = 0
    · rw [if_pos hw0]
      have hwa : w ≠ a := fun h => ha0 (h.symm.trans hw0)
      have ha' : a ∈ ws := by
        rcases List.mem_cons.mp ha with h | h
        · exact absurd h.symm hwa
        · exact h
      simpa using ih (rank + 1) ha' hb' ha0
    · rw [if_neg hw0]
      have hnb : ¬(w ≠ a ∧ w = b) := fun hc => hwb hc.2
      by_cases hwa : w = a
      · simp only [if_pos hwa, if_neg hnb]
        simpa using compareLoop_some_none a b ws rank rank hb'
      · simp only [if_neg hwa, if_neg hnb]
        have ha' : a ∈ ws := by
          rcases List.mem_cons.mp ha with h | h
          · exact absurd h.symm hwa
          · exact h
        simpa using ih rank ha' hb' ha0

theorem compareLoop_none_some (a b : Nat) :
    ∀ (ws : List Nat) (r rank : Int), a ∉ ws →
    ∃ r', compareLoop a b ws none (some r) rank = (none, some r') := by
  intro ws
  induction ws with
  | nil => intro r rank _; exact ⟨r, rfl⟩
  | cons w ws ih =>
    intro r rank ha
    have hwa : w ≠ a := fun h => ha (h ▸ List.mem_cons_self w ws)
    have ha' : a ∉ ws := fun h => ha (List.mem_cons_of_mem _ h)
    unfold compareLoop
    by_cases hw0 : w = 0
    · rw [if_pos hw0]
      simpa using ih r (rank + 1) ha'
    · rw [if_neg hw0]
      simp only [if_neg hwa]
      by_cases hwb : w = b
      · have : (w ≠ a ∧ w = b) := ⟨hwa, hwb⟩
        simp only [if_pos this]
        simpa using ih rank rank ha'
      · have : ¬(w ≠ a ∧ w = b) := fun hc => hwb hc.2
        simp only [if_neg this]
        simpa using ih r rank ha'

theorem compareLoop_b_only (a b : Nat) :
    ∀ (ws : List Nat) (rank : Int), a ∉ ws → b ∈ ws → b ≠ 0 →
    ∃ r', compareLoop a b ws none none rank = (none, some r') := by
  intro ws
  induction ws with
  | nil => intro rank _ h; cases h
  | cons w ws ih =>
    intro rank ha hb hb0
    have hwa : w ≠ a := fun h => ha (h ▸ List.mem_cons_self w ws)
    have ha' : a ∉ ws := fun h => ha (List.mem_cons_of_mem _ h)
    unfold compareLoop
    by_cases hw0 : w = 0
    · rw [if_pos hw0]
      have hwb : w ≠ b := fun h => hb0 (h.symm.trans hw0)
      have hb' : b ∈ ws := by
        rcases List.mem_cons.mp hb with h | h
        · exact absurd h.symm hwb
        · exact h
      simpa using ih (rank + 1) ha' hb' hb0
    · rw [if_neg hw0]
      simp only [if_neg hwa]
      by_cases hwb : w = b
      · have : (w ≠ a ∧ w = b) := ⟨hwa, hwb⟩
        simp only [if_pos this]
        simpa using compareLoop_none_some a b ws rank rank ha'
      · have : ¬(w ≠ a ∧ w = b) := fun hc => hwb hc.2
        simp only [if_neg this]
        have hb' : b ∈ ws := by
          rcases List.mem_cons.mp hb with h | h
          · exact absurd h.symm hwb
          · exact h
        simpa using ih rank ha' hb' hb0

theorem compareLoop_found_a (a b : Nat) :
    ∀ (ws : List Nat) (r rank : Int), a ∉ ws → b ∈ ws → b ≠ 0 →
    compareLoop a b ws (some r) none rank =
      (some r, some (rank + (rankOfFirst b ws : Int))) := by
  intro ws
  induction ws with
  | nil => intro r rank _ h; cases h
  | cons w ws ih =>
    intro r rank ha hb hb0
    have hwa : w ≠ a := fun h => ha (h ▸ List.mem_cons_self w ws)
    have ha' : a ∉ ws := fun h => ha (List.mem_cons_of_mem _ h)
    unfold compareLoop
    by_cases hwb : w = b
    · have hw0 : ¬ w = 0 := fun h => hb0 (hwb.symm.trans h)
      rw [if_neg hw0]
      simp only [if_neg hwa, if_pos (And.intro hwa hwb)]
      rw [if_pos (by simp : ((some r).isSome ∧ (some rank).isSome))]
      have h1 : rankOfFirst b (w :: ws) = 0 := by
        show (if w = b then 0 else (if w = 0 then 1 else 0) + rankOfFirst b ws) = 0
        rw [if_pos hwb]
      rw [h1]
      simp
    · have hb' : b ∈ ws := by
        rcases List.mem_cons.mp hb with h | h
        · exact absurd h.symm hwb
        · exact h
      by_cases hw0 : w = 0
      · rw [if_pos hw0]
        rw [if_neg (by simp : ¬((some r).isSome ∧ (none : Option Int).isSome))]
        rw [ih r (rank + 1) ha' hb' hb0]
        have h1 : rankOfFirst b (w :: ws) = 1 + rankOfFirst b ws := by
          show (if w = b then 0 else (if w = 0 then 1 else 0) + rankOfFirst b ws) =
            1 + rankOfFirst b ws
          rw [if_neg (fun h => hwb h), if_pos hw0]
        rw [h1]
        simp only [Prod.mk.injEq, Option.some_inj, true_and]
        push_cast
        ring
      · rw [if_neg hw0]
        have hnb : ¬(w ≠ a ∧ w = b) := fun hc => hwb hc.2
        simp only [if_neg hwa, if_neg hnb]
        rw [if_neg (by simp : ¬((some r).isSome ∧ (none : Option Int).isSome))]
        rw [ih r rank ha' hb' hb0]
        have h1 : rankOfFirst b (w :: ws) = rankOfFirst b ws := by
          show (if w = b then 0 else (if w = 0 then 1 else 0) + rankOfFirst b ws) =
            rankOfFirst b ws
          rw [if_neg (fun h => hwb h), if_neg hw0, Nat.zero_add]
        rw [h1]


theorem compareLoop_found_b (a b : Nat) :
    ∀ (ws : List Nat) (r rank : Int), b ∉ ws → a ∈ ws → a ≠ 0 →
    compareLoop a b ws none (some r) rank =
      (some (rank + (rankOfFirst a ws : Int)), some r) := by
  intro ws
  induction ws with
  | nil => intro r rank _ h; cases h
  | cons w ws ih =>
    intro r rank hb ha ha0
    have hwb : w ≠ b := fun h => hb (h ▸ List.mem_cons_self w ws)
    have hb' : b ∉ ws := fun h => hb (List.mem_cons_of_mem _ h)
    unfold compareLoop
    by_cases hwa : w = a
    · have hw0 : ¬ w = 0 := fun h => ha0 (hwa.symm.trans h)
      rw [if_neg hw0]
      have hnb : ¬(w ≠ a ∧ w = b) := fun hc => hc.1 hwa
      simp only [if_pos hwa, if_neg hnb]
      rw [if_pos (by simp : ((some rank).isSome ∧ (some r).isSome))]
      have h1 : rankOfFirst a (w :: ws) = 0 := by
        show (if w = a then 0 else (if w = 0 then 1 else 0) + rankOfFirst a ws) = 0
        rw [if_pos hwa]
      rw [h1]
      simp
    · have ha' : a ∈ ws := by
        rcases List.mem_cons.mp ha with h | h
        · exact absurd h.symm hwa
        · exact h
      by_cases hw0 : w = 0
      · rw [if_pos hw0]
        rw [if_neg (by simp : ¬((none : Option Int).isSome ∧ (some r).isSome))]
        rw [ih r (rank + 1) hb' ha' ha0]
        have h1 : rankOfFirst a (w :: ws) = 1 + rankOfFirst a ws := by
          show (if w = a then 0 else (if w = 0 then 1 else 0) + rankOfFirst a ws) =
            1 + rankOfFirst a ws
          rw [if_neg (fun h => hwa h), if_pos hw0]
        rw [h1]
        simp only [Prod.mk.injEq, Option.some_inj, and_true]
        push_cast
        ring
      · rw [if_neg hw0]
        have hnb : ¬(w ≠ a ∧ w = b) := fun hc => hwb hc.2
        simp only [if_neg hwa, if_neg hnb]
        rw [if_neg (by simp : ¬((none : Option Int).isSome ∧ (some r).isSome))]
        rw [ih r rank hb' ha' ha0]
        have h1 : rankOfFirst a (w :: ws) = rankOfFirst a ws := by
          show (if w = a then 0 else (if w = 0 then 1 else 0) + rankOfFirst a ws) =
            rankOfFirst a ws
          rw [if_neg (fun h => hwa h), if_neg hw0, Nat.zero_add]
        rw [h1]

theorem compareLoop_both (a b : Nat) :
    ∀ (ws : List Nat) (rank : Int), a ∈ ws → b ∈ ws → a ≠ b → a ≠ 0 → b ≠ 0 →
    idCount a ws ≤ 1 → idCount b ws ≤ 1 →
    compareLoop a b ws none none rank =
      (some (rank + (rankOfFirst a ws : Int)),
       some (rank + (rankOfFirst b ws : Int))) := by
  intro ws
  induction ws with
  | nil => intro rank h; cases h
  | cons w ws ih =>
    intro rank ha hb hab ha0 hb0 hca hcb
    unfold compareLoop
    by_cases hwa : w = a
    · have hw0 : ¬ w = 0 := fun h => ha0 (hwa.symm.trans h)
      rw [if_neg hw0]
      have hwb : ¬ w = b := fun h => hab (hwa.symm.trans h)
      have hnb : ¬(w ≠ a ∧ w = b) := fun hc => hc.1 hwa
      simp only [if_pos hwa, if_neg hnb]
      rw [if_neg (by simp : ¬((some rank).isSome ∧ (none : Option Int).isSome))]
      have hca' : idCount a ws = 0 := by
        unfold idCount at hca
        rw [if_pos hwa] at hca
        omega
      have ha' : a ∉ ws := idCount_eq_zero_not_mem a ws hca'
      have hb' : b ∈ ws := by
        rcases List.mem_cons.mp hb with h | h
        · exact absurd h.symm hwb
        · exact h
      rw [compareLoop_found_a a b ws rank rank ha' hb' hb0]
      have h1 : rankOfFirst a (w :: ws) = 0 := by
        show (if w = a then 0 else (if w = 0 then 1 else 0) + rankOfFirst a ws) = 0
        rw [if_pos hwa]
      have h2 : rankOfFirst b (w :: ws) = rankOfFirst b ws := by
        show (if w = b then 0 else (if w = 0 then 1 else 0) + rankOfFirst b ws) =
          rankOfFirst b ws
        rw [if_neg hwb, if_neg hw0, Nat.zero_add]
      rw [h1, h2]
      simp
    · by_cases hwb : w = b
      · have hw0 : ¬ w = 0 := fun h => hb0 (hwb.symm.trans h)
        rw [if_neg hw0]
        have hnb : (w ≠ a ∧ w = b) := ⟨hwa, hwb⟩
        simp only [if_neg hwa, if_pos hnb]
        rw [if_neg (by simp : ¬((none : Option Int).isSome ∧ (some rank).isSome))]
        have hcb' : idCount b ws = 0 := by
          unfold idCount at hcb
          rw [if_pos hwb] at hcb
          omega
        have hb' : b ∉ ws := idCount_eq_zero_not_mem b ws hcb'
        have ha' : a ∈ ws := by
          rcases List.mem_cons.mp ha with h | h
          · exact absurd h.symm hwa
          · exact h
        rw [compareLoop_found_b a b ws rank rank hb' ha' ha0]
        have h1 : rankOfFirst b (w :: ws) = 0 := by
          show (if w = b then 0 else (if w = 0 then 1 else 0) + rankOfFirst b ws) = 0
          rw [if_pos hwb]
        have h2 : rankOfFirst a (w :: ws) = rankOfFirst a ws := by
          show (if w = a then 0 else (if w = 0 then 1 else 0) + rankOfFirst a ws) =
            rankOfFirst a ws
          rw [if_neg hwa, if_neg hw0, Nat.zero_add]
        rw [h1, h2]
        simp
      · have ha' : a ∈ ws := by
          rcases List.mem_cons.mp ha with h | h
          · exact absurd h.symm hwa
          · exact h
        have hb' : b ∈ ws := by
          rcases List.mem_cons.mp hb with h | h
          · exact absurd h.symm hwb
          · exact h
        have hca' : idCount a ws ≤ 1 := by
          unfold idCount at hca
          rw [if_neg hwa] at hca
          omega
        have hcb' : idCount b ws ≤ 1 := by
          unfold idCount at hcb
          rw [if_neg hwb] at hcb
          omega
        by_cases hw0 : w = 0
        · rw [if_pos hw0]
          rw [if_neg (by simp : ¬((none : Option Int).isSome ∧ (none : Option Int).isSome))]
          rw [ih (rank + 1) ha' hb' hab ha0 hb0 hca' hcb']
          have h1 : rankOfFirst a (w :: ws) = 1 + rankOfFirst a ws := by
            show (if w = a then 0 else (if w = 0 then 1 else 0) + rankOfFirst a ws) =
              1 + rankOfFirst a ws
            rw [if_neg hwa, if_pos hw0]
          have h2 : rankOfFirst b (w :: ws) = 1 + rankOfFirst b ws := by
            show (if w = b then 0 else (if w = 0 then 1 else 0) + rankOfFirst b ws) =
              1 + rankOfFirst b ws
            rw [if_neg hwb, if_pos hw0]
          rw [h1, h2]
          simp only [Prod.mk.injEq, Option.some_inj]
          constructor
          · push_cast
            ring
          · push_cast
            ring
        · rw [if_neg hw0]
          have hnb : ¬(w ≠ a ∧ w = b) := fun hc => hwb hc.2
          simp only [if_neg hwa, if_neg hnb]
          rw [if_neg (by simp : ¬((none : Option Int).isSome ∧ (none : Option Int).isSome))]
          rw [ih rank ha' hb' hab ha0 hb0 hca' hcb']
          have h1 : rankOfFirst a (w :: ws) = rankOfFirst a ws := by
            show (if w = a then 0 else (if w = 0 then 1 else 0) + rankOfFirst a ws) =
              rankOfFirst a ws
            rw [if_neg hwa, if_neg hw0, Nat.zero_add]
          have h2 : rankOfFirst b (w :: ws) = rankOfFirst b ws := by
            show (if w = b then 0 else (if w = 0 then 1 else 0) + rankOfFirst b ws) =
              rankOfFirst b ws
            rw [if_neg hwb, if_neg hw0, Nat.zero_add]
          rw [h1, h2]


/-- C4, counterexample: the claim assigns the `-Infinity` sentinel to the
case where only `a` appears.  On the finalized single-ballot buffer whose
only ballot is `[1]`, comparing `a = 1` (present) against `b = 2` (absent)
returns `+Infinity`, not `-Infinity`: the code returns `-Infinity` exactly
when `a` is the *absent* node (`rankA === null`). -/
theorem c4_compare_counterexample :
    (VoteBuffer.rows
      { count := 1, rows := [[1]], tailWords := [1, 0, 1, 0],
        mentionsTable := [(1, 1)] }).get? 0 = some [1] ∧
    compareNodesAccordingToBallot [1] 1 2 = .posInf ∧
    BallotCmp.posInf ≠ BallotCmp.negInf := by
  refine ⟨rfl, rfl, ?_⟩
  decide

/-- C4, amended: for every ballot of a finalized buffer and distinct nonzero
candidates `a`, `b` that each appear at most once on the ballot, the pairwise
comparison returns 0 when neither appears, `+Infinity` when only `a`
appears, `-Infinity` when only `b` appears, and `rank(b) - rank(a)` when
both appear, where ranks count zero-separator-delimited groups from the
ballot's start (positive results mean `a` is preferred). -/
theorem c4_compare_cases (bf : VoteBuffer) (i : Nat) (row : List Nat)
    (a b : Nat) (hrow : bf.rows.get? i = some row) (hab : a ≠ b)
    (ha0 : a ≠ 0) (hb0 : b ≠ 0)
    (hca : idCount a row ≤ 1) (hcb : idCount b row ≤ 1) :
    (a ∉ row ∧ b ∉ row → compareNodesAccordingToBallot row a b = .fin 0) ∧
    (a ∈ row ∧ b ∉ row → compareNodesAccordingToBallot row a b = .posInf) ∧
    (a ∉ row ∧ b ∈ row → compareNodesAccordingToBallot row a b = .negInf) ∧
    (a ∈ row ∧ b ∈ row → compareNodesAccordingToBallot row a b =
      .fin ((rankOfFirst b row : Int) - (rankOfFirst a row : Int))) := by
  refine ⟨?_, ?_, ?_, ?_⟩
  · rintro ⟨ha, hb⟩
    unfold compareNodesAccordingToBallot
    rw [compareLoop_none_none a b row 0 ha hb]
  · rintro ⟨ha, hb⟩
    obtain ⟨r, hr⟩ := compareLoop_a_only a b row 0 ha hb ha0
    unfold compareNodesAccordingToBallot
    rw [hr]
  · rintro ⟨ha, hb⟩
    obtain ⟨r, hr⟩ := compareLoop_b_only a b row 0 ha hb hb0
    unfold compareNodesAccordingToBallot
    rw [hr]
  · rintro ⟨ha, hb⟩
    unfold compareNodesAccordingToBallot
    rw [compareLoop_both a b row 0 ha hb hab ha0 hb0 hca hcb]
    simp

/-- Witness: on the one-ballot buffer `[[1, 0, 2]]` both candidates appear
and the comparison equals the rank difference (`+1`: candidate 1 preferred). -/
theorem c4_compare_cases_witness :
    compareNodesAccordingToBallot [1, 0, 2] 1 2 =
      .fin ((rankOfFirst 2 [1, 0, 2] : Int) - (rankOfFirst 1 [1, 0, 2] : Int)) :=
  (c4_compare_cases
    { count := 1, rows := [[1, 0, 2]], tailWords := [0, 1, 0, 1, 0, 2, 0, 1, 0],
      mentionsTable := [(1, 1), (2, 1)] } 0 [1, 0, 2] 1 2 rfl
    (by decide) (by decide) (by decide) (by decide) (by decide)).2.2.2
    (by constructor <;> decide)

end Voting

namespace Voting

/-! ## Theorems: reachability — the fuelled search decides `Reach` -/

theorem reachFuel_sound (E : List (Nat × Nat)) :
    ∀ (f s t : Nat), reachFuel E f s t = true → Reach E s t := by
  intro f
  induction f with
  | zero =>
    intro s t h
    unfold reachFuel at h
    simp at h
    exact h ▸ Relation.ReflTransGen.refl
  | succ f ih =>
    intro s t h
    unfold reachFuel at h
    rw [Bool.or_eq_true] at h
    rcases h with h | h
    · simp at h
      exact h ▸ Relation.ReflTransGen.refl
    · rw [List.any_eq_true] at h
      obtain ⟨e, he, hrec⟩ := h
      rw [List.mem_filter] at he
      obtain ⟨heE, hsrc⟩ := he
      simp at hsrc
      refine Relation.ReflTransGen.head ?_ (ih e.2 t hrec)
      show (s, e.2) ∈ E
      have : e = (s, e.2) := by
        rcases e with ⟨e1, e2⟩
        simp at hsrc
        simp [hsrc]
      exact this ▸ heE

theorem chain_to_reachFuel (E : List (Nat × Nat)) :
    ∀ (l : List Nat) (s t f : Nat), List.Chain (stepRel E) s l →
    (s :: l).getLast (List.cons_ne_nil s l) = t → l.length ≤ f →
    reachFuel E f s t = true := by
  intro l
  induction l with
  | nil =>
    intro s t f _ hlast _
    simp at hlast
    cases f with
    | zero => simp [reachFuel, hlast]
    | succ f => simp [reachFuel, hlast]
  | cons z l ih =>
    intro s t f hchain hlast hlen
    rcases List.chain_cons.mp hchain with ⟨hstep, hchain'⟩
    cases f with
    | zero => simp at hlen
    | succ f =>
      unfold reachFuel
      rw [Bool.or_eq_true]
      right
      rw [List.any_eq_true]
      refine ⟨(s, z), ?_, ?_⟩
      · rw [List.mem_filter]
        exact ⟨hstep, by simp⟩
      · refine ih z t f hchain' ?_ (by simpa using hlen)
        simpa using hlast

theorem chain_suffix_of_mem {r : Nat → Nat → Prop} :
    ∀ (l : List Nat) (z s : Nat), List.Chain r z l → s ∈ z :: l →
    ∃ l', List.Chain r s l' ∧
      (s :: l').getLast (List.cons_ne_nil s l') =
        (z :: l).getLast (List.cons_ne_nil z l) ∧
      (s :: l').Sublist (z :: l) := by
  intro l
  induction l with
  | nil =>
    intro z s _ hmem
    simp at hmem
    exact ⟨[], List.Chain.nil, by simp [hmem], by simp [hmem]⟩
  | cons w l ih =>
    intro z s hchain hmem
    rcases List.chain_cons.mp hchain with ⟨hzw, hchain'⟩
    rcases List.mem_cons.mp hmem with rfl | hmem'
    · exact ⟨w :: l, hchain, rfl, List.Sublist.refl _⟩
    · obtain ⟨l', hc, hlast, hsub⟩ := ih w s hchain' hmem'
      refine ⟨l', hc, ?_, hsub.cons _⟩
      rw [hlast]
      simp [List.getLast_cons]

theorem reach_nodup_chain (E : List (Nat × Nat)) (s t : Nat)
    (h : Reach E s t) :
    ∃ l, List.Chain (stepRel E) s l ∧
      (s :: l).getLast (List.cons_ne_nil s l) = t ∧ (s :: l).Nodup := by
  induction h using Relation.ReflTransGen.head_induction_on with
  | refl => exact ⟨[], List.Chain.nil, rfl, List.nodup_singleton t⟩
  | head hstep _ ih =>
    rename_i a c _
    obtain ⟨l, hc, hlast, hnd⟩ := ih
    by_cases hmem : a ∈ c :: l
    · obtain ⟨l', hc', hlast', hsub⟩ := chain_suffix_of_mem l c a hc hmem
      exact ⟨l', hc', hlast'.trans hlast, hsub.nodup hnd⟩
    · exact ⟨c :: l, List.chain_cons.mpr ⟨hstep, hc⟩, by simpa using hlast,
        List.nodup_cons.mpr ⟨hmem, hnd⟩⟩

theorem chain_targets (E : List (Nat × Nat)) :
    ∀ (l : List Nat) (s : Nat), List.Chain (stepRel E) s l →
    ∀ x ∈ l, x ∈ E.map Prod.snd := by
  intro l
  induction l with
  | nil => intro s _ x hx; cases hx
  | cons z l ih =>
    intro s hchain x hx
    rcases List.chain_cons.mp hchain with ⟨hstep, hchain'⟩
    rcases List.mem_cons.mp hx with rfl | hx'
    · exact List.mem_map.mpr ⟨(s, x), hstep, rfl⟩
    · exact ih z hchain' x hx'

theorem reachFuel_complete (E : List (Nat × Nat)) (s t : Nat)
    (h : Reach E s t) : reachFuel E E.length s t = true := by
  obtain ⟨l, hc, hlast, hnd⟩ := reach_nodup_chain E s t h
  refine chain_to_reachFuel E l s t E.length hc hlast ?_
  have hlnd : l.Nodup := (List.nodup_cons.mp hnd).2
  have hsub : ∀ x ∈ l, x ∈ E.map Prod.snd := chain_targets E l s hc
  have h1 : l.toFinset.card = l.length := List.toFinset_card_of_nodup hlnd
  have h2 : l.toFinset ⊆ (E.map Prod.snd).toFinset := by
    intro x hx
    rw [List.mem_toFinset] at hx
    rw [List.mem_toFinset]
    exact hsub x hx
  calc l.length = l.toFinset.card := h1.symm
    _ ≤ (E.map Prod.snd).toFinset.card := Finset.card_le_card h2
    _ ≤ (E.map Prod.snd).length := List.toFinset_card_le _
    _ = E.length := List.length_map _ _

theorem isReachable_iff (E : List (Nat × Nat)) (s t : Nat) :
    isReachable E s t = true ↔ Reach E s t := by
  constructor
  · exact reachFuel_sound E E.length s t
  · exact reachFuel_complete E s t

theorem not_reach_of_isReachable_false (E : List (Nat × Nat)) (s t : Nat)
    (h : isReachable E s t = false) : ¬ Reach E s t := by
  intro hr
  rw [← isReachable_iff] at hr
  rw [h] at hr
  cases hr

theorem acyclicB_sound (E : List (Nat × Nat)) (h : acyclicB E = true) :
    Acyclic E := by
  intro e he hr
  unfold acyclicB at h
  rw [List.all_eq_true] at h
  have := h e he
  rw [decide_eq_true_eq] at this
  exact this ((isReachable_iff E e.2 e.1).mpr hr)

end Voting

namespace Voting

/-! ## Theorems: acyclicity of the lock graph -/

theorem tourLt_irrefl (tbL : List Nat) (x : Nat) : ¬ tourLt tbL x x := by
  unfold tourLt
  omega

theorem tourLt_asymm (tbL : List Nat) (x y : Nat)
    (h1 : tourLt tbL x y) (h2 : tourLt tbL y x) : False := by
  unfold tourLt at h1 h2
  omega

theorem tourLt_trans (tbL : List Nat) (x y z : Nat)
    (h1 : tourLt tbL x y) (h2 : tourLt tbL y z) : tourLt tbL x z := by
  unfold tourLt at h1 h2 ⊢
  omega

theorem reach_append_single (E : List (Nat × Nat)) (u v x y : Nat)
    (h : Reach (E ++ [(u, v)]) x y) :
    Reach E x y ∨ (Reach E x u ∧ Reach E v y) := by
  induction h with
  | refl => exact Or.inl Relation.ReflTransGen.refl
  | tail _ hbc ih =>
    rcases List.mem_append.mp hbc with hE | hnew
    · rcases ih with h1 | ⟨h1, h2⟩
      · exact Or.inl (h1.tail hE)
      · exact Or.inr ⟨h1, h2.tail hE⟩
    · rename_i b c _
      have hb : b = u ∧ c = v := by simpa using hnew
      rcases ih with h1 | ⟨h1, _⟩
      · exact Or.inr ⟨hb.1 ▸ h1, hb.2 ▸ Relation.ReflTransGen.refl⟩
      · exact Or.inr ⟨h1, hb.2 ▸ Relation.ReflTransGen.refl⟩

theorem acyclic_append_single (E : List (Nat × Nat)) (u v : Nat)
    (hac : Acyclic E) (hnr : ¬ Reach E v u) : Acyclic (E ++ [(u, v)]) := by
  intro e he hr
  obtain ⟨a, b⟩ := e
  rcases List.mem_append.mp he with heE | henew
  · rcases reach_append_single E u v b a hr with h1 | ⟨h1, h2⟩
    · exact hac (a, b) heE h1
    · exact hnr ((h2.tail (show stepRel E a b from heE)).trans h1)
  · obtain ⟨rfl, rfl⟩ : a = u ∧ b = v := by simpa using henew
    rcases reach_append_single E a b b a hr with h1 | ⟨h1, _⟩
    · exact hnr h1
    · exact hnr h1

theorem lockInsert_acyclic (E : List (Nat × Nat)) (u v : Nat)
    (hac : Acyclic E) (hnr : ¬ Reach E v u) : Acyclic (lockInsert E u v) := by
  unfold lockInsert
  split
  · exact hac
  · exact acyclic_append_single E u v hac hnr

theorem lockStep_acyclic (rows : List (List Nat)) (tbL : List Nat)
    (E : List (Nat × Nat)) (p : Nat × Nat) (hac : Acyclic E) :
    Acyclic (lockStep rows tbL E p) := by
  unfold lockStep
  split
  · split
    · exact hac
    · next h =>
      exact lockInsert_acyclic E p.1 p.2 hac
        (fun hr => h ((isReachable_iff E p.2 p.1).mpr hr))
  · split
    · exact hac
    · next h =>
      exact lockInsert_acyclic E p.2 p.1 hac
        (fun hr => h ((isReachable_iff E p.1 p.2).mpr hr))

theorem acyclic_nil : Acyclic ([] : List (Nat × Nat)) :=
  fun e he => absurd he (List.not_mem_nil e)

theorem lockFoldl_acyclic (rows : List (List Nat)) (tbL : List Nat) :
    ∀ (l : List (Nat × Nat)) (E : List (Nat × Nat)), Acyclic E →
    Acyclic (l.foldl (lockStep rows tbL) E) := by
  intro l
  induction l with
  | nil => intro E h; exact h
  | cons p l ih => intro E h; exact ih _ (lockStep_acyclic rows tbL E p h)

theorem reach_into_roots (tbL : List Nat) (roots : List Nat)
    (G T : List (Nat × Nat)) (hG : ∀ e ∈ G, e.2 ∉ roots)
    (hT : TournEdges tbL roots T) (x r : Nat) (hr : r ∈ roots)
    (h : Reach (G ++ T) x r) : x ∈ roots ∧ (x = r ∨ tourLt tbL x r) := by
  induction h using Relation.ReflTransGen.head_induction_on with
  | refl => exact ⟨hr, Or.inl rfl⟩
  | head hstep _ ih =>
    rename_i a b _
    rcases List.mem_append.mp hstep with hGe | hTe
    · exact absurd ih.1 (hG (a, b) hGe)
    · obtain ⟨ha, _, hab⟩ := hT (a, b) hTe
      refine ⟨ha, Or.inr ?_⟩
      rcases ih.2 with rfl | hlt
      · exact hab
      · exact tourLt_trans tbL a b r hab hlt

theorem tourn_insert_step (tbL : List Nat) (roots : List Nat)
    (G T : List (Nat × Nat)) (x y : Nat)
    (hac : Acyclic (G ++ T)) (hG : ∀ e ∈ G, e.2 ∉ roots)
    (hT : TournEdges tbL roots T)
    (hx : x ∈ roots) (hy : y ∈ roots) (hxy : tourLt tbL x y) :
    ∃ T', lockInsert (G ++ T) x y = G ++ T' ∧ Acyclic (G ++ T') ∧
      TournEdges tbL roots T' := by
  have hnr : ¬ Reach (G ++ T) y x := by
    intro hr
    obtain ⟨hyr, hcase⟩ := reach_into_roots tbL roots G T hG hT y x hx hr
    rcases hcase with rfl | hlt
    · exact tourLt_irrefl tbL _ hxy
    · exact tourLt_asymm tbL x y hxy hlt
  by_cases hmem : (x, y) ∈ G ++ T
  · refine ⟨T, ?_, hac, hT⟩
    unfold lockInsert
    rw [if_pos hmem]
  · refine ⟨T ++ [(x, y)], ?_, ?_, ?_⟩
    · unfold lockInsert
      rw [if_neg hmem, List.append_assoc]
    · rw [← List.append_assoc]
      exact acyclic_append_single (G ++ T) x y hac hnr
    · intro e he
      rcases List.mem_append.mp he with h1 | h2
      · exact hT e h1
      · have : e = (x, y) := by simpa using h2
        subst this
        exact ⟨hx, hy, hxy⟩

theorem tournFold_acyclic (tbL : List Nat) (roots : List Nat) :
    ∀ (ps : List (Nat × Nat)) (G T : List (Nat × Nat)),
    Acyclic (G ++ T) → (∀ e ∈ G, e.2 ∉ roots) → TournEdges tbL roots T →
    (∀ p ∈ ps, p.2 < p.1 ∧ p.1 ∈ roots ∧ p.2 ∈ roots) →
    Acyclic (ps.foldl (tournStep tbL) (G ++ T)) := by
  intro ps
  induction ps with
  | nil => intro G T hac _ _ _; exact hac
  | cons p ps ih =>
    intro G T hac hG hT hps
    obtain ⟨hlt, h1, h2⟩ := hps p (List.mem_cons_self p ps)
    have hrest : ∀ q ∈ ps, q.2 < q.1 ∧ q.1 ∈ roots ∧ q.2 ∈ roots :=
      fun q hq => hps q (List.mem_cons_of_mem p hq)
    show Acyclic (ps.foldl (tournStep tbL) (tournStep tbL (G ++ T) p))
    unfold tournStep
    split
    · next hidx =>
      obtain ⟨T', heq, hac', hT'⟩ :=
        tourn_insert_step tbL roots G T p.1 p.2 hac hG hT h1 h2 (Or.inl hidx)
      rw [heq]
      exact ih G T' hac' hG hT' hrest
    · next hidx =>
      have hxy : tourLt tbL p.2 p.1 := by
        unfold tourLt
        rcases lt_or_eq_of_le (not_lt.mp hidx) with h | h
        · exact Or.inl h
        · exact Or.inr ⟨h, hlt⟩
      obtain ⟨T', heq, hac', hT'⟩ :=
        tourn_insert_step tbL roots G T p.2 p.1 hac hG hT h2 h1 hxy
      rw [heq]
      exact ih G T' hac' hG hT' hrest

theorem mem_rootPairsSeq (roots : List Nat) (p : Nat × Nat)
    (hp : p ∈ rootPairsSeq roots) : p.2 < p.1 ∧ p.1 ∈ roots ∧ p.2 ∈ roots := by
  unfold rootPairsSeq at hp
  rw [List.mem_flatten] at hp
  obtain ⟨inner, hinner, hpin⟩ := hp
  rw [List.mem_map] at hinner
  obtain ⟨n, hn, rfl⟩ := hinner
  rw [List.mem_map] at hpin
  obtain ⟨o, ho, rfl⟩ := hpin
  refine ⟨?_, hn, (List.takeWhile_prefix _).subset ho⟩
  have := List.mem_takeWhile_imp ho
  simpa using this

theorem findRoots_no_incoming (nodes : List Nat) (E : List (Nat × Nat))
    (r : Nat) (hr : r ∈ findRoots nodes E) : ∀ e ∈ E, e.2 ≠ r := by
  intro e he heq
  unfold findRoots at hr
  rw [List.mem_filter] at hr
  have h2 := hr.2
  rw [decide_eq_true_eq] at h2
  exact h2 (by rw [List.any_eq_true]; exact ⟨e, he, by simp [heq]⟩)

end Voting

namespace Voting

/-- C6: Throughout every Ranked Pairs round the lock graph is acyclic: after
locking in any prefix of the ordered pairs (each winning-direction edge being
added only when the reverse direction is not already reachable, per
`lockStep`), and after inserting any prefix of the extra tie-breaker-directed
edges between the roots of the locked graph, the edge list contains no
directed cycle. -/
theorem c6_lockGraph_acyclic (rows : List (List Nat)) (tbL : List Nat)
    (ps : List (Nat × Nat)) (mentioned : List Nat) (n m : Nat) :
    Acyclic ((ps.take n).foldl (lockStep rows tbL) []) ∧
    Acyclic (((rootPairsSeq (findRoots mentioned
        (buildLockEdges rows tbL ps))).take m).foldl
      (tournStep tbL) (buildLockEdges rows tbL ps)) := by
  constructor
  · exact lockFoldl_acyclic rows tbL (ps.take n) [] acyclic_nil
  · have hacG : Acyclic (buildLockEdges rows tbL ps) :=
      lockFoldl_acyclic rows tbL ps [] acyclic_nil
    have hGr : ∀ e ∈ buildLockEdges rows tbL ps,
        e.2 ∉ findRoots mentioned (buildLockEdges rows tbL ps) := by
      intro e he hmem
      exact findRoots_no_incoming mentioned _ e.2 hmem e he rfl
    have h := tournFold_acyclic tbL
      (findRoots mentioned (buildLockEdges rows tbL ps))
      ((rootPairsSeq (findRoots mentioned (buildLockEdges rows tbL ps))).take m)
      (buildLockEdges rows tbL ps) []
      (by rwa [List.append_nil]) hGr
      (fun e he => absurd he (List.not_mem_nil e))
      (fun p hp => mem_rootPairsSeq _ p (List.mem_of_mem_take hp))
    rwa [List.append_nil] at h

end Voting

namespace Voting

/-! ## Theorems: the in-place candidate sort seen by the dispatcher (C10) -/

theorem chain_sortInsert (a x : Nat) (l : List Nat) (ha : a ≤ x)
    (h : List.Chain (· ≤ ·) a l) :
    List.Chain (· ≤ ·) a (sortInsert (fun p q => p ≤ q) x l) := by
  induction l generalizing a with
  | nil =>
    unfold sortInsert
    exact List.chain_cons.mpr ⟨ha, List.Chain.nil⟩
  | cons y ys ih =>
    rcases List.chain_cons.mp h with ⟨hay, hrest⟩
    unfold sortInsert
    by_cases hxy : x ≤ y
    · rw [if_pos (decide_eq_true hxy)]
      exact List.chain_cons.mpr ⟨ha, List.chain_cons.mpr ⟨hxy, hrest⟩⟩
    · rw [if_neg (by simpa using hxy)]
      exact List.chain_cons.mpr ⟨hay, ih y (le_of_not_le hxy) hrest⟩

theorem sortInsert_chain' (x : Nat) (l : List Nat)
    (h : List.Chain' (· ≤ ·) l) :
    List.Chain' (· ≤ ·) (sortInsert (fun p q => p ≤ q) x l) := by
  cases l with
  | nil =>
    unfold sortInsert
    exact List.chain'_singleton x
  | cons y ys =>
    unfold sortInsert
    by_cases hxy : x ≤ y
    · rw [if_pos (decide_eq_true hxy)]
      exact List.chain'_cons.mpr ⟨hxy, h⟩
    · rw [if_neg (by simpa using hxy)]
      show List.Chain (· ≤ ·) y (sortInsert (fun p q => p ≤ q) x ys)
      exact chain_sortInsert y x ys (le_of_not_le hxy) h

theorem sortByLe_chain' (l : List Nat) :
    List.Chain' (· ≤ ·) (sortByLe (fun p q => p ≤ q) l) := by
  induction l with
  | nil => exact List.chain'_nil
  | cons x xs ih =>
    unfold sortByLe
    exact sortInsert_chain' x _ ih

/-- C10: `rankedPairs` sorts its candidates argument in place, so the array
the dispatcher passed — `mentions.includedByMentions`, which it returns
inside every Ranked Pairs result — comes back ascending by id (a
permutation of the filtered list), not in the caller's original candidate
order: the concrete caller order [2, 1] comes back changed. -/
theorem c10_includedByMentions_reordered :
    (∀ (passes : Nat → Bool) (candidates : List Nat) (buf : VoteBuffer),
      List.Chain' (· ≤ ·)
        (rpCandidatesAfterCall (includedByMentionsOf passes candidates buf)) ∧
      (rpCandidatesAfterCall
          (includedByMentionsOf passes candidates buf)).Perm
        (includedByMentionsOf passes candidates buf)) ∧
    rpCandidatesAfterCall (includedByMentionsOf (fun _ => true) [2, 1]
        ⟨0, [], [], []⟩) ≠ [2, 1] := by
  constructor
  · intro passes candidates buf
    exact ⟨sortByLe_chain' _, sortByLe_perm _ _⟩
  · decide

end Voting

namespace Voting

/-- C3: refuted — `scanNthPreferences` does not read each ballot's ids in
encoded order.  The scan loop's stray `i++` skips every other word: on the
encoded ballots `[[{1,2}, 3], [9]]` with active set `{2, 9}` and `n = 0`,
the first ballot's row is `[1, 2, 0, 3]` and its first active id is 2, but
the code inspects only the words `1` and `0` and finds nothing, returning
tally `{9: 1}` and output `[0, 9]` where the claim requires `{2: 1, 9: 1}`
and `[2, 9]` (the claim's reading is `specNthPreferences`).  The last-ballot
scan also runs past the row into the trailing mentions-table words. -/
theorem c3_scanNth_skipsEveryOtherWord :
    encodeBallots [[.group [1, 2], .single 3], [.single 9]] = .ok
      { count := 2, rows := [[1, 2, 0, 3], [9]],
        tailWords := [0, 1, 0, 1, 0, 2, 0, 1, 0, 3, 0, 1, 0, 9, 0, 1, 0],
        mentionsTable := [(1, 1), (2, 1), (3, 1), (9, 1)] } ∧
    scanNthPreferences
      { count := 2, rows := [[1, 2, 0, 3], [9]],
        tailWords := [0, 1, 0, 1, 0, 2, 0, 1, 0, 3, 0, 1, 0, 9, 0, 1, 0],
        mentionsTable := [(1, 1), (2, 1), (3, 1), (9, 1)] } [2, 9] 0
      = ([(9, 1)], [0, 9]) ∧
    specNthPreferences
      { count := 2, rows := [[1, 2, 0, 3], [9]],
        tailWords := [0, 1, 0, 1, 0, 2, 0, 1, 0, 3, 0, 1, 0, 9, 0, 1, 0],
        mentionsTable := [(1, 1), (2, 1), (3, 1), (9, 1)] } [2, 9] 0
      = ([(2, 1), (9, 1)], [2, 9]) := by
  exact ⟨rfl, by decide, by decide⟩

end Voting

namespace Voting

/-! ## Theorems: quota elections (C5) -/

/-- Everything in the pool has a stored vote value strictly above the
quota. -/
theorem electPool_mem (remaining : List Nat) (vv : VoteValues) (quota : Frac)
    (c : Nat) (h : c ∈ electPool remaining vv quota) :
    ∃ v, alGet vv.candValues c = some v ∧ Frac.blt quota v = true := by
  unfold electPool at h
  rw [List.mem_map] at h
  obtain ⟨p, hp, rfl⟩ := h
  have hp' := (sortByLe_perm _ _).mem_iff.mp hp
  rw [List.mem_filterMap] at hp'
  obtain ⟨a, _, hfa⟩ := hp'
  rcases hga : alGet vv.candValues a with _ | v
  · rw [hga] at hfa
    simp at hfa
  · rw [hga] at hfa
    dsimp only at hfa
    by_cases hb : Frac.blt quota v = true
    · rw [if_pos hb] at hfa
      obtain rfl : (a, v) = p := by simpa using hfa
      exact ⟨v, hga, hb⟩
    · rw [if_neg hb] at hfa
      simp at hfa

theorem sortByTieBreaker_ok_mem (cands tbl : List Nat) (l : List Nat)
    (h : sortByTieBreaker cands tbl = .ok l) : ∀ x ∈ l, x ∈ cands := by
  unfold sortByTieBreaker at h
  simp only [] at h
  split at h
  · obtain rfl : sortByLe (fun a b => tbl.indexOf a ≤ tbl.indexOf b) cands = l := by
      simpa using h
    exact fun x hx => (sortByLe_perm _ _).mem_iff.mp hx
  · cases h

/-- The overflow re-cut only keeps elements of the original pool list. -/
theorem recutNewly_subset (newlyElected ambiguous sortedAmb : List Nat)
    (maxNewly : Nat) (hamb : ∀ x ∈ sortedAmb, x ∈ ambiguous)
    (hsub : ∀ x ∈ ambiguous, x ∈ newlyElected) :
    ∀ c ∈ recutNewly newlyElected ambiguous sortedAmb maxNewly,
      c ∈ newlyElected := by
  intro c hc
  unfold recutNewly at hc
  rcases List.mem_append.mp (List.mem_of_mem_take hc) with h2 | h2
  · exact List.mem_of_mem_take (foldl_erase_subset _ _ c h2)
  · exact hsub c (hamb c h2)

/-- Whatever `electOverflow` elects is in the pool list it was given. -/
theorem electOverflow_inl_subset (remaining : List Nat) (vv : VoteValues)
    (tb : Option (List Nat)) (elected : List Nat) (newlyElected : List Nat)
    (sv : Option Frac) (maxNewly : Nat) (res : List Nat × List Nat × List Nat)
    (h : electOverflow remaining vv tb elected newlyElected sv maxNewly = .inl res) :
    ∀ c ∈ res.1, c ∈ newlyElected := by
  unfold electOverflow at h
  split at h
  · rcases tb with _ | tbl
    · simp at h
    · dsimp only at h
      rcases hsort : sortByTieBreaker
          (newlyElected.filter (fun c => optValEq (alGet vv.candValues c) sv)) tbl
        with missing | sortedAmb
      · rw [hsort] at h
        cases h
      · rw [hsort] at h
        simp only [] at h
        cases h
        intro c hc
        refine recutNewly_subset _ _ _ _ ?_ ?_ c hc
        · exact sortByTieBreaker_ok_mem _ _ _ hsort
        · intro x hx
          exact (List.mem_filter.mp hx).1
  · cases h
    intro c hc
    exact hc

/-- Whatever `electFromPool` elects is in the pool list it was given. -/
theorem electFromPool_inl_subset (remaining : List Nat) (vv : VoteValues)
    (mw : Nat) (tb : Option (List Nat)) (elected : List Nat)
    (newlyElected : List Nat) (res : List Nat × List Nat × List Nat)
    (h : electFromPool remaining vv mw tb elected newlyElected = .inl res) :
    ∀ c ∈ res.1, c ∈ newlyElected := by
  unfold electFromPool at h
  split at h
  · exact electOverflow_inl_subset _ _ _ _ _ _ _ _ h
  · cases h
    intro c hc
    exact hc

/-- Everything `electUsingFixedQuota` elects had a stored vote value
strictly above the quota. -/
theorem elect_inl_newly_mem (remaining : List Nat) (vv : VoteValues)
    (quota : Frac) (mw : Nat) (tb : Option (List Nat)) (elected : List Nat)
    (res : List Nat × List Nat × List Nat)
    (h : electUsingFixedQuota remaining vv quota mw tb elected = .inl res) :
    ∀ c ∈ res.1, ∃ v, alGet vv.candValues c = some v ∧ Frac.blt quota v = true := by
  intro c hc
  exact electPool_mem remaining vv quota c
    (electFromPool_inl_subset remaining vv mw tb elected _ res h c hc)

end Voting

namespace Voting

theorem electEventsOk_nil (quota : Frac) : ElectEventsOk quota [] :=
  fun ev hev => absurd hev (List.not_mem_nil ev)

theorem electEventsOk_append (quota : Frac) (e1 e2 : List StvEvent)
    (h1 : ElectEventsOk quota e1) (h2 : ElectEventsOk quota e2) :
    ElectEventsOk quota (e1 ++ e2) := by
  intro ev hev
  rcases List.mem_append.mp hev with h | h
  · exact h1 ev h
  · exact h2 ev h

theorem electEventsOk_elim (quota : Frac) (cand : Nat)
    (vals : List (Nat × Frac)) :
    ElectEventsOk quota [StvEvent.eliminate cand vals] := by
  intro ev hev elected vals' q heq
  rw [List.mem_singleton] at hev
  subst hev
  cases heq

theorem electEventsOk_rest (quota : Frac) (l : List Nat) :
    ElectEventsOk quota [StvEvent.electRest l] := by
  intro ev hev elected vals' q heq
  rw [List.mem_singleton] at hev
  subst hev
  cases heq

theorem electEventsOk_elect (quota : Frac) (remaining : List Nat)
    (vv : VoteValues) (mw : Nat) (tb : Option (List Nat)) (elected : List Nat)
    (res : List Nat × List Nat × List Nat)
    (h : electUsingFixedQuota remaining vv quota mw tb elected = .inl res) :
    ElectEventsOk quota [StvEvent.electWithQuota res.1 vv.candValues quota] := by
  intro ev hev elected' vals q heq
  rw [List.mem_singleton] at hev
  subst hev
  cases heq
  exact ⟨rfl, elect_inl_newly_mem remaining vv quota mw tb elected res h⟩

theorem electOverflow_inr_ne_success (remaining : List Nat) (vv : VoteValues)
    (tb : Option (List Nat)) (elected : List Nat) (newlyElected : List Nat)
    (sv : Option Frac) (maxNewly : Nat) (r : StvResult)
    (h : electOverflow remaining vv tb elected newlyElected sv maxNewly = .inr r) :
    ∀ w evs, r ≠ StvResult.success w evs := by
  unfold electOverflow at h
  split at h
  · rcases tb with _ | tbl
    · dsimp only at h
      cases h
      intro w evs heq
      cases heq
    · dsimp only at h
      rcases hsort : sortByTieBreaker
          (newlyElected.filter (fun c => optValEq (alGet vv.candValues c) sv)) tbl
        with missing | sortedAmb
      · rw [hsort] at h
        cases h
        intro w evs heq
        cases heq
      · rw [hsort] at h
        simp only [] at h
        cases h
  · cases h

theorem elect_inr_ne_success (remaining : List Nat) (vv : VoteValues)
    (quota : Frac) (mw : Nat) (tb : Option (List Nat)) (elected : List Nat)
    (r : StvResult)
    (h : electUsingFixedQuota remaining vv quota mw tb elected = .inr r) :
    ∀ w evs, r ≠ StvResult.success w evs := by
  unfold electUsingFixedQuota electFromPool at h
  split at h
  · exact electOverflow_inr_ne_success _ _ _ _ _ _ _ _ h
  · cases h

theorem findElim_inr_ne_success (b : VoteBuffer) (origCands remaining : List Nat)
    (vv : VoteValues) (tb : Option (List Nat)) (r : StvResult)
    (h : findCandidateToEliminate b origCands remaining vv tb = .inr r) :
    ∀ w evs, r ≠ StvResult.success w evs := by
  unfold findCandidateToEliminate at h
  rcases helim : elimFewestLoop b origCands remaining (elimFuel b) 0
      (fewestFrac remaining vv.candValues) with _ | cwf
  · rw [helim] at h
    dsimp only at h
    cases h
    intro w evs heq
    cases heq
  · rw [helim] at h
    dsimp only at h
    split at h
    · rcases tb with _ | tbl
      · dsimp only at h
        cases h
        intro w evs heq
        cases heq
      · dsimp only at h
        rcases hsort : sortByTieBreaker cwf tbl with missing | sorted
        · rw [hsort] at h
          cases h
          intro w evs heq
          cases heq
        · rw [hsort] at h
          cases h
    · cases h

end Voting

namespace Voting

theorem stvInner_ok (b : VoteBuffer) (origCands : List Nat) (quota : Frac)
    (mw : Nat) (tb : Option (List Nat)) :
    ∀ (fuel : Nat) (st : StvState), ElectEventsOk quota st.events →
      InnerOut quota (stvInner b origCands quota mw tb fuel st) := by
  intro fuel
  induction fuel with
  | zero =>
    intro st _
    unfold stvInner
    intro w evs heq
    cases heq
  | succ fuel ih =>
    intro st hok
    unfold stvInner
    split
    · rcases hfind : findCandidateToEliminate b origCands st.remaining st.vv tb
        with cand | r
      · simp only []
        rcases helect : electUsingFixedQuota (st.remaining.erase cand)
            (transferElim b (st.remaining.erase cand) st.vv cand) quota mw tb
            st.elected with res | r
        · simp only []
          have hok' : ElectEventsOk quota
              ((st.events ++ [StvEvent.eliminate cand
                  (transferElim b (st.remaining.erase cand) st.vv cand).candValues]) ++
                [StvEvent.electWithQuota res.1
                  (transferElim b (st.remaining.erase cand) st.vv cand).candValues
                  quota]) := by
            refine electEventsOk_append quota _ _
              (electEventsOk_append quota _ _ hok (electEventsOk_elim quota _ _)) ?_
            exact electEventsOk_elect quota _ _ mw tb _ res helect
          split
          · exact hok'
          · split
            · exact hok'
            · exact ih _ hok'
        · simp only []
          intro w evs heq
          exact absurd heq (elect_inr_ne_success _ _ quota mw tb _ r helect w evs)
      · simp only []
        intro w evs heq
        exact absurd heq (findElim_inr_ne_success b origCands _ _ tb r hfind w evs)
    · exact hok

theorem stvOuter_ok (b : VoteBuffer) (origCands : List Nat) (quota : Frac)
    (mw : Nat) (tb : Option (List Nat)) :
    ∀ (fuel : Nat) (st : StvState), ElectEventsOk quota st.events →
      StvResultOk quota (stvOuter b origCands quota mw tb fuel st) := by
  intro fuel
  induction fuel with
  | zero =>
    intro st _
    unfold stvOuter
    intro w evs heq
    cases heq
  | succ fuel ih =>
    intro st hok
    unfold stvOuter
    split
    · intro w evs heq
      cases heq
      exact electEventsOk_append quota _ _ hok (electEventsOk_rest quota _)
    · simp only []
      rcases helect : electUsingFixedQuota st.remaining
          (List.foldl (transferSurplus b quota st.remaining) st.vv st.quotaElected)
          quota mw tb st.elected with res | r
      · simp only []
        have hok' : ElectEventsOk quota
            (st.events ++ [StvEvent.electWithQuota res.1
              (List.foldl (transferSurplus b quota st.remaining) st.vv
                st.quotaElected).candValues quota]) :=
          electEventsOk_append quota _ _ hok
            (electEventsOk_elect quota _ _ mw tb _ res helect)
        split
        · intro w evs heq
          cases heq
          exact hok'
        · have hin := stvInner_ok b origCands quota mw tb (res.2.2.length + 1)
            ⟨res.2.2, res.2.1,
              List.foldl (transferSurplus b quota st.remaining) st.vv st.quotaElected,
              res.1,
              st.events ++ [StvEvent.electWithQuota res.1
                (List.foldl (transferSurplus b quota st.remaining) st.vv
                  st.quotaElected).candValues quota]⟩ hok'
          rcases hst : stvInner b origCands quota mw tb (res.2.2.length + 1)
              ⟨res.2.2, res.2.1,
                List.foldl (transferSurplus b quota st.remaining) st.vv st.quotaElected,
                res.1,
                st.events ++ [StvEvent.electWithQuota res.1
                  (List.foldl (transferSurplus b quota st.remaining) st.vv
                    st.quotaElected).candValues quota]⟩ with st'' | r
          · rw [hst] at hin
            exact ih st'' hin
          · rw [hst] at hin
            exact hin
      · simp only []
        intro w evs heq
        exact absurd heq (elect_inr_ne_success _ _ quota mw tb _ r helect w evs)

end Voting

namespace Voting

theorem quota_toRat (n m : Nat) :
    Frac.toRat (Frac.div (Frac.ofNat n) (Frac.ofNat (m + 1))) =
      (n : ℚ) / ((m : ℚ) + 1) := by
  unfold Frac.div Frac.ofNat Frac.toRat
  dsimp only
  rw [if_neg (by omega)]
  dsimp only
  have hden : (((m + 1 : Nat) : Int)).toNat = m + 1 := by omega
  rw [hden]
  push_cast
  ring

theorem blt_beq_false (a b : Frac) (h : Frac.blt a b = true) :
    Frac.beq b a = false := by
  unfold Frac.blt at h
  unfold Frac.beq
  rw [decide_eq_true_eq] at h
  rw [beq_eq_false_iff_ne]
  omega

/-- C5: the quota of every `ElectWithQuota` event is the fixed
Hagenbach-Bischoff quota `ballotCount / (maxWinners + 1)`, and every
candidate elected in such an event has a snapshotted vote value strictly
above — in particular never exactly equal to — that quota. -/
theorem c5_quotaElection (maxWinners : Nat) (candidates : List Nat)
    (b : VoteBuffer) (tb : Option (List Nat)) (winners : List Nat)
    (events : List StvEvent)
    (h : singleTransferableVote maxWinners candidates b tb = .success winners events) :
    ∀ ev ∈ events, ∀ elected vals q, ev = StvEvent.electWithQuota elected vals q →
      q = Frac.div (Frac.ofNat b.count) (Frac.ofNat (maxWinners + 1)) ∧
      Frac.toRat q = (b.count : ℚ) / ((maxWinners : ℚ) + 1) ∧
      ∀ c ∈ elected, ∃ v, alGet vals c = some v ∧
        Frac.blt q v = true ∧ Frac.beq v q = false := by
  unfold singleTransferableVote at h
  split at h
  · cases h
    intro ev hev elected vals q heq
    rw [List.mem_singleton] at hev
    subst hev
    cases heq
  · next hlen =>
    simp only [] at h
    have hmin : min maxWinners candidates.length = maxWinners :=
      Nat.min_eq_left (Nat.le_of_lt (Nat.not_le.mp hlen))
    rw [hmin] at h
    rcases helect : electUsingFixedQuota (candidates.foldl insertUniq [])
        (VoteValues.init (candidates.foldl insertUniq [])
          (scanNthPreferences b (candidates.foldl insertUniq []) 0).1
          (scanNthPreferences b (candidates.foldl insertUniq []) 0).2)
        (Frac.div (Frac.ofNat b.count) (Frac.ofNat (maxWinners + 1)))
        maxWinners tb [] with res | r
    · rw [helect] at h
      dsimp only at h
      have hok := stvOuter_ok b (candidates.foldl insertUniq [])
        (Frac.div (Frac.ofNat b.count) (Frac.ofNat (maxWinners + 1)))
        maxWinners tb ((candidates.foldl insertUniq []).length + 3) _
        (electEventsOk_elect _ _ _ maxWinners tb _ res helect) winners events h
      intro ev hev elected vals q heq
      obtain ⟨hq, hmem⟩ := hok ev hev elected vals q heq
      refine ⟨hq, ?_, ?_⟩
      · rw [hq]
        exact quota_toRat b.count maxWinners
      · intro c hc
        obtain ⟨v, hv, hblt⟩ := hmem c hc
        refine ⟨v, hv, ?_, ?_⟩
        · rw [hq]
          exact hblt
        · rw [hq]
          exact blt_beq_false _ _ hblt
    · rw [helect] at h
      dsimp only at h
      exact absurd h (elect_inr_ne_success _ _ _ maxWinners tb _ r helect winners events)

/-- C5 witness: three ballots `[1]` with candidates `{1, 2}` and one seat;
candidate 1 is elected at quota 3/2 with value 3. -/
theorem c5_quotaElection_witness :
    (singleTransferableVote 1 [1, 2]
      { count := 3, rows := [[1], [1], [1]], tailWords := [0, 1, 0, 3, 0],
        mentionsTable := [(1, 3)] } none = .success [1]
      [StvEvent.electWithQuota [1] [(1, ⟨3, 1⟩)] ⟨3, 2⟩,
       StvEvent.electWithQuota [] [(1, ⟨3, 1⟩)] ⟨3, 2⟩]) ∧
    (∀ ev ∈ [StvEvent.electWithQuota [1] [(1, ⟨3, 1⟩)] ⟨3, 2⟩,
        StvEvent.electWithQuota [] [(1, ⟨3, 1⟩)] ⟨3, 2⟩],
      ∀ elected vals q, ev = StvEvent.electWithQuota elected vals q →
      q = Frac.div (Frac.ofNat 3) (Frac.ofNat (1 + 1)) ∧
      Frac.toRat q = ((3 : Nat) : ℚ) / (((1 : Nat) : ℚ) + 1) ∧
      ∀ c ∈ elected, ∃ v, alGet vals c = some v ∧
        Frac.blt q v = true ∧ Frac.beq v q = false) :=
  ⟨by decide,
   c5_quotaElection 1 [1, 2]
     { count := 3, rows := [[1], [1], [1]], tailWords := [0, 1, 0, 3, 0],
       mentionsTable := [(1, 3)] } none [1]
     [StvEvent.electWithQuota [1] [(1, ⟨3, 1⟩)] ⟨3, 2⟩,
      StvEvent.electWithQuota [] [(1, ⟨3, 1⟩)] ⟨3, 2⟩] (by decide)⟩

end Voting

namespace Voting

/-! ## Theorems: root existence in the (acyclic) lock graph -/

theorem countP_lt_of_witness {α : Type} (l : List α) (p q : α → Bool)
    (hpq : ∀ a ∈ l, p a = true → q a = true) (a : α) (ha : a ∈ l)
    (hpa : p a = false) (hqa : q a = true) : l.countP p < l.countP q := by
  induction l with
  | nil => cases ha
  | cons x l ih =>
    rw [List.countP_cons, List.countP_cons]
    rcases List.mem_cons.mp ha with rfl | ha'
    · rw [hpa, hqa]
      have h0 : (if (false = true) then 1 else 0) = 0 := rfl
      have h1 : (if (true = true) then 1 else 0) = 1 := rfl
      rw [h0, h1]
      have hmono : l.countP p ≤ l.countP q :=
        List.countP_mono_left (fun z hz => hpq z (List.mem_cons_of_mem _ hz))
      omega
    · have hih := ih (fun z hz => hpq z (List.mem_cons_of_mem _ hz)) ha'
      have hx : (if p x = true then 1 else 0) ≤ (if q x = true then 1 else 0) := by
        by_cases hp : p x = true
        · rw [if_pos hp, if_pos (hpq x (List.mem_cons_self x l) hp)]
        · rw [if_neg hp]
          omega
      omega

theorem isReachable_refl (E : List (Nat × Nat)) (x : Nat) :
    isReachable E x x = true :=
  (isReachable_iff E x x).mpr Relation.ReflTransGen.refl

theorem exists_root_aux (nodes : List Nat) (E : List (Nat × Nat))
    (hac : Acyclic E) (hsrc : ∀ e ∈ E, e.1 ∈ nodes) :
    ∀ (k : Nat) (x : Nat), x ∈ nodes →
      nodes.countP (fun z => isReachable E z x) ≤ k →
      ∃ r ∈ nodes, ∀ e ∈ E, e.2 ≠ r := by
  intro k
  induction k with
  | zero =>
    intro x hx hle
    exact absurd hle (by
      have : 0 < nodes.countP (fun z => isReachable E z x) :=
        List.countP_pos_iff.mpr ⟨x, hx, isReachable_refl E x⟩
      omega)
  | succ k ih =>
    intro x hx hle
    by_cases hroot : ∀ e ∈ E, e.2 ≠ x
    · exact ⟨x, hx, hroot⟩
    · push_neg at hroot
      obtain ⟨e, he, heq⟩ := hroot
      have hstep : stepRel E e.1 x := by
        show (e.1, x) ∈ E
        rw [← heq]
        exact he
      have hlt : nodes.countP (fun z => isReachable E z e.1) <
          nodes.countP (fun z => isReachable E z x) := by
        refine countP_lt_of_witness nodes _ _ ?_ x hx ?_ (isReachable_refl E x)
        · intro z _ hz
          exact (isReachable_iff E z x).mpr
            (((isReachable_iff E z e.1).mp hz).tail hstep)
        · rw [Bool.eq_false_iff]
          intro hreach
          have : ¬ Reach E e.2 e.1 := hac e he
          rw [heq] at this
          exact this ((isReachable_iff E x e.1).mp hreach)
      exact ih e.1 (hsrc e he) (by omega)

theorem exists_root (nodes : List Nat) (E : List (Nat × Nat))
    (hne : nodes ≠ []) (hac : Acyclic E) (hsrc : ∀ e ∈ E, e.1 ∈ nodes) :
    findRoots nodes E ≠ [] := by
  obtain ⟨x, hx⟩ := List.exists_mem_of_ne_nil nodes hne
  obtain ⟨r, hr, hroot⟩ := exists_root_aux nodes E hac hsrc
    (nodes.countP (fun z => isReachable E z x)) x hx (le_refl _)
  have : r ∈ findRoots nodes E := by
    unfold findRoots
    rw [List.mem_filter]
    refine ⟨hr, ?_⟩
    rw [decide_eq_true_eq]
    intro hany
    rw [List.any_eq_true] at hany
    obtain ⟨e, he, heq⟩ := hany
    rw [decide_eq_true_eq] at heq
    exact hroot e he heq
  exact List.ne_nil_of_mem this

end Voting

namespace Voting

/-! ## Theorems: Ranked Pairs round structure (towards C2) -/

theorem mem_insertUniq (l : List Nat) (x y : Nat) :
    y ∈ insertUniq l x ↔ y ∈ l ∨ y = x := by
  unfold insertUniq
  by_cases hx : x ∈ l
  · rw [if_pos hx]
    constructor
    · exact Or.inl
    · rintro (h | rfl)
      · exact h
      · exact hx
  · rw [if_neg hx]
    simp

theorem insertUniq_nodup (l : List Nat) (x : Nat) (h : l.Nodup) :
    (insertUniq l x).Nodup := by
  unfold insertUniq
  by_cases hx : x ∈ l
  · rwa [if_pos hx]
  · rw [if_neg hx]
    rw [List.nodup_append]
    exact ⟨h, List.nodup_singleton x, by
      intro a ha hb
      rw [List.mem_singleton] at hb
      exact hx (hb ▸ ha)⟩

theorem insertUniq_length (l : List Nat) (x : Nat) :
    (insertUniq l x).length ≤ l.length + 1 := by
  unfold insertUniq
  by_cases hx : x ∈ l
  · rw [if_pos hx]
    omega
  · rw [if_neg hx]
    simp

theorem mem_mentFold (pairs : List (Nat × Nat)) :
    ∀ (acc : List Nat) (x : Nat),
      x ∈ pairs.foldl (fun acc p => insertUniq (insertUniq acc p.1) p.2) acc ↔
        x ∈ acc ∨ ∃ p ∈ pairs, x = p.1 ∨ x = p.2 := by
  induction pairs with
  | nil => intro acc x; simp
  | cons q pairs ih =>
    intro acc x
    rw [List.foldl_cons, ih, mem_insertUniq, mem_insertUniq]
    constructor
    · rintro (((h | h) | h) | ⟨p, hp, h⟩)
      · exact Or.inl h
      · exact Or.inr ⟨q, List.mem_cons_self q pairs, Or.inl h⟩
      · exact Or.inr ⟨q, List.mem_cons_self q pairs, Or.inr h⟩
      · exact Or.inr ⟨p, List.mem_cons_of_mem q hp, h⟩
    · rintro (h | ⟨p, hp, hx⟩)
      · exact Or.inl (Or.inl (Or.inl h))
      · rcases List.mem_cons.mp hp with rfl | hp'
        · rcases hx with h | h
          · exact Or.inl (Or.inl (Or.inr h))
          · exact Or.inl (Or.inr h)
        · exact Or.inr ⟨p, hp', hx⟩

theorem mentionedOf_mem (pairs : List (Nat × Nat)) (p : Nat × Nat)
    (hp : p ∈ pairs) : p.1 ∈ mentionedOf pairs ∧ p.2 ∈ mentionedOf pairs := by
  unfold mentionedOf
  constructor
  · exact (mem_mentFold pairs [] p.1).mpr (Or.inr ⟨p, hp, Or.inl rfl⟩)
  · exact (mem_mentFold pairs [] p.2).mpr (Or.inr ⟨p, hp, Or.inr rfl⟩)

theorem mentionedOf_sub (pairs : List (Nat × Nat)) (x : Nat)
    (h : x ∈ mentionedOf pairs) : ∃ p ∈ pairs, x = p.1 ∨ x = p.2 := by
  unfold mentionedOf at h
  rcases (mem_mentFold pairs [] x).mp h with h | h
  · cases h
  · exact h

theorem mentionedOf_nodup (pairs : List (Nat × Nat)) :
    (mentionedOf pairs).Nodup := by
  unfold mentionedOf
  have : ∀ (acc : List Nat), acc.Nodup →
      (pairs.foldl (fun acc p => insertUniq (insertUniq acc p.1) p.2) acc).Nodup := by
    induction pairs with
    | nil => intro acc h; exact h
    | cons q pairs ih =>
      intro acc h
      rw [List.foldl_cons]
      exact ih _ (insertUniq_nodup _ _ (insertUniq_nodup _ _ h))
  exact this [] List.nodup_nil

theorem applyBallotsPair_snd (a b : Nat) :
    ∀ (rows : List (List Nat)) (acc : Int × Nat),
      (rows.foldl (fun acc row =>
        let d := compareNodesAccordingToBallot row a b
        if d ≠ .fin 0 then (acc.1 + cmpSign d, acc.2 + 1) else acc) acc).2 =
      acc.2 + rows.countP
        (fun row => decide (compareNodesAccordingToBallot row a b ≠ .fin 0)) := by
  intro rows
  induction rows with
  | nil => intro acc; simp
  | cons r rows ih =>
    intro acc
    rw [List.foldl_cons, List.countP_cons, ih]
    by_cases hd : compareNodesAccordingToBallot r a b ≠ .fin 0
    · rw [if_pos hd, decide_eq_true hd]
      have h1 : (if (true = true) then 1 else 0) = 1 := rfl
      rw [h1]
      dsimp only
      omega
    · rw [if_neg hd, decide_eq_false hd]
      have h0 : (if (false = true) then 1 else 0) = 0 := rfl
      rw [h0]
      omega

theorem pairBallots_zero (rows : List (List Nat)) (p : Nat × Nat)
    (h : ¬ 0 < pairBallots rows p) :
    ∀ row ∈ rows, compareNodesAccordingToBallot row p.1 p.2 = .fin 0 := by
  unfold pairBallots applyBallotsPair at h
  rw [applyBallotsPair_snd] at h
  have hz : rows.countP
      (fun row => decide (compareNodesAccordingToBallot row p.1 p.2 ≠ .fin 0)) = 0 := by
    omega
  rw [List.countP_eq_zero] at hz
  intro row hrow
  have := hz row hrow
  rw [decide_eq_true_eq] at this
  exact not_not.mp this

theorem pairBallots_pos (rows : List (List Nat)) (p : Nat × Nat) (row : List Nat)
    (hrow : row ∈ rows)
    (h : compareNodesAccordingToBallot row p.1 p.2 ≠ .fin 0) :
    0 < pairBallots rows p := by
  unfold pairBallots applyBallotsPair
  rw [applyBallotsPair_snd]
  have : 0 < rows.countP
      (fun row => decide (compareNodesAccordingToBallot row p.1 p.2 ≠ .fin 0)) :=
    List.countP_pos_iff.mpr ⟨row, hrow, decide_eq_true h⟩
  omega

theorem mem_takeWhile_lt (c : Nat) :
    ∀ (sorted : List Nat), sorted.Pairwise (· < ·) →
    ∀ a ∈ sorted, a < c → a ∈ sorted.takeWhile (fun o => decide (o < c)) := by
  intro sorted
  induction sorted with
  | nil => intro _ a ha; cases ha
  | cons x xs ih =>
    intro hpw a ha hac
    rw [List.pairwise_cons] at hpw
    rcases List.mem_cons.mp ha with rfl | ha'
    · rw [List.takeWhile_cons, if_pos (decide_eq_true hac)]
      exact List.mem_cons_self _ _
    · have hxa : x < a := hpw.1 a ha'
      rw [List.takeWhile_cons, if_pos (decide_eq_true (by omega : x < c))]
      exact List.mem_cons_of_mem x (ih hpw.2 a ha' hac)

theorem pair_mem_allPairs (sorted : List Nat) (hpw : sorted.Pairwise (· < ·))
    (a o : Nat) (ha : a ∈ sorted) (ho : o ∈ sorted) (hlt : o < a) :
    (a, o) ∈ allPairs sorted := by
  unfold allPairs
  rw [List.mem_flatten]
  refine ⟨(pairsUnder sorted a).map (fun x => (a, x)), ?_, ?_⟩
  · rw [List.mem_map]
    exact ⟨a, ha, rfl⟩
  · rw [List.mem_map]
    exact ⟨o, mem_takeWhile_lt a sorted hpw o ho hlt, rfl⟩

theorem mem_allPairs (sorted : List Nat) (p : Nat × Nat)
    (hp : p ∈ allPairs sorted) : p.1 ∈ sorted ∧ p.2 ∈ sorted ∧ p.2 < p.1 := by
  unfold allPairs at hp
  rw [List.mem_flatten] at hp
  obtain ⟨inner, hinner, hpin⟩ := hp
  rw [List.mem_map] at hinner
  obtain ⟨a, haa, rfl⟩ := hinner
  rw [List.mem_map] at hpin
  obtain ⟨o, hoo, rfl⟩ := hpin
  refine ⟨haa, (List.takeWhile_prefix _).subset hoo, ?_⟩
  have := List.mem_takeWhile_imp hoo
  simpa using this

/-- `compareNodesAccordingToBallot` fully classified (for distinct nonzero
nodes appearing at most once on the row). -/
theorem compare_classify (row : List Nat) (a b : Nat) (hab : a ≠ b)
    (ha0 : a ≠ 0) (hb0 : b ≠ 0)
    (hca : idCount a row ≤ 1) (hcb : idCount b row ≤ 1) :
    (a ∉ row ∧ b ∉ row → compareNodesAccordingToBallot row a b = .fin 0) ∧
    (a ∈ row ∧ b ∉ row → compareNodesAccordingToBallot row a b = .posInf) ∧
    (a ∉ row ∧ b ∈ row → compareNodesAccordingToBallot row a b = .negInf) ∧
    (a ∈ row ∧ b ∈ row → compareNodesAccordingToBallot row a b =
      .fin ((rankOfFirst b row : Int) - (rankOfFirst a row : Int))) := by
  refine ⟨?_, ?_, ?_, ?_⟩
  · rintro ⟨ha, hb⟩
    unfold compareNodesAccordingToBallot
    rw [compareLoop_none_none a b row 0 ha hb]
  · rintro ⟨ha, hb⟩
    obtain ⟨r, hr⟩ := compareLoop_a_only a b row 0 ha hb ha0
    unfold compareNodesAccordingToBallot
    rw [hr]
  · rintro ⟨ha, hb⟩
    obtain ⟨r, hr⟩ := compareLoop_b_only a b row 0 ha hb hb0
    unfold compareNodesAccordingToBallot
    rw [hr]
  · rintro ⟨ha, hb⟩
    unfold compareNodesAccordingToBallot
    rw [compareLoop_both a b row 0 ha hb hab ha0 hb0 hca hcb]
    simp

end Voting

namespace Voting

/-- Coverage: in a round that is not majority-empty, every (filtered,
sorted) candidate occurs in some pair with ballots, hence is a mentioned
node of the pair graph. -/
theorem rp_coverage (b : VoteBuffer) (sorted : List Nat)
    (hpw : sorted.Pairwise (· < ·)) (h0 : 0 ∉ sorted)
    (hOnce : ∀ row ∈ b.rows, ∀ c ∈ sorted, idCount c row ≤ 1)
    (hNE : 2 * rpEmptyCount sorted b.rows < b.rows.length)
    (hWF : ∀ c ∈ sorted,
      b.rows.length ≤ 2 * b.rows.countP (fun row => decide (c ∈ row))) :
    ∀ c ∈ sorted,
      c ∈ mentionedOf ((allPairs sorted).filter
        (fun p => 0 < pairBallots b.rows p)) := by
  intro c hc
  by_contra hnm
  have hcz : ∀ p ∈ allPairs sorted, (p.1 = c ∨ p.2 = c) → ∀ row ∈ b.rows,
      compareNodesAccordingToBallot row p.1 p.2 = .fin 0 := by
    intro p hp hpc
    by_cases hbal : 0 < pairBallots b.rows p
    · exfalso
      have hpf : p ∈ (allPairs sorted).filter (fun q => 0 < pairBallots b.rows q) :=
        List.mem_filter.mpr ⟨hp, decide_eq_true hbal⟩
      obtain ⟨h1, h2⟩ := mentionedOf_mem _ p hpf
      rcases hpc with h | h
      · exact hnm (h ▸ h1)
      · exact hnm (h ▸ h2)
    · exact pairBallots_zero b.rows p hbal
  have hlt : b.rows.countP (fun row =>
      (allPairs sorted).all
        (fun p => compareNodesAccordingToBallot row p.1 p.2 = .fin 0))
      < b.rows.countP (fun row => decide (c ∈ row)) := by
    have hwf := hWF c hc
    unfold rpEmptyCount at hNE
    omega
  have hex : ∃ row ∈ b.rows, c ∈ row ∧
      ¬ ((allPairs sorted).all
        (fun p => compareNodesAccordingToBallot row p.1 p.2 = .fin 0)) = true := by
    by_contra hall
    push_neg at hall
    have hmono : b.rows.countP (fun row => decide (c ∈ row)) ≤
        b.rows.countP (fun row => (allPairs sorted).all
          (fun p => compareNodesAccordingToBallot row p.1 p.2 = .fin 0)) := by
      refine List.countP_mono_left ?_
      intro row hrow hcrow
      rw [decide_eq_true_eq] at hcrow
      exact hall row hrow hcrow
    omega
  obtain ⟨row, hrow, hcr, hne⟩ := hex
  have hpex : ∃ p ∈ allPairs sorted,
      compareNodesAccordingToBallot row p.1 p.2 ≠ .fin 0 := by
    by_contra hall
    push_neg at hall
    refine hne (List.all_eq_true.mpr ?_)
    intro p hp
    exact decide_eq_true (hall p hp)
  obtain ⟨p, hp, hpne⟩ := hpex
  obtain ⟨hp1, hp2, hplt⟩ := mem_allPairs sorted p hp
  have hkey : ∀ d ∈ sorted, d ≠ c →
      d ∈ row ∧ rankOfFirst d row = rankOfFirst c row := by
    intro d hd hdc
    have hd0 : d ≠ 0 := fun h => h0 (h ▸ hd)
    have hc0 : c ≠ 0 := fun h => h0 (h ▸ hc)
    rcases Nat.lt_or_ge d c with hdlt | hge
    · have hpcd : (c, d) ∈ allPairs sorted :=
        pair_mem_allPairs sorted hpw c d hc hd hdlt
      have hz := hcz (c, d) hpcd (Or.inl rfl) row hrow
      have hcl := compare_classify row c d (fun h => hdc h.symm) hc0 hd0
        (hOnce row hrow c hc) (hOnce row hrow d hd)
      by_cases hdr : d ∈ row
      · have heq := hcl.2.2.2 ⟨hcr, hdr⟩
        rw [heq] at hz
        injection hz with hz'
        exact ⟨hdr, by omega⟩
      · have heq := hcl.2.1 ⟨hcr, hdr⟩
        rw [heq] at hz
        cases hz
    · have hclt : c < d := by omega
      have hpdc : (d, c) ∈ allPairs sorted :=
        pair_mem_allPairs sorted hpw d c hd hc hclt
      have hz := hcz (d, c) hpdc (Or.inr rfl) row hrow
      have hcl := compare_classify row d c hdc hd0 hc0
        (hOnce row hrow d hd) (hOnce row hrow c hc)
      by_cases hdr : d ∈ row
      · have heq := hcl.2.2.2 ⟨hdr, hcr⟩
        rw [heq] at hz
        injection hz with hz'
        exact ⟨hdr, by omega⟩
      · have heq := hcl.2.2.1 ⟨hdr, hcr⟩
        rw [heq] at hz
        cases hz
  by_cases hc1 : p.1 = c
  · exact hpne (hcz p hp (Or.inl hc1) row hrow)
  · by_cases hc2 : p.2 = c
    · exact hpne (hcz p hp (Or.inr hc2) row hrow)
    · obtain ⟨h1r, h1k⟩ := hkey p.1 hp1 hc1
      obtain ⟨h2r, h2k⟩ := hkey p.2 hp2 hc2
      have hcl := compare_classify row p.1 p.2 (by omega : p.1 ≠ p.2)
        (fun h => h0 (h ▸ hp1)) (fun h => h0 (h ▸ hp2))
        (hOnce row hrow p.1 hp1) (hOnce row hrow p.2 hp2)
      have heq := hcl.2.2.2 ⟨h1r, h2r⟩
      refine hpne ?_
      rw [heq, h1k, h2k]
      simp

end Voting

namespace Voting

theorem orderPairsLoop_inl_ne_success (rows : List (List Nat)) (tbL : List Nat)
    (tieBreaker : Option (List Nat)) :
    ∀ (fuel : Nat) (queued ordered : List (Nat × Nat)) (winN loseN : List Nat)
      (r : RpResult),
      orderPairsLoop rows tbL tieBreaker fuel queued ordered winN loseN = .inl r →
      ∀ data, r ≠ RpResult.success data := by
  intro fuel
  induction fuel with
  | zero =>
    intro queued ordered winN loseN r h
    unfold orderPairsLoop at h
    cases queued with
    | nil => cases h
    | cons q0 qrest =>
      cases h
      intro data heq
      cases heq
  | succ fuel ih =>
    intro queued ordered winN loseN r h
    unfold orderPairsLoop at h
    cases queued with
    | nil => cases h
    | cons q0 qrest =>
      simp only [] at h
      split at h
      · exact ih _ _ _ _ r h
      · split at h
        · rcases tieBreaker with _ | tbv
          · dsimp only at h
            cases h
            intro data heq
            cases heq
          · dsimp only at h
            split at h
            · cases h
              intro data heq
              cases heq
            · exact ih _ _ _ _ r h
        · exact ih _ _ _ _ r h

theorem orderPairsLoop_subset (rows : List (List Nat)) (tbL : List Nat)
    (tieBreaker : Option (List Nat)) :
    ∀ (fuel : Nat) (queued ordered : List (Nat × Nat)) (winN loseN : List Nat)
      (l : List (Nat × Nat)),
      orderPairsLoop rows tbL tieBreaker fuel queued ordered winN loseN = .inr l →
      ∀ p ∈ l, p ∈ queued ∨ p ∈ ordered := by
  intro fuel
  induction fuel with
  | zero =>
    intro queued ordered winN loseN l h
    unfold orderPairsLoop at h
    cases queued with
    | nil =>
      cases h
      intro p hp
      exact Or.inr hp
    | cons q0 qrest => cases h
  | succ fuel ih =>
    intro queued ordered winN loseN l h
    unfold orderPairsLoop at h
    cases queued with
    | nil =>
      cases h
      intro p hp
      exact Or.inr hp
    | cons q0 qrest =>
      simp only [] at h
      have htied : ∀ p ∈ (qrest.takeWhile
          (fun p => (pairDiff rows p).natAbs = (pairDiff rows q0).natAbs)),
          p ∈ qrest := fun p hp => (List.takeWhile_prefix _).subset hp
      split at h
      · intro p hp
        rcases ih _ _ _ _ l h p hp with h2 | h2
        · exact Or.inl (List.mem_cons_of_mem q0 (List.drop_subset _ _ h2))
        · rcases List.mem_append.mp h2 with h3 | h3
          · exact Or.inr h3
          · rw [List.mem_singleton] at h3
            exact Or.inl (h3 ▸ List.mem_cons_self q0 qrest)
      · have hmemtied : ∀ p ∈ (q0 :: qrest.takeWhile
            (fun p => (pairDiff rows p).natAbs = (pairDiff rows q0).natAbs)),
            p ∈ q0 :: qrest := by
          intro p hp
          rcases List.mem_cons.mp hp with rfl | hp'
          · exact List.mem_cons_self p qrest
          · exact List.mem_cons_of_mem q0 (htied p hp')
        split at h
        · rcases tieBreaker with _ | tbv
          · cases h
          · dsimp only at h
            split at h
            · cases h
            · intro p hp
              rcases ih _ _ _ _ l h p hp with h2 | h2
              · exact Or.inl (List.mem_cons_of_mem q0 (List.drop_subset _ _ h2))
              · rcases List.mem_append.mp h2 with h3 | h3
                · rcases List.mem_append.mp h3 with h4 | h4
                  · rcases List.mem_append.mp h4 with h5 | h5
                    · exact Or.inr h5
                    · exact Or.inl (hmemtied p (List.mem_filter.mp h5).1)
                  · exact Or.inl (hmemtied p
                      (List.mem_filter.mp (List.mem_filter.mp h4).1).1)
                · have := (sortByLe_perm _ _).mem_iff.mp h3
                  exact Or.inl (hmemtied p
                    (List.mem_filter.mp (List.mem_filter.mp this).1).1)
        · intro p hp
          rcases ih _ _ _ _ l h p hp with h2 | h2
          · exact Or.inl (List.mem_cons_of_mem q0 (List.drop_subset _ _ h2))
          · rcases List.mem_append.mp h2 with h3 | h3
            · rcases List.mem_append.mp h3 with h4 | h4
              · rcases List.mem_append.mp h4 with h5 | h5
                · exact Or.inr h5
                · exact Or.inl (hmemtied p (List.mem_filter.mp h5).1)
              · exact Or.inl (hmemtied p
                  (List.mem_filter.mp (List.mem_filter.mp h4).1).1)
            · exact Or.inl (hmemtied p
                (List.mem_filter.mp (List.mem_filter.mp h3).1).1)

theorem orderPairs_inl_ne_success (rows : List (List Nat)) (tbL : List Nat)
    (tieBreaker : Option (List Nat)) (pairs : List (Nat × Nat)) (r : RpResult)
    (h : orderPairs rows tbL tieBreaker pairs = .inl r) :
    ∀ data, r ≠ RpResult.success data := by
  unfold orderPairs at h
  simp only [] at h
  exact orderPairsLoop_inl_ne_success rows tbL tieBreaker _ _ _ _ _ r h

theorem orderPairs_subset (rows : List (List Nat)) (tbL : List Nat)
    (tieBreaker : Option (List Nat)) (pairs : List (Nat × Nat))
    (l : List (Nat × Nat)) (h : orderPairs rows tbL tieBreaker pairs = .inr l) :
    ∀ p ∈ l, p ∈ pairs := by
  unfold orderPairs at h
  simp only [] at h
  intro p hp
  rcases orderPairsLoop_subset rows tbL tieBreaker _ _ _ _ _ l h p hp with h2 | h2
  · exact (sortByLe_perm _ _).mem_iff.mp h2
  · cases h2

end Voting

namespace Voting

theorem mem_lockInsert (E : List (Nat × Nat)) (u v : Nat) (e : Nat × Nat)
    (h : e ∈ lockInsert E u v) : e ∈ E ∨ e = (u, v) := by
  unfold lockInsert at h
  split at h
  · exact Or.inl h
  · rcases List.mem_append.mp h with h2 | h2
    · exact Or.inl h2
    · exact Or.inr (by simpa using h2)

theorem findRoots_subset (nodes : List Nat) (E : List (Nat × Nat)) :
    ∀ r ∈ findRoots nodes E, r ∈ nodes := by
  intro r hr
  unfold findRoots at hr
  exact (List.mem_filter.mp hr).1

theorem lockFold_nodes (rows : List (List Nat)) (tbL : List Nat)
    (nodes : List Nat) :
    ∀ (ps : List (Nat × Nat)) (E : List (Nat × Nat)),
      (∀ e ∈ E, e.1 ∈ nodes ∧ e.2 ∈ nodes) →
      (∀ p ∈ ps, p.1 ∈ nodes ∧ p.2 ∈ nodes) →
      ∀ e ∈ ps.foldl (lockStep rows tbL) E, e.1 ∈ nodes ∧ e.2 ∈ nodes := by
  intro ps
  induction ps with
  | nil => intro E hE _ e he; exact hE e he
  | cons p ps ih =>
    intro E hE hps e he
    rw [List.foldl_cons] at he
    refine ih (lockStep rows tbL E p) ?_
      (fun q hq => hps q (List.mem_cons_of_mem p hq)) e he
    intro e' he'
    have hp := hps p (List.mem_cons_self p ps)
    unfold lockStep at he'
    split at he'
    · split at he'
      · exact hE e' he'
      · rcases mem_lockInsert E p.1 p.2 e' he' with h | rfl
        · exact hE e' h
        · exact hp
    · split at he'
      · exact hE e' he'
      · rcases mem_lockInsert E p.2 p.1 e' he' with h | rfl
        · exact hE e' h
        · exact ⟨hp.2, hp.1⟩

theorem tournFold_nodes (tbL : List Nat) (nodes : List Nat) :
    ∀ (ps : List (Nat × Nat)) (E : List (Nat × Nat)),
      (∀ e ∈ E, e.1 ∈ nodes ∧ e.2 ∈ nodes) →
      (∀ p ∈ ps, p.1 ∈ nodes ∧ p.2 ∈ nodes) →
      ∀ e ∈ ps.foldl (tournStep tbL) E, e.1 ∈ nodes ∧ e.2 ∈ nodes := by
  intro ps
  induction ps with
  | nil => intro E hE _ e he; exact hE e he
  | cons p ps ih =>
    intro E hE hps e he
    rw [List.foldl_cons] at he
    refine ih (tournStep tbL E p) ?_
      (fun q hq => hps q (List.mem_cons_of_mem p hq)) e he
    intro e' he'
    have hp := hps p (List.mem_cons_self p ps)
    unfold tournStep at he'
    split at he'
    · rcases mem_lockInsert E p.1 p.2 e' he' with h | rfl
      · exact hE e' h
      · exact hp
    · rcases mem_lockInsert E p.2 p.1 e' he' with h | rfl
      · exact hE e' h
      · exact ⟨hp.2, hp.1⟩

theorem lockGraph_inl_ne_success (rows : List (List Nat)) (tbL : List Nat)
    (mentioned : List Nat) (ordered : List (Nat × Nat))
    (tieBreaker : Option (List Nat)) (r : RpResult)
    (h : lockGraphAndFindRoundWinner rows tbL mentioned ordered tieBreaker
      = .inl r) : ∀ data, r ≠ RpResult.success data := by
  unfold lockGraphAndFindRoundWinner at h
  simp only [] at h
  split at h
  · cases h
  · rcases tieBreaker with _ | tbv
    · dsimp only at h
      cases h
      intro data heq
      cases heq
    · dsimp only at h
      split at h
      · cases h
        intro data heq
        cases heq
      · split at h
        · cases h
          intro data heq
          cases heq
        · cases h

/-- A successful round of `lockGraphAndFindRoundWinner` on a nonempty
mentioned set (whose pairs stay inside it) always carries `some` winner,
and the winner is a mentioned node. -/
theorem lockGraph_winner (rows : List (List Nat)) (tbL : List Nat)
    (mentioned : List Nat) (ordered : List (Nat × Nat))
    (tieBreaker : Option (List Nat)) (round : RpRound)
    (hme : mentioned ≠ [])
    (hnodes : ∀ p ∈ ordered, p.1 ∈ mentioned ∧ p.2 ∈ mentioned)
    (h : lockGraphAndFindRoundWinner rows tbL mentioned ordered tieBreaker
      = .inr round) : ∃ w, round.winner = some w ∧ w ∈ mentioned := by
  have hlockNodes : ∀ e ∈ buildLockEdges rows tbL ordered,
      e.1 ∈ mentioned ∧ e.2 ∈ mentioned := by
    unfold buildLockEdges
    exact lockFold_nodes rows tbL mentioned ordered []
      (fun e he => absurd he (List.not_mem_nil e)) hnodes
  unfold lockGraphAndFindRoundWinner at h
  simp only [] at h
  split at h
  · next hlen =>
    cases h
    rcases hroots : findRoots mentioned (buildLockEdges rows tbL ordered)
      with _ | ⟨r0, rest⟩
    · rw [hroots] at hlen
      cases hlen
    · rw [hroots] at hlen
      refine ⟨r0, rfl, ?_⟩
      exact findRoots_subset mentioned _ r0 (hroots ▸ List.mem_cons_self r0 rest)
  · rcases tieBreaker with _ | tbv
    · dsimp only at h
      cases h
    · dsimp only at h
      split at h
      · cases h
      · split at h
        · cases h
        · next hone =>
          cases h
          have hacyc : Acyclic (insertRootEdges tbL
              (buildLockEdges rows tbL ordered)
              (sortByLe (fun x y => x ≤ y)
                (findRoots mentioned (buildLockEdges rows tbL ordered)))) := by
            unfold insertRootEdges
            have h0 := tournFold_acyclic tbL
              (findRoots mentioned (buildLockEdges rows tbL ordered))
              (rootPairsSeq (sortByLe (fun x y => x ≤ y)
                (findRoots mentioned (buildLockEdges rows tbL ordered))))
              (buildLockEdges rows tbL ordered) []
              (by
                rw [List.append_nil]
                exact lockFoldl_acyclic rows tbL ordered [] acyclic_nil)
              (by
                intro e he hmem
                exact findRoots_no_incoming mentioned _ e.2 hmem e he rfl)
              (fun e he => absurd he (List.not_mem_nil e))
              (by
                intro p hp
                obtain ⟨h1, h2, h3⟩ := mem_rootPairsSeq _ p hp
                exact ⟨h1, (sortByLe_perm _ _).mem_iff.mp h2,
                  (sortByLe_perm _ _).mem_iff.mp h3⟩)
            rwa [List.append_nil] at h0
          have hsrc : ∀ e ∈ insertRootEdges tbL (buildLockEdges rows tbL ordered)
              (sortByLe (fun x y => x ≤ y)
                (findRoots mentioned (buildLockEdges rows tbL ordered))),
              e.1 ∈ mentioned := by
            unfold insertRootEdges
            intro e he
            refine (tournFold_nodes tbL mentioned _ _ hlockNodes ?_ e he).1
            intro p hp
            obtain ⟨_, h2, h3⟩ := mem_rootPairsSeq _ p hp
            exact ⟨findRoots_subset mentioned _ _ ((sortByLe_perm _ _).mem_iff.mp h2),
              findRoots_subset mentioned _ _ ((sortByLe_perm _ _).mem_iff.mp h3)⟩
          have hne := exists_root mentioned _ hme hacyc hsrc
          rcases hnr : findRoots mentioned (insertRootEdges tbL
              (buildLockEdges rows tbL ordered)
              (sortByLe (fun x y => x ≤ y)
                (findRoots mentioned (buildLockEdges rows tbL ordered))))
            with _ | ⟨r0, rest⟩
          · exact absurd hnr hne
          · refine ⟨r0, rfl, ?_⟩
            exact findRoots_subset mentioned _ r0
              (hnr ▸ List.mem_cons_self r0 rest)

end Voting

namespace Voting

theorem length_le_of_nodup_subset (l l' : List Nat) (hnd : l.Nodup)
    (hsub : ∀ x ∈ l, x ∈ l') : l.length ≤ l'.length := by
  calc l.length = l.toFinset.card := (List.toFinset_card_of_nodup hnd).symm
    _ ≤ l'.toFinset.card := Finset.card_le_card (by
        intro x hx
        rw [List.mem_toFinset] at hx
        rw [List.mem_toFinset]
        exact hsub x hx)
    _ ≤ l'.length := List.toFinset_card_le _

/-- The round loop only pushes `some` winners drawn from (and then removed
from) the mentioned set. -/
theorem rpRoundLoop_invariant (rows : List (List Nat)) (tbL : List Nat)
    (tieBreaker : Option (List Nat)) (mw : Nat) (cands : List Nat) :
    ∀ (fuel : Nat) (pairs : List (Nat × Nat)) (mentioned : List Nat)
      (ws : List Nat) (rounds : List RpRound) (data : RpData),
      mentioned.Nodup →
      (∀ p ∈ pairs, p.1 ∈ mentioned ∧ p.2 ∈ mentioned) →
      mw ≤ ws.length + mentioned.length →
      ws.Nodup →
      (∀ w ∈ ws, w ∉ mentioned) →
      (∀ x ∈ mentioned, x ∈ cands) →
      (∀ w ∈ ws, w ∈ cands) →
      (ws.length < mw ∨ (ws = [] ∧ mentioned ≠ [])) →
      rpRoundLoop rows tbL tieBreaker mw fuel pairs mentioned (ws.map some)
        rounds = .success data →
      ∃ ws' : List Nat, data.winners = ws'.map some ∧ ws'.Nodup ∧
        (∀ w ∈ ws', w ∈ cands) ∧ data.winners.length ≤ max mw 1 := by
  intro fuel
  induction fuel with
  | zero =>
    intro pairs mentioned ws rounds data _ _ _ _ _ _ _ _ h
    unfold rpRoundLoop at h
    cases h
  | succ fuel ih =>
    intro pairs mentioned ws rounds data hm1 hm2 hm3 hm4 hm5 hm6 hm7 hentry h
    unfold rpRoundLoop at h
    rcases hord : orderPairs rows tbL tieBreaker pairs with err | ordered
    · rw [hord] at h
      dsimp only at h
      exact absurd h.symm (orderPairs_inl_ne_success rows tbL tieBreaker pairs
        err hord data).symm
    · rw [hord] at h
      dsimp only at h
      have hme : mentioned ≠ [] := by
        rcases hentry with hlt | ⟨_, hne⟩
        · intro hnil
          rw [hnil] at hm3
          simp at hm3
          omega
        · exact hne
      rcases hlock : lockGraphAndFindRoundWinner rows tbL mentioned ordered
          tieBreaker with err | round
      · rw [hlock] at h
        dsimp only at h
        exact absurd h.symm (lockGraph_inl_ne_success rows tbL mentioned ordered
          tieBreaker err hlock data).symm
      · rw [hlock] at h
        simp only [] at h
        obtain ⟨w, hw, hwm⟩ := lockGraph_winner rows tbL mentioned ordered
          tieBreaker round hme
          (fun p hp => hm2 p (orderPairs_subset rows tbL tieBreaker pairs
            ordered hord p hp)) hlock
        have hwnotws : w ∉ ws := fun hmem => hm5 w hmem hwm
        split at h
        · next hstop =>
          cases h
          refine ⟨ws ++ [w], ?_, ?_, ?_, ?_⟩
          · rw [hw]
            simp
          · rw [List.nodup_append]
            exact ⟨hm4, List.nodup_singleton w, by
              intro x hx hx2
              rw [List.mem_singleton] at hx2
              exact hwnotws (hx2 ▸ hx)⟩
          · intro x hx
            rcases List.mem_append.mp hx with h2 | h2
            · exact hm7 x h2
            · rw [List.mem_singleton] at h2
              exact h2 ▸ hm6 w hwm
          · have : ((ws.map some) ++ [round.winner]).length = ws.length + 1 := by
              simp
            rw [this]
            rcases hentry with hlt | ⟨hnil, _⟩
            · omega
            · rw [hnil]
              simp
        · next hcont =>
          have hlen' : ((ws.map some) ++ [round.winner]).length = ws.length + 1 := by
            simp
          rw [hlen'] at hcont
          rw [hw] at h
          dsimp only at h
          have hmap : (ws.map some) ++ [some w] = (ws ++ [w]).map some := by
            simp
          rw [hmap] at h
          have hwm' : w ∈ mentioned := hwm
          refine ih (pairs.filter (fun p => p.1 ≠ w ∧ p.2 ≠ w))
            (mentioned.erase w) (ws ++ [w]) _ data
            (hm1.erase w) ?_ ?_ ?_ ?_ ?_ ?_ ?_ h
          · intro p hp
            rw [List.mem_filter] at hp
            obtain ⟨hpp, hpw⟩ := hp
            rw [decide_eq_true_eq] at hpw
            obtain ⟨h1, h2⟩ := hm2 p hpp
            exact ⟨(hm1.mem_erase_iff.mpr ⟨hpw.1, h1⟩),
              (hm1.mem_erase_iff.mpr ⟨hpw.2, h2⟩)⟩
          · rw [List.length_erase_of_mem hwm']
            have hme' : 0 < mentioned.length := List.length_pos.mpr hme
            simp only [List.length_append, List.length_singleton]
            omega
          · rw [List.nodup_append]
            exact ⟨hm4, List.nodup_singleton w, by
              intro x hx hx2
              rw [List.mem_singleton] at hx2
              exact hwnotws (hx2 ▸ hx)⟩
          · intro x hx hxe
            rcases List.mem_append.mp hx with h2 | h2
            · exact hm5 x h2 (List.mem_of_mem_erase hxe)
            · rw [List.mem_singleton] at h2
              subst h2
              exact hm1.not_mem_erase hxe
          · intro x hx
            exact hm6 x (List.mem_of_mem_erase hx)
          · intro x hx
            rcases List.mem_append.mp hx with h2 | h2
            · exact hm7 x h2
            · rw [List.mem_singleton] at h2
              exact h2 ▸ hm6 w hwm
          · left
            simp only [List.length_append, List.length_singleton]
            omega

end Voting

namespace Voting

theorem applyWinnersError_ne_success (rows : List (List Nat))
    (pairs : List (Nat × Nat)) (tieBreaker : Option (List Nat)) (r : RpResult)
    (h : applyWinnersError rows pairs tieBreaker = some r) :
    ∀ data, r ≠ RpResult.success data := by
  unfold applyWinnersError at h
  split at h
  · cases h
  · split at h
    · cases h
      intro data heq
      cases heq
    · split at h
      · cases h
        intro data heq
        cases heq
      · cases h

theorem rpFilterCandidates_sublist (cands : List Nat) (b : VoteBuffer) :
    List.Sublist (rpFilterCandidates cands b) cands := by
  unfold rpFilterCandidates
  exact List.filter_sublist _

/-- C2, Ranked Pairs component: a successful `rankedPairs` run yields
pairwise-distinct `some` winners from the candidate list, at most
`max maxWinners 1` of them. -/
theorem rankedPairs_winners (maxWinners : Nat) (candidates : List Nat)
    (b : VoteBuffer) (tieBreaker : Option (List Nat)) (data : RpData)
    (hnd : candidates.Nodup) (h0 : 0 ∉ candidates)
    (hOnce : ∀ row ∈ b.rows, ∀ c ∈ candidates, idCount c row ≤ 1)
    (hWF : ∀ c ∈ rpFilterCandidates
        (sortByLe (fun x y => x ≤ y) candidates) b,
      b.rows.length ≤ 2 * b.rows.countP (fun row => decide (c ∈ row)))
    (h : rankedPairs maxWinners candidates b tieBreaker = .success data) :
    ∃ ws : List Nat, data.winners = ws.map some ∧ ws.Nodup ∧
      (∀ w ∈ ws, w ∈ candidates) ∧ data.winners.length ≤ max maxWinners 1 := by
  unfold rankedPairs at h
  simp only [] at h
  split at h
  · cases h
  · next hNE' =>
    have hsub0 : ∀ x ∈ rpFilterCandidates
        (sortByLe (fun x y => x ≤ y) candidates) b, x ∈ candidates := by
      intro x hx
      have h1 := (rpFilterCandidates_sublist
        (sortByLe (fun x y => x ≤ y) candidates) b).subset hx
      exact (sortByLe_perm (fun x y => x ≤ y) candidates).mem_iff.mp h1
    have hSpw : (rpFilterCandidates
        (sortByLe (fun x y => x ≤ y) candidates) b).Pairwise (· < ·) := by
      have hle : (sortByLe (fun x y => x ≤ y) candidates).Pairwise (· ≤ ·) :=
        List.chain'_iff_pairwise.mp (sortByLe_chain' candidates)
      have hnd' : (sortByLe (fun x y => x ≤ y) candidates).Nodup :=
        (sortByLe_perm _ _).nodup_iff.mpr hnd
      have hlt := (hle.and hnd').imp
        (fun hab => lt_of_le_of_ne hab.1 hab.2)
      exact hlt.sublist (rpFilterCandidates_sublist _ b)
    have hSnd : (rpFilterCandidates
        (sortByLe (fun x y => x ≤ y) candidates) b).Nodup :=
      hSpw.imp (fun hab => Nat.ne_of_lt hab)
    have hS0 : 0 ∉ rpFilterCandidates
        (sortByLe (fun x y => x ≤ y) candidates) b :=
      fun hx => h0 (hsub0 0 hx)
    have hOnceS : ∀ row ∈ b.rows, ∀ c ∈ rpFilterCandidates
        (sortByLe (fun x y => x ≤ y) candidates) b, idCount c row ≤ 1 :=
      fun row hrow c hc => hOnce row hrow c (hsub0 c hc)
    have hNE2 : 2 * rpEmptyCount (rpFilterCandidates
        (sortByLe (fun x y => x ≤ y) candidates) b) b.rows < b.rows.length := by
      omega
    have hcov := rp_coverage b _ hSpw hS0 hOnceS hNE2 hWF
    rcases haw : applyWinnersError b.rows
        ((allPairs (rpFilterCandidates
          (sortByLe (fun x y => x ≤ y) candidates) b)).filter
          (fun p => 0 < pairBallots b.rows p)) tieBreaker with _ | err
    · rw [haw] at h
      dsimp only at h
      have hmentsub : ∀ x ∈ mentionedOf ((allPairs (rpFilterCandidates
          (sortByLe (fun x y => x ≤ y) candidates) b)).filter
          (fun p => 0 < pairBallots b.rows p)), x ∈ candidates := by
        intro x hx
        obtain ⟨p, hp, hxp⟩ := mentionedOf_sub _ x hx
        obtain ⟨h1, h2, _⟩ := mem_allPairs _ p (List.mem_filter.mp hp).1
        rcases hxp with rfl | rfl
        · exact hsub0 _ h1
        · exact hsub0 _ h2
      have hments : ∀ c ∈ rpFilterCandidates
          (sortByLe (fun x y => x ≤ y) candidates) b,
          c ∈ mentionedOf ((allPairs (rpFilterCandidates
            (sortByLe (fun x y => x ≤ y) candidates) b)).filter
            (fun p => 0 < pairBallots b.rows p)) := hcov
      have hmenne : mentionedOf ((allPairs (rpFilterCandidates
          (sortByLe (fun x y => x ≤ y) candidates) b)).filter
          (fun p => 0 < pairBallots b.rows p)) ≠ [] := by
        have hrowex : ∃ row ∈ b.rows, ¬ ((allPairs (rpFilterCandidates
            (sortByLe (fun x y => x ≤ y) candidates) b)).all
            (fun p => compareNodesAccordingToBallot row p.1 p.2 = .fin 0)) = true := by
          by_contra hall
          push_neg at hall
          have : b.rows.countP (fun row => (allPairs (rpFilterCandidates
              (sortByLe (fun x y => x ≤ y) candidates) b)).all
              (fun p => compareNodesAccordingToBallot row p.1 p.2 = .fin 0))
              = b.rows.length := List.countP_eq_length.mpr hall
          unfold rpEmptyCount at hNE2
          omega
        obtain ⟨row, hrow, hne⟩ := hrowex
        have hpex : ∃ p ∈ allPairs (rpFilterCandidates
            (sortByLe (fun x y => x ≤ y) candidates) b),
            compareNodesAccordingToBallot row p.1 p.2 ≠ .fin 0 := by
          by_contra hall
          push_neg at hall
          exact hne (List.all_eq_true.mpr (fun p hp => decide_eq_true (hall p hp)))
        obtain ⟨p, hp, hpne⟩ := hpex
        have hpf : p ∈ (allPairs (rpFilterCandidates
            (sortByLe (fun x y => x ≤ y) candidates) b)).filter
            (fun q => 0 < pairBallots b.rows q) :=
          List.mem_filter.mpr ⟨hp,
            decide_eq_true (pairBallots_pos b.rows p row hrow hpne)⟩
        exact List.ne_nil_of_mem (mentionedOf_mem _ p hpf).1
      have hinv := rpRoundLoop_invariant b.rows (tieBreaker.getD [])
        tieBreaker (min maxWinners (rpFilterCandidates
          (sortByLe (fun x y => x ≤ y) candidates) b).length) candidates
        (min maxWinners (rpFilterCandidates
          (sortByLe (fun x y => x ≤ y) candidates) b).length + 1)
        _ _ [] [] data (mentionedOf_nodup _)
        (fun p hp => mentionedOf_mem _ p hp)
        (by
          have h1 : (rpFilterCandidates
              (sortByLe (fun x y => x ≤ y) candidates) b).length ≤
              (mentionedOf ((allPairs (rpFilterCandidates
                (sortByLe (fun x y => x ≤ y) candidates) b)).filter
                (fun p => 0 < pairBallots b.rows p))).length :=
            length_le_of_nodup_subset _ _ hSnd hments
          simp only [List.length_nil]
          omega)
        List.nodup_nil
        (fun w hw => absurd hw (List.not_mem_nil w))
        hmentsub
        (fun w hw => absurd hw (List.not_mem_nil w))
        (Or.inr ⟨rfl, hmenne⟩)
        h
      obtain ⟨ws, hw1, hw2, hw3, hw4⟩ := hinv
      refine ⟨ws, hw1, hw2, hw3, le_trans hw4 (by omega)⟩
    · rw [haw] at h
      dsimp only at h
      exact absurd h.symm (applyWinnersError_ne_success b.rows _ tieBreaker
        err haw data).symm

end Voting

namespace Voting

/-! ## Theorems: exact fraction arithmetic -/

theorem toRat_ofNat (n : Nat) : (Frac.ofNat n).toRat = (n : ℚ) := by
  unfold Frac.ofNat Frac.toRat
  simp

theorem toRat_add (a b : Frac) (ha : 0 < a.den) (hb : 0 < b.den) :
    (Frac.add a b).toRat = a.toRat + b.toRat := by
  unfold Frac.add Frac.toRat
  dsimp only
  have ha' : ((a.den : ℚ)) ≠ 0 := Nat.cast_ne_zero.mpr (by omega)
  have hb' : ((b.den : ℚ)) ≠ 0 := Nat.cast_ne_zero.mpr (by omega)
  push_cast
  field_simp
  try ring

theorem toRat_sub (a b : Frac) (ha : 0 < a.den) (hb : 0 < b.den) :
    (Frac.sub a b).toRat = a.toRat - b.toRat := by
  unfold Frac.sub Frac.toRat
  dsimp only
  have ha' : ((a.den : ℚ)) ≠ 0 := Nat.cast_ne_zero.mpr (by omega)
  have hb' : ((b.den : ℚ)) ≠ 0 := Nat.cast_ne_zero.mpr (by omega)
  push_cast
  field_simp
  try ring

theorem toRat_mul (a b : Frac) : (Frac.mul a b).toRat = a.toRat * b.toRat := by
  unfold Frac.mul Frac.toRat
  dsimp only
  push_cast
  simp only [div_eq_mul_inv, mul_inv]
  ring

theorem toRat_div (a b : Frac) (hb : 0 < b.num) :
    (Frac.div a b).toRat = a.toRat / b.toRat := by
  unfold Frac.div Frac.toRat
  rw [if_neg (by omega)]
  dsimp only
  have h1 : ((b.num.toNat : Nat) : ℚ) = (b.num : ℚ) := by
    exact_mod_cast Int.toNat_of_nonneg (by omega : (0 : Int) ≤ b.num)
  push_cast
  rw [h1]
  simp only [div_eq_mul_inv, mul_inv, inv_inv]
  ring

theorem blt_iff (a b : Frac) (ha : 0 < a.den) (hb : 0 < b.den) :
    (Frac.blt a b = true) ↔ a.toRat < b.toRat := by
  unfold Frac.blt Frac.toRat
  rw [decide_eq_true_eq]
  rw [div_lt_div_iff (by exact_mod_cast ha) (by exact_mod_cast hb)]
  constructor
  · intro h
    exact_mod_cast h
  · intro h
    exact_mod_cast h

theorem ble_iff (a b : Frac) (ha : 0 < a.den) (hb : 0 < b.den) :
    (Frac.ble a b = true) ↔ a.toRat ≤ b.toRat := by
  unfold Frac.ble Frac.toRat
  rw [decide_eq_true_eq]
  rw [div_le_div_iff (by exact_mod_cast ha) (by exact_mod_cast hb)]
  constructor
  · intro h
    exact_mod_cast h
  · intro h
    exact_mod_cast h

theorem toRat_nonneg (f : Frac) (h : 0 ≤ f.num) : 0 ≤ f.toRat := by
  unfold Frac.toRat
  apply div_nonneg
  · exact_mod_cast h
  · exact Nat.cast_nonneg f.den


theorem toRat_num_nonneg (f : Frac) (hden : 0 < f.den) (h : 0 ≤ f.toRat) :
    0 ≤ f.num := by
  unfold Frac.toRat at h
  by_contra hneg
  have h1 : (f.num : ℚ) < 0 := by exact_mod_cast (by omega : f.num < 0)
  have h2 : (0 : ℚ) < (f.den : ℚ) := by exact_mod_cast hden
  have := div_neg_of_neg_of_pos h1 h2
  linarith

theorem toRat_num_pos (f : Frac) (hden : 0 < f.den) (h : 0 < f.toRat) :
    0 < f.num := by
  by_contra hle
  have h1 : (f.num : ℚ) ≤ 0 := by exact_mod_cast (by omega : f.num ≤ 0)
  have h2 : (0 : ℚ) < (f.den : ℚ) := by exact_mod_cast hden
  have : f.toRat ≤ 0 := by
    unfold Frac.toRat
    exact div_nonpos_of_nonpos_of_nonneg h1 (le_of_lt h2)
  linarith

end Voting

namespace Voting

/-! ## Theorems: association list and set-fold toolbox -/

theorem alGetD_alSet_other {β : Type} (m : List (Nat × β)) (k : Nat) (v : β)
    (k' : Nat) (d : β) (h : k' ≠ k) :
    alGetD (alSet m k v) k' d = alGetD m k' d := by
  unfold alGetD
  rw [alGet_alSet_ne m k k' v h]

theorem alGetD_alSet_self {β : Type} (m : List (Nat × β)) (k : Nat) (v d : β) :
    alGetD (alSet m k v) k d = v := by
  unfold alGetD
  rw [alGet_alSet_self]
  rfl

theorem alGet_mem {β : Type} (m : List (Nat × β)) (k : Nat) (v : β)
    (h : alGet m k = some v) : (k, v) ∈ m := by
  unfold alGet at h
  rcases hf : m.find? (fun p => p.1 == k) with _ | p
  · rw [hf] at h
    cases h
  · rw [hf] at h
    have hp := List.find?_some hf
    have hm := List.mem_of_find?_eq_some hf
    rw [beq_iff_eq] at hp
    obtain rfl : p.2 = v := by simpa using h
    obtain ⟨p1, p2⟩ := p
    dsimp only at hp
    subst hp
    exact hm

theorem foldl_insertUniq_mem (xs : List Nat) :
    ∀ (l : List Nat) (x : Nat),
      x ∈ xs.foldl insertUniq l ↔ x ∈ l ∨ x ∈ xs := by
  induction xs with
  | nil => intro l x; simp
  | cons y xs ih =>
    intro l x
    rw [List.foldl_cons, ih, mem_insertUniq]
    constructor
    · rintro ((h | rfl) | h)
      · exact Or.inl h
      · exact Or.inr (List.mem_cons_self x xs)
      · exact Or.inr (List.mem_cons_of_mem y h)
    · rintro (h | h)
      · exact Or.inl (Or.inl h)
      · rcases List.mem_cons.mp h with rfl | h2
        · exact Or.inl (Or.inr rfl)
        · exact Or.inr h2

theorem foldl_insertUniq_nodup (xs : List Nat) :
    ∀ (l : List Nat), l.Nodup → (xs.foldl insertUniq l).Nodup := by
  induction xs with
  | nil => intro l h; exact h
  | cons y xs ih =>
    intro l h
    rw [List.foldl_cons]
    exact ih _ (insertUniq_nodup l y h)

theorem foldl_insertUniq_length (xs : List Nat) :
    ∀ (l : List Nat),
      (xs.foldl insertUniq l).length ≤ l.length + xs.length := by
  induction xs with
  | nil => intro l; simp
  | cons y xs ih =>
    intro l
    rw [List.foldl_cons]
    have h1 := ih (insertUniq l y)
    have h2 := insertUniq_length l y
    simp only [List.length_cons]
    omega

end Voting

namespace Voting

theorem alSet_split {β : Type} (m : List (Nat × β)) (k : Nat) :
    k ∈ alKeys m →
    ∃ (pre post : List (Nat × β)) (old : β),
      m = pre ++ (k, old) :: post ∧
      (∀ v, alSet m k v = pre ++ (k, v) :: post) ∧
      alGet m k = some old := by
  induction m with
  | nil =>
    intro hk
    simp [alKeys] at hk
  | cons p m ih =>
    intro hk
    obtain ⟨p1, p2⟩ := p
    by_cases hp : p1 = k
    · subst hp
      refine ⟨[], m, p2, by simp, ?_, ?_⟩
      · intro v
        unfold alSet
        rw [if_pos rfl]
        simp
      · unfold alGet
        rw [List.find?_cons_of_pos _ (by simp)]
        rfl
    · have hk' : k ∈ alKeys m := by
        unfold alKeys at hk
        rw [List.map_cons, List.mem_cons] at hk
        rcases hk with h | h
        · exact absurd h.symm hp
        · exact h
      obtain ⟨pre, post, old, hm, hset, hget⟩ := ih hk'
      refine ⟨(p1, p2) :: pre, post, old, by rw [hm]; simp, ?_, ?_⟩
      · intro v
        unfold alSet
        rw [if_neg hp]
        rw [hset v]
        simp
      · unfold alGet
        rw [List.find?_cons_of_neg _ (by simpa using hp)]
        exact hget

theorem mem_alSet_sub {β : Type} (m : List (Nat × β)) (k : Nat) (v : β) :
    ∀ p ∈ alSet m k v, p ∈ m ∨ p = (k, v) := by
  induction m with
  | nil =>
    intro p hp
    unfold alSet at hp
    rw [List.mem_singleton] at hp
    exact Or.inr hp
  | cons q m ih =>
    intro p hp
    unfold alSet at hp
    split at hp
    · rcases List.mem_cons.mp hp with rfl | h
      · exact Or.inr rfl
      · exact Or.inl (List.mem_cons_of_mem q h)
    · rcases List.mem_cons.mp hp with rfl | h
      · exact Or.inl (List.mem_cons_self p m)
      · rcases ih p h with h2 | h2
        · exact Or.inl (List.mem_cons_of_mem q h2)
        · exact Or.inr h2

theorem colQ_append (m1 m2 : List (Nat × List Frac)) (i : Nat) :
    colQ (m1 ++ m2) i = colQ m1 i + colQ m2 i := by
  unfold colQ
  rw [List.map_append, List.sum_append]

theorem colQ_cons (p : Nat × List Frac) (m : List (Nat × List Frac)) (i : Nat) :
    colQ (p :: m) i = Frac.toRat (p.2.getD i (Frac.ofNat 0)) + colQ m i := by
  unfold colQ
  rw [List.map_cons, List.sum_cons]

theorem tableRowsQ_append (m1 m2 : List (Nat × List Frac)) :
    tableRowsQ (m1 ++ m2) = tableRowsQ m1 + tableRowsQ m2 := by
  unfold tableRowsQ
  rw [List.map_append, List.sum_append]

theorem tableRowsQ_cons (p : Nat × List Frac) (m : List (Nat × List Frac)) :
    tableRowsQ (p :: m) = rowQ p.2 + tableRowsQ m := by
  unfold tableRowsQ
  rw [List.map_cons, List.sum_cons]

theorem colQ_alSet (m : List (Nat × List Frac)) (k : Nat) (r old : List Frac)
    (pre post : List (Nat × List Frac))
    (hm : m = pre ++ (k, old) :: post)
    (hset : alSet m k r = pre ++ (k, r) :: post) (i : Nat) :
    colQ (alSet m k r) i = colQ m i - Frac.toRat (old.getD i (Frac.ofNat 0)) +
      Frac.toRat (r.getD i (Frac.ofNat 0)) := by
  rw [hset, hm, colQ_append, colQ_append, colQ_cons, colQ_cons]
  ring

theorem tableRowsQ_alSet (m : List (Nat × List Frac)) (k : Nat)
    (r old : List Frac) (pre post : List (Nat × List Frac))
    (hm : m = pre ++ (k, old) :: post)
    (hset : alSet m k r = pre ++ (k, r) :: post) :
    tableRowsQ (alSet m k r) = tableRowsQ m - rowQ old + rowQ r := by
  rw [hset, hm, tableRowsQ_append, tableRowsQ_append, tableRowsQ_cons,
    tableRowsQ_cons]
  ring

theorem rowQ_nil : rowQ [] = 0 := rfl

theorem rowQ_cons (f : Frac) (r : List Frac) :
    rowQ (f :: r) = Frac.toRat f + rowQ r := by
  unfold rowQ
  rw [List.map_cons, List.sum_cons]

theorem rowQ_nonneg (r : List Frac) (h : ∀ f ∈ r, 0 ≤ f.num) : 0 ≤ rowQ r := by
  induction r with
  | nil => exact le_refl 0
  | cons f r ih =>
    rw [rowQ_cons]
    have h1 := toRat_nonneg f (h f (List.mem_cons_self f r))
    have h2 := ih (fun g hg => h g (List.mem_cons_of_mem f hg))
    linarith

theorem sum_range_map_add (N : Nat) (f g : Nat → ℚ) :
    ((List.range N).map (fun i => f i + g i)).sum =
      ((List.range N).map f).sum + ((List.range N).map g).sum := by
  induction N with
  | zero => simp
  | succ n ih =>
    rw [List.range_succ]
    simp only [List.map_append, List.sum_append, List.map_cons, List.map_nil,
      List.sum_cons, List.sum_nil]
    rw [ih]
    ring

theorem sum_range_getD (r : List Frac) :
    ((List.range r.length).map
      (fun i => Frac.toRat (r.getD i (Frac.ofNat 0)))).sum = rowQ r := by
  induction r with
  | nil => simp [rowQ_nil]
  | cons f r ih =>
    rw [rowQ_cons, ← ih]
    rw [List.length_cons, List.range_succ_eq_map]
    simp only [List.map_cons, List.sum_cons, List.map_map]
    congr 1

theorem rowsQ_eq_colsQ (N : Nat) :
    ∀ (values : List (Nat × List Frac)), (∀ p ∈ values, p.2.length = N) →
    tableRowsQ values = ((List.range N).map (colQ values)).sum := by
  intro values
  induction values with
  | nil =>
    intro _
    unfold tableRowsQ colQ
    simp
  | cons p values ih =>
    intro hlen
    rw [tableRowsQ_cons]
    have h1 : ((List.range N).map (colQ (p :: values))).sum =
        ((List.range N).map
          (fun i => Frac.toRat (p.2.getD i (Frac.ofNat 0)) + colQ values i)).sum := by
      congr 1
    rw [h1, sum_range_map_add]
    rw [← hlen p (List.mem_cons_self p values), sum_range_getD]
    rw [ih (fun q hq => hlen q (List.mem_cons_of_mem p hq))]
    rw [hlen p (List.mem_cons_self p values)]

theorem sum_range_le_length (N : Nat) (f : Nat → ℚ)
    (h : ∀ i, i < N → f i ≤ 1) : ((List.range N).map f).sum ≤ N := by
  induction N with
  | zero => simp
  | succ n ih =>
    rw [List.range_succ]
    simp only [List.map_append, List.sum_append, List.map_cons, List.map_nil,
      List.sum_cons, List.sum_nil]
    have h1 := ih (fun i hi => h i (by omega))
    have h2 := h n (by omega)
    push_cast
    linarith

end Voting

namespace Voting

theorem alGet_of_mem_keys {β : Type} (m : List (Nat × β)) (k : Nat)
    (hk : k ∈ alKeys m) : ∃ v, alGet m k = some v := by
  obtain ⟨pre, post, old, _, _, hget⟩ := alSet_split m k hk
  exact ⟨old, hget⟩

theorem sum_le_sum_of_nodup_subset (l keys : List Nat) (f : Nat → ℚ)
    (hnd : l.Nodup) (hknd : keys.Nodup) (hsub : ∀ x ∈ l, x ∈ keys)
    (hpos : ∀ x ∈ keys, 0 ≤ f x) :
    (l.map f).sum ≤ (keys.map f).sum := by
  rw [← List.sum_toFinset f hnd, ← List.sum_toFinset f hknd]
  refine Finset.sum_le_sum_of_subset_of_nonneg ?_ ?_
  · intro x hx
    rw [List.mem_toFinset] at hx
    rw [List.mem_toFinset]
    exact hsub x hx
  · intro x hx _
    rw [List.mem_toFinset] at hx
    exact hpos x hx

theorem map_alGet_eq (values : List (Nat × List Frac))
    (hnd : (alKeys values).Nodup) :
    ((alKeys values).map (fun c => rowQ ((alGet values c).getD []))).sum =
      tableRowsQ values := by
  induction values with
  | nil => rfl
  | cons p values ih =>
    have hkeys : alKeys (p :: values) = p.1 :: alKeys values := rfl
    rw [hkeys] at hnd ⊢
    rw [List.nodup_cons] at hnd
    rw [List.map_cons, List.sum_cons, tableRowsQ_cons]
    have hhead : alGet (p :: values) p.1 = some p.2 := by
      unfold alGet
      rw [List.find?_cons_of_pos _ (by simp)]
      rfl
    rw [hhead]
    have htail : (alKeys values).map
        (fun c => rowQ ((alGet (p :: values) c).getD [])) =
        (alKeys values).map (fun c => rowQ ((alGet values c).getD [])) := by
      refine List.map_congr_left ?_
      intro c hc
      have hcp : ¬ p.1 = c := fun h => hnd.1 (h ▸ hc)
      unfold alGet
      rw [List.find?_cons_of_neg _ (by simpa using hcp)]
    rw [htail, ih hnd.2]
    rfl

theorem candValues_sum_le (N : Nat) (keys : List Nat) (vv : VoteValues)
    (hInv : VVInv N keys vv) (l : List Nat) (hnd : l.Nodup)
    (hsub : ∀ x ∈ l, x ∈ keys) :
    (l.map (fun c => Frac.toRat (alGetD vv.candValues c (Frac.ofNat 0)))).sum
      ≤ (N : ℚ) := by
  have hmap : l.map (fun c => Frac.toRat (alGetD vv.candValues c (Frac.ofNat 0)))
      = l.map (fun c => rowQ ((alGet vv.values c).getD [])) :=
    List.map_congr_left (fun c hc => hInv.cvEq c (hsub c hc))
  rw [hmap]
  have hpos : ∀ x ∈ keys, 0 ≤ rowQ ((alGet vv.values x).getD []) := by
    intro x hx
    rw [← hInv.keysEq] at hx
    obtain ⟨row, hrow⟩ := alGet_of_mem_keys vv.values x hx
    rw [hrow]
    refine rowQ_nonneg _ ?_
    intro f hf
    exact (hInv.cellsOk (x, row) (alGet_mem vv.values x row hrow) f hf).2
  calc (l.map (fun c => rowQ ((alGet vv.values c).getD []))).sum
      ≤ (keys.map (fun c => rowQ ((alGet vv.values c).getD []))).sum :=
        sum_le_sum_of_nodup_subset l keys _ hnd hInv.keysNodup hsub hpos
    _ = ((alKeys vv.values).map
        (fun c => rowQ ((alGet vv.values c).getD []))).sum := by
        rw [hInv.keysEq]
    _ = tableRowsQ vv.values := map_alGet_eq vv.values
        (by rw [hInv.keysEq]; exact hInv.keysNodup)
    _ = ((List.range N).map (colQ vv.values)).sum :=
        rowsQ_eq_colsQ N vv.values hInv.rowsLen
    _ ≤ (N : ℚ) := sum_range_le_length N _ hInv.colLe

theorem sum_ge_mul (f : Nat → ℚ) (q : ℚ) :
    ∀ (l : List Nat), (∀ x ∈ l, q ≤ f x) →
      (l.length : ℚ) * q ≤ (l.map f).sum := by
  intro l
  induction l with
  | nil => intro _; simp
  | cons x xs ih =>
    intro h
    rw [List.map_cons, List.sum_cons, List.length_cons]
    have h1 := h x (List.mem_cons_self x xs)
    have h2 := ih (fun y hy => h y (List.mem_cons_of_mem x hy))
    push_cast
    linarith

theorem sum_gt_mul (f : Nat → ℚ) (q : ℚ) :
    ∀ (l : List Nat), (∀ x ∈ l, q < f x) → l ≠ [] →
      (l.length : ℚ) * q < (l.map f).sum := by
  intro l
  induction l with
  | nil => intro _ h; exact absurd rfl h
  | cons x xs _ =>
    intro h _
    rw [List.map_cons, List.sum_cons, List.length_cons]
    have h1 := h x (List.mem_cons_self x xs)
    have h2 := sum_ge_mul f q xs
      (fun y hy => le_of_lt (h y (List.mem_cons_of_mem x hy)))
    push_cast
    linarith

end Voting

namespace Voting

theorem transferRows_cons_skip (amount : Frac) (filt : Nat → Bool) (i : Nat)
    (tot fc tc : Frac) (fr tr : List Frac)
    (hskip : (fc.num == 0 || !(filt i)) = true) :
    transferRows amount filt i tot (fc :: fr) (tc :: tr) =
      (fc :: (transferRows amount filt (i + 1) tot fr tr).1,
        tc :: (transferRows amount filt (i + 1) tot fr tr).2.1,
        (transferRows amount filt (i + 1) tot fr tr).2.2) := by
  conv_lhs => rw [transferRows]
  rw [if_pos hskip]

theorem transferRows_cons_go (amount : Frac) (filt : Nat → Bool) (i : Nat)
    (tot fc tc : Frac) (fr tr : List Frac)
    (hgo : ¬ (fc.num == 0 || !(filt i)) = true) :
    transferRows amount filt i tot (fc :: fr) (tc :: tr) =
      (Frac.sub fc (Frac.mul fc amount) ::
          (transferRows amount filt (i + 1)
            (Frac.add tot (Frac.mul fc amount)) fr tr).1,
        Frac.add tc (Frac.mul fc amount) ::
          (transferRows amount filt (i + 1)
            (Frac.add tot (Frac.mul fc amount)) fr tr).2.1,
        (transferRows amount filt (i + 1)
          (Frac.add tot (Frac.mul fc amount)) fr tr).2.2) := by
  conv_lhs => rw [transferRows]
  rw [if_neg hgo]

theorem transferRows_spec (amount : Frac) (filt : Nat → Bool)
    (hamt : 0 < amount.den) :
    ∀ (fr tr : List Frac) (i : Nat) (tot : Frac),
      fr.length = tr.length → 0 < tot.den →
      (∀ f ∈ fr, 0 < f.den) → (∀ f ∈ tr, 0 < f.den) →
      (transferRows amount filt i tot fr tr).1.length = fr.length ∧
      (transferRows amount filt i tot fr tr).2.1.length = tr.length ∧
      (∀ f ∈ (transferRows amount filt i tot fr tr).1, 0 < f.den) ∧
      (∀ f ∈ (transferRows amount filt i tot fr tr).2.1, 0 < f.den) ∧
      0 < (transferRows amount filt i tot fr tr).2.2.den ∧
      (∀ j, j < fr.length →
        Frac.toRat ((transferRows amount filt i tot fr tr).1.getD j (Frac.ofNat 0)) =
          if filt (i + j) = true then
            Frac.toRat (fr.getD j (Frac.ofNat 0)) * (1 - amount.toRat)
          else Frac.toRat (fr.getD j (Frac.ofNat 0))) ∧
      (∀ j, j < fr.length →
        Frac.toRat ((transferRows amount filt i tot fr tr).2.1.getD j (Frac.ofNat 0)) =
          Frac.toRat (tr.getD j (Frac.ofNat 0)) +
            (Frac.toRat (fr.getD j (Frac.ofNat 0)) -
              Frac.toRat ((transferRows amount filt i tot fr tr).1.getD j
                (Frac.ofNat 0)))) ∧
      Frac.toRat (transferRows amount filt i tot fr tr).2.2 =
        Frac.toRat tot + (rowQ fr - rowQ (transferRows amount filt i tot fr tr).1) := by
  intro fr
  induction fr with
  | nil =>
    intro tr i tot hlen htot hfr htr
    cases tr with
    | nil =>
      refine ⟨rfl, rfl, ?_, ?_, htot, ?_, ?_, ?_⟩
      · intro f hf
        cases hf
      · intro f hf
        cases hf
      · intro j hj
        cases hj
      · intro j hj
        cases hj
      · show Frac.toRat tot = Frac.toRat tot + (rowQ [] - rowQ [])
        rw [rowQ_nil]
        ring
    | cons tc tr => simp at hlen
  | cons fc fr ih =>
    intro tr i tot hlen htot hfr htr
    cases tr with
    | nil => simp at hlen
    | cons tc tr =>
      have hlen' : fr.length = tr.length := by simpa using hlen
      have hfc : 0 < fc.den := hfr fc (List.mem_cons_self fc fr)
      have htc : 0 < tc.den := htr tc (List.mem_cons_self tc tr)
      have hfr' : ∀ f ∈ fr, 0 < f.den :=
        fun f hf => hfr f (List.mem_cons_of_mem fc hf)
      have htr' : ∀ f ∈ tr, 0 < f.den :=
        fun f hf => htr f (List.mem_cons_of_mem tc hf)
      by_cases hskip : (fc.num == 0 || !(filt i)) = true
      · rw [transferRows_cons_skip amount filt i tot fc tc fr tr hskip]
        dsimp only
        obtain ⟨l1, l2, d1, d2, dt, c1, c2, ct⟩ :=
          ih tr (i + 1) tot hlen' htot hfr' htr'
        have hcase : fc.num = 0 ∨ filt i = false := by
          rw [Bool.or_eq_true] at hskip
          rcases hskip with h | h
          · left
            exact beq_iff_eq.mp h
          · right
            simpa using h
        refine ⟨by simpa using l1, by simpa using l2, ?_, ?_, dt, ?_, ?_, ?_⟩
        · intro f hf
          rcases List.mem_cons.mp hf with rfl | hf'
          · exact hfc
          · exact d1 f hf'
        · intro f hf
          rcases List.mem_cons.mp hf with rfl | hf'
          · exact htc
          · exact d2 f hf'
        · intro j hj
          cases j with
          | zero =>
            simp only [List.getD_cons_zero, Nat.add_zero]
            rcases hcase with h | h
            · have hfc0 : Frac.toRat fc = 0 := by
                unfold Frac.toRat
                rw [h]
                simp
              rw [hfc0]
              split <;> ring
            · rw [if_neg (by rw [h]; exact fun hh => Bool.noConfusion hh)]
          | succ j =>
            simp only [List.getD_cons_succ]
            have harith : i + (j + 1) = (i + 1) + j := by omega
            rw [harith]
            exact c1 j (by simpa using hj)
        · intro j hj
          cases j with
          | zero =>
            simp only [List.getD_cons_zero]
            ring
          | succ j =>
            simp only [List.getD_cons_succ]
            exact c2 j (by simpa using hj)
        · rw [ct, rowQ_cons, rowQ_cons]
          ring
      · rw [transferRows_cons_go amount filt i tot fc tc fr tr hskip]
        dsimp only
        simp only [Bool.or_eq_true, beq_iff_eq, Bool.not_eq_true', not_or,
          Bool.not_eq_false] at hskip
        obtain ⟨hnum, hfilt⟩ := hskip
        have htden : 0 < (Frac.mul fc amount).den := by
          unfold Frac.mul
          exact Nat.mul_pos hfc hamt
        have hsubden : 0 < (Frac.sub fc (Frac.mul fc amount)).den := by
          unfold Frac.sub
          exact Nat.mul_pos hfc htden
        have haddden : 0 < (Frac.add tc (Frac.mul fc amount)).den := by
          unfold Frac.add
          exact Nat.mul_pos htc htden
        have htotden : 0 < (Frac.add tot (Frac.mul fc amount)).den := by
          unfold Frac.add
          exact Nat.mul_pos htot htden
        obtain ⟨l1, l2, d1, d2, dt, c1, c2, ct⟩ :=
          ih tr (i + 1) (Frac.add tot (Frac.mul fc amount)) hlen' htotden hfr' htr'
        have hsubval : Frac.toRat (Frac.sub fc (Frac.mul fc amount)) =
            Frac.toRat fc * (1 - Frac.toRat amount) := by
          rw [toRat_sub fc (Frac.mul fc amount) hfc htden, toRat_mul]
          ring
        refine ⟨by simpa using l1, by simpa using l2, ?_, ?_, dt, ?_, ?_, ?_⟩
        · intro f hf
          rcases List.mem_cons.mp hf with rfl | hf'
          · exact hsubden
          · exact d1 f hf'
        · intro f hf
          rcases List.mem_cons.mp hf with rfl | hf'
          · exact haddden
          · exact d2 f hf'
        · intro j hj
          cases j with
          | zero =>
            simp only [List.getD_cons_zero, Nat.add_zero]
            rw [if_pos hfilt]
            exact hsubval
          | succ j =>
            simp only [List.getD_cons_succ]
            have harith : i + (j + 1) = (i + 1) + j := by omega
            rw [harith]
            exact c1 j (by simpa using hj)
        · intro j hj
          cases j with
          | zero =>
            simp only [List.getD_cons_zero]
            rw [hsubval, toRat_add tc (Frac.mul fc amount) htc htden, toRat_mul]
            ring
          | succ j =>
            simp only [List.getD_cons_succ]
            exact c2 j (by simpa using hj)
        · rw [ct, rowQ_cons, rowQ_cons,
            toRat_add tot (Frac.mul fc amount) htot htden, toRat_mul, hsubval]
          ring

end Voting

namespace Voting

/-! ## Theorems: scan folds and their tallies -/

theorem scanFold_eq (g : List Nat → Nat) :
    ∀ (rows : List (List Nat)) (t0 : List (Nat × Nat)) (l0 : List Nat),
      rows.foldl (fun acc ws =>
        let w := g ws
        (if w ≠ 0 then alBump acc.1 w else acc.1, acc.2 ++ [w])) (t0, l0) =
      (tallyFrom t0 (rows.map g), l0 ++ rows.map g) := by
  intro rows
  induction rows with
  | nil =>
    intro t0 l0
    simp [tallyFrom]
  | cons row rows ih =>
    intro t0 l0
    rw [List.foldl_cons, List.map_cons]
    rw [ih]
    unfold tallyFrom
    rw [List.foldl_cons]
    simp

theorem tallyFrom_keys (ws : List Nat) :
    ∀ (t : List (Nat × Nat)) (x : Nat), x ∈ alKeys (tallyFrom t ws) →
      x ∈ alKeys t ∨ (x ∈ ws ∧ x ≠ 0) := by
  induction ws with
  | nil => intro t x h; exact Or.inl h
  | cons w ws ih =>
    intro t x h
    unfold tallyFrom at h
    rw [List.foldl_cons] at h
    have h' := ih _ x h
    rcases h' with h' | h'
    · by_cases hw : w ≠ 0
      · rw [if_pos hw] at h'
        unfold alBump at h'
        rcases List.mem_map.mp h' with ⟨p, hp, rfl⟩
        rcases mem_alSet_sub t w _ p hp with h2 | h2
        · exact Or.inl (List.mem_map_of_mem Prod.fst h2)
        · subst h2
          exact Or.inr ⟨List.mem_cons_self w ws, hw⟩
      · rw [if_neg hw] at h'
        exact Or.inl h'
    · exact Or.inr ⟨List.mem_cons_of_mem w h'.1, h'.2⟩

theorem tallyFrom_nodup (ws : List Nat) :
    ∀ (t : List (Nat × Nat)), KeysNodup t → KeysNodup (tallyFrom t ws) := by
  induction ws with
  | nil => intro t h; exact h
  | cons w ws ih =>
    intro t h
    unfold tallyFrom
    rw [List.foldl_cons]
    refine ih _ ?_
    by_cases hw : w ≠ 0
    · rw [if_pos hw]
      exact keysNodup_alSet t w _ h
    · rw [if_neg hw]
      exact h

theorem tallyFrom_count (ws : List Nat) :
    ∀ (t : List (Nat × Nat)) (c : Nat), c ≠ 0 →
      alGetD (tallyFrom t ws) c 0 =
        alGetD t c 0 + ws.countP (fun w => w == c) := by
  induction ws with
  | nil => intro t c _; simp [tallyFrom]
  | cons w ws ih =>
    intro t c hc
    unfold tallyFrom
    rw [List.foldl_cons]
    have h1 := ih (if w ≠ 0 then alBump t w else t) c hc
    unfold tallyFrom at h1
    rw [h1]
    rw [List.countP_cons]
    by_cases hw : w ≠ 0
    · rw [if_pos hw, alGetD_alBump]
      by_cases hwc : w = c
      · subst hwc
        simp only [if_pos rfl, beq_self_eq_true, if_pos]
        omega
      · rw [if_neg hwc]
        have h2 : (w == c) = false := by simpa using hwc
        rw [h2]
        simp
    · rw [if_neg hw]
      push_neg at hw
      subst hw
      have h2 : ((0 : Nat) == c) = false := by simpa using Ne.symm hc
      rw [h2]
      simp

theorem alGet_none_of_not_mem_keys {β : Type} (m : List (Nat × β)) (k : Nat)
    (h : k ∉ alKeys m) : alGet m k = none := by
  unfold alGet
  rw [List.find?_eq_none.mpr]
  · rfl
  · intro p hp hbeq
    rw [beq_iff_eq] at hbeq
    exact h (hbeq ▸ List.mem_map_of_mem Prod.fst hp)

theorem scanNthLoop_mem_aux (cands : List Nat) (n : Nat) :
    ∀ (k : Nat) (ws : List Nat), ws.length ≤ k → ∀ (hp : Nat) (w : Nat),
      scanNthLoop cands n ws hp = some w → w ∈ cands := by
  intro k
  induction k with
  | zero =>
    intro ws hlen hp w h
    rcases ws with _ | ⟨w0, rest⟩
    · cases h
    · simp at hlen
  | succ k ih =>
    intro ws hlen hp w h
    rcases ws with _ | ⟨w0, _ | ⟨w1, rest⟩⟩
    · cases h
    · unfold scanNthLoop at h
      split at h
      · split at h
        · obtain rfl : w0 = w := by simpa using h
          simpa using (by assumption : cands.contains w0 = true)
        · cases h
      · cases h
    · unfold scanNthLoop at h
      split at h
      · split at h
        · obtain rfl : w0 = w := by simpa using h
          simpa using (by assumption : cands.contains w0 = true)
        · refine ih rest ?_ (hp + 1) w h
          simp only [List.length_cons] at hlen
          omega
      · refine ih rest ?_ hp w h
        simp only [List.length_cons] at hlen
        omega

theorem scanNthLoop_mem (cands : List Nat) (n : Nat) (ws : List Nat) (hp w : Nat)
    (h : scanNthLoop cands n ws hp = some w) : w ∈ cands :=
  scanNthLoop_mem_aux cands n ws.length ws le_rfl hp w h

theorem scanNextLoop_mem (cands : List Nat) (given : Nat) :
    ∀ (ws : List Nat) (hg : Bool) (w : Nat),
      scanNextLoop cands given ws hg = some w → w ∈ cands := by
  intro ws
  induction ws with
  | nil => intro hg w h; cases h
  | cons w0 rest ih =>
    intro hg w h
    unfold scanNextLoop at h
    split at h
    · exact ih _ _ h
    · split at h
      · obtain rfl : w0 = w := by simpa using h
        have hc : (hg && cands.contains w0) = true := by assumption
        rw [Bool.and_eq_true] at hc
        simpa using hc.2
      · exact ih _ _ h

theorem forAllRows_length (b : VoteBuffer) : (forAllRows b).length = b.count := by
  unfold forAllRows
  simp

theorem scanNth_eq (b : VoteBuffer) (cands : List Nat) (n : Nat) :
    ∃ ws : List Nat,
      scanNthPreferences b cands n = (tallyFrom [] ws, ws) ∧
      ws.length = b.count ∧ ∀ w ∈ ws, w = 0 ∨ w ∈ cands := by
  refine ⟨(forAllRows b).map (fun r => (scanNthLoop cands n r 0).getD 0), ?_, ?_, ?_⟩
  · unfold scanNthPreferences
    rw [scanFold_eq]
    simp
  · rw [List.length_map, forAllRows_length]
  · intro w hw
    rcases List.mem_map.mp hw with ⟨r, _, rfl⟩
    rcases hs : scanNthLoop cands n r 0 with _ | v
    · exact Or.inl rfl
    · exact Or.inr (by simpa using scanNthLoop_mem cands n r 0 v hs)

theorem scanNext_eq (b : VoteBuffer) (cands : List Nat) (given : Nat) :
    ∃ ws : List Nat,
      scanNextPreferences b cands given = (tallyFrom [] ws, ws) ∧
      ws.length = b.count ∧ ∀ w ∈ ws, w = 0 ∨ w ∈ cands := by
  refine ⟨(forAllRows b).map (fun r => (scanNextLoop cands given r false).getD 0),
    ?_, ?_, ?_⟩
  · unfold scanNextPreferences
    rw [scanFold_eq]
    simp
  · rw [List.length_map, forAllRows_length]
  · intro w hw
    rcases List.mem_map.mp hw with ⟨r, _, rfl⟩
    rcases hs : scanNextLoop cands given r false with _ | v
    · exact Or.inl rfl
    · exact Or.inr (by simpa using scanNextLoop_mem cands given r false v hs)

end Voting

namespace Voting

/-! ## Theorems: the initial vote table -/

theorem alKeys_map_pair {β : Type} (cands : List Nat) (g : Nat → β) :
    alKeys (cands.map (fun c => (c, g c))) = cands := by
  induction cands with
  | nil => rfl
  | cons c rest ih =>
    show (c, g c).1 :: alKeys (rest.map (fun c => (c, g c))) = c :: rest
    rw [ih]

theorem alKeys_map_val {β γ : Type} (t : List (Nat × β)) (f : β → γ) :
    alKeys (t.map (fun p => (p.1, f p.2))) = alKeys t := by
  unfold alKeys
  rw [List.map_map]
  rfl

theorem alGet_map_pair {β : Type} (g : Nat → β) :
    ∀ (cands : List Nat) (c : Nat), c ∈ cands →
      alGet (cands.map (fun c => (c, g c))) c = some (g c) := by
  intro cands
  induction cands with
  | nil => intro c hc; cases hc
  | cons c0 rest ih =>
    intro c hc
    by_cases h0 : c0 = c
    · subst h0
      unfold alGet
      rw [List.map_cons, List.find?_cons_of_pos _ (by simp)]
      rfl
    · unfold alGet
      rw [List.map_cons, List.find?_cons_of_neg _ (by simpa using h0)]
      rcases List.mem_cons.mp hc with rfl | hc'
      · exact absurd rfl h0
      · exact ih c hc'

theorem alGetD_map_val {β γ : Type} (t : List (Nat × β)) (f : β → γ)
    (c : Nat) (d : β) :
    alGetD (t.map (fun p => (p.1, f p.2))) c (f d) = f (alGetD t c d) := by
  unfold alGetD
  rw [alGet_map_snd]
  cases alGet t c <;> simp

theorem rowQ_indicator (c : Nat) :
    ∀ (l : List Nat),
      rowQ (l.map (fun a => if c ≠ 0 ∧ a = c then Frac.ofNat 1 else Frac.ofNat 0)) =
        if c = 0 then 0 else (l.countP (fun a => a == c) : ℚ) := by
  intro l
  induction l with
  | nil =>
    rw [List.map_nil, rowQ_nil]
    split <;> simp
  | cons a l ih =>
    rw [List.map_cons, rowQ_cons, ih, List.countP_cons]
    by_cases hc : c = 0
    · subst hc
      simp [toRat_ofNat]
    · rw [if_neg hc, if_neg hc]
      by_cases hac : a = c
      · subst hac
        rw [if_pos ⟨hc, rfl⟩, toRat_ofNat]
        simp only [beq_self_eq_true, if_pos]
        push_cast
        ring
      · rw [if_neg (by tauto), toRat_ofNat]
        have h2 : (a == c) = false := by simpa using hac
        rw [h2]
        simp

theorem indicator_sum_zero (a : Nat) :
    ∀ (cands : List Nat), a ∉ cands →
      (cands.map (fun c => if c ≠ 0 ∧ a = c then (1 : ℚ) else 0)).sum = 0 := by
  intro cands
  induction cands with
  | nil => intro _; simp
  | cons c0 rest ih =>
    intro h
    rw [List.map_cons, List.sum_cons]
    have h0 : ¬ (c0 ≠ 0 ∧ a = c0) := by
      rintro ⟨_, rfl⟩
      exact h (List.mem_cons_self a rest)
    rw [if_neg h0, ih (fun h2 => h (List.mem_cons_of_mem c0 h2))]
    ring

theorem indicator_sum_le_one (a : Nat) :
    ∀ (cands : List Nat), cands.Nodup →
      (cands.map (fun c => if c ≠ 0 ∧ a = c then (1 : ℚ) else 0)).sum ≤ 1 := by
  intro cands
  induction cands with
  | nil => intro _; simp
  | cons c0 rest ih =>
    intro hnd
    rw [List.nodup_cons] at hnd
    rw [List.map_cons, List.sum_cons]
    by_cases h0 : c0 ≠ 0 ∧ a = c0
    · rw [if_pos h0, indicator_sum_zero a rest (h0.2 ▸ hnd.1)]
      norm_num
    · rw [if_neg h0]
      have := ih hnd.2
      linarith

theorem VVInv_init (cands : List Nat) (assign : List Nat)
    (hnd : cands.Nodup) (hmem : ∀ w ∈ assign, w = 0 ∨ w ∈ cands) :
    VVInv assign.length cands
      (VoteValues.init cands (tallyFrom [] assign) assign) := by
  have hkeys0 : ∀ x ∈ alKeys (tallyFrom ([] : List (Nat × Nat)) assign),
      x ∈ cands ∧ x ≠ 0 := by
    intro x hx
    rcases tallyFrom_keys assign [] x hx with h | h
    · simp [alKeys] at h
    · rcases hmem x h.1 with h2 | h2
      · exact absurd h2 h.2
      · exact ⟨h2, h.2⟩
  refine ⟨?_, hnd, ?_, ?_, ?_, ?_, ?_, ?_⟩
  · exact alKeys_map_pair cands _
  · intro p hp
    rcases List.mem_map.mp hp with ⟨c, _, rfl⟩
    simp
  · intro p hp
    rcases List.mem_map.mp hp with ⟨c, _, rfl⟩
    intro f hf
    rcases List.mem_map.mp hf with ⟨a, _, rfl⟩
    split <;> exact ⟨Nat.one_pos, by simp [Frac.ofNat]⟩
  · intro i hi
    unfold colQ VoteValues.init
    dsimp only
    have heq : List.map (fun p : Nat × List Frac =>
        Frac.toRat (p.2.getD i (Frac.ofNat 0)))
        (cands.map (fun c =>
          (c, assign.map (fun a =>
            if c ≠ 0 ∧ a = c then Frac.ofNat 1 else Frac.ofNat 0)))) =
        cands.map (fun c =>
          if c ≠ 0 ∧ assign.getD i 0 = c then (1 : ℚ) else 0) := by
      rw [List.map_map]
      refine List.map_congr_left ?_
      intro c _
      show Frac.toRat ((assign.map (fun a =>
          if c ≠ 0 ∧ a = c then Frac.ofNat 1 else Frac.ofNat 0)).getD i
          (Frac.ofNat 0)) = _
      rw [List.getD_eq_getElem _ _ (by simpa using hi),
        List.getElem_map, ← List.getD_eq_getElem assign 0 hi]
      by_cases hcnd : c ≠ 0 ∧ assign.getD i 0 = c
      · rw [if_pos hcnd, if_pos hcnd, toRat_ofNat]
        norm_num
      · rw [if_neg hcnd, if_neg hcnd, toRat_ofNat]
        norm_num
    rw [heq]
    exact indicator_sum_le_one (assign.getD i 0) cands hnd
  · intro k hk
    unfold VoteValues.init at hk
    dsimp only at hk
    rw [alKeys_map_val] at hk
    exact (hkeys0 k hk).1
  · intro p hp
    unfold VoteValues.init at hp
    dsimp only at hp
    rcases List.mem_map.mp hp with ⟨q, _, rfl⟩
    simp [Frac.ofNat]
  · intro c hc
    unfold VoteValues.init
    dsimp only
    rw [alGetD_map_val, alGet_map_pair _ cands c hc]
    rw [toRat_ofNat, Option.getD_some, rowQ_indicator]
    by_cases hc0 : c = 0
    · subst hc0
      rw [if_pos rfl]
      have h0 : alGet (tallyFrom ([] : List (Nat × Nat)) assign) 0 = none := by
        refine alGet_none_of_not_mem_keys _ _ ?_
        intro hmem0
        exact (hkeys0 0 hmem0).2 rfl
      unfold alGetD
      rw [h0]
      simp
    · rw [if_neg hc0]
      rw [tallyFrom_count assign [] c hc0]
      simp [alGetD, alGet, List.find?]

end Voting

namespace Voting

/-! ## Theorems: one vote transfer -/

theorem alKeys_alSet_sub {β : Type} (m : List (Nat × β)) (k : Nat) (v : β) :
    ∀ x ∈ alKeys (alSet m k v), x ∈ alKeys m ∨ x = k := by
  intro x hx
  rcases List.mem_map.mp hx with ⟨p, hp, rfl⟩
  rcases mem_alSet_sub m k v p hp with h | h
  · exact Or.inl (List.mem_map_of_mem Prod.fst h)
  · subst h
    exact Or.inr rfl

theorem cv_den_pos (N : Nat) (keys : List Nat) (vv : VoteValues)
    (hInv : VVInv N keys vv) (c : Nat) :
    0 < (alGetD vv.candValues c (Frac.ofNat 0)).den := by
  unfold alGetD
  rcases hg : alGet vv.candValues c with _ | v
  · simp [Frac.ofNat]
  · exact hInv.cvDen (c, v) (alGet_mem vv.candValues c v hg)

theorem sum_range_map_sub (N : Nat) (f g : Nat → ℚ) :
    ((List.range N).map (fun i => f i - g i)).sum =
      ((List.range N).map f).sum - ((List.range N).map g).sum := by
  induction N with
  | zero => simp
  | succ n ih =>
    rw [List.range_succ]
    simp only [List.map_append, List.sum_append, List.map_cons, List.map_nil,
      List.sum_cons, List.sum_nil]
    rw [ih]
    ring

theorem sum_range_congr (N : Nat) (f g : Nat → ℚ)
    (h : ∀ i, i < N → f i = g i) :
    ((List.range N).map f).sum = ((List.range N).map g).sum := by
  refine congrArg List.sum (List.map_congr_left ?_)
  intro i hi
  exact h i (List.mem_range.mp hi)

end Voting

namespace Voting

theorem transferVotes_eq (vv : VoteValues) (fromC toC : Nat) (amount : Frac)
    (filt : Nat → Bool) (fRow tRow : List Frac)
    (hfRow : alGet vv.values fromC = some fRow)
    (htRow : alGet vv.values toC = some tRow) :
    transferVotes vv fromC toC amount filt =
      { vv with
        values := alSet (alSet vv.values fromC
            (transferRows amount filt 0 (Frac.ofNat 0) fRow tRow).1) toC
            (transferRows amount filt 0 (Frac.ofNat 0) fRow tRow).2.1
        candValues := alSet (alSet vv.candValues fromC
            (Frac.sub (alGetD vv.candValues fromC (Frac.ofNat 0))
              (transferRows amount filt 0 (Frac.ofNat 0) fRow tRow).2.2)) toC
            (Frac.add (alGetD vv.candValues toC (Frac.ofNat 0))
              (transferRows amount filt 0 (Frac.ofNat 0) fRow tRow).2.2) } := by
  unfold transferVotes
  rw [hfRow, htRow]
  rfl

end Voting

namespace Voting

theorem transferVotes_core (N : Nat) (keys : List Nat) (vv : VoteValues)
    (fromC toC : Nat) (amount : Frac) (filt : Nat → Bool)
    (fRow tRow NF NT : List Frac) (TT : Frac)
    (hInv : VVInv N keys vv) (hfrom : fromC ∈ keys) (hto : toC ∈ keys)
    (hne : fromC ≠ toC)
    (hfRow : alGet vv.values fromC = some fRow)
    (htRow : alGet vv.values toC = some tRow)
    (h0 : 0 ≤ amount.toRat) (h1 : amount.toRat ≤ 1)
    (l1 : NF.length = fRow.length) (l2 : NT.length = tRow.length)
    (d1 : ∀ f ∈ NF, 0 < f.den) (d2 : ∀ f ∈ NT, 0 < f.den)
    (dt : 0 < TT.den)
    (c1 : ∀ j, j < N → Frac.toRat (NF.getD j (Frac.ofNat 0)) =
      if filt j = true then
        Frac.toRat (fRow.getD j (Frac.ofNat 0)) * (1 - amount.toRat)
      else Frac.toRat (fRow.getD j (Frac.ofNat 0)))
    (c2 : ∀ j, j < N → Frac.toRat (NT.getD j (Frac.ofNat 0)) =
      Frac.toRat (tRow.getD j (Frac.ofNat 0)) +
        (Frac.toRat (fRow.getD j (Frac.ofNat 0)) -
          Frac.toRat (NF.getD j (Frac.ofNat 0))))
    (ct : Frac.toRat TT = rowQ fRow - rowQ NF) :
    VVInv N keys
      { vv with
        values := alSet (alSet vv.values fromC NF) toC NT
        candValues := alSet (alSet vv.candValues fromC
            (Frac.sub (alGetD vv.candValues fromC (Frac.ofNat 0)) TT)) toC
            (Frac.add (alGetD vv.candValues toC (Frac.ofNat 0)) TT) } := by
  have hfromK : fromC ∈ alKeys vv.values := by
    rw [hInv.keysEq]
    exact hfrom
  have htoK : toC ∈ alKeys vv.values := by
    rw [hInv.keysEq]
    exact hto
  have hfMem : (fromC, fRow) ∈ vv.values := alGet_mem _ _ _ hfRow
  have htMem : (toC, tRow) ∈ vv.values := alGet_mem _ _ _ htRow
  have hfLen : fRow.length = N := hInv.rowsLen _ hfMem
  have htLen : tRow.length = N := hInv.rowsLen _ htMem
  have hfN : ∀ f ∈ fRow, 0 ≤ f.num := fun f hf => (hInv.cellsOk _ hfMem f hf).2
  have htN : ∀ f ∈ tRow, 0 ≤ f.num := fun f hf => (hInv.cellsOk _ htMem f hf).2
  have hfcell0 : ∀ j, j < N → 0 ≤ Frac.toRat (fRow.getD j (Frac.ofNat 0)) := by
    intro j hj
    have hjl : j < fRow.length := by omega
    rw [List.getD_eq_getElem _ _ hjl]
    exact toRat_nonneg _ (hfN _ (List.getElem_mem hjl))
  have htcell0 : ∀ j, j < N → 0 ≤ Frac.toRat (tRow.getD j (Frac.ofNat 0)) := by
    intro j hj
    have hjl : j < tRow.length := by omega
    rw [List.getD_eq_getElem _ _ hjl]
    exact toRat_nonneg _ (htN _ (List.getElem_mem hjl))
  have hNF0 : ∀ j, j < N → 0 ≤ Frac.toRat (NF.getD j (Frac.ofNat 0)) := by
    intro j hj
    rw [c1 j hj]
    split
    · exact mul_nonneg (hfcell0 j hj) (by linarith)
    · exact hfcell0 j hj
  have hNFle : ∀ j, j < N →
      Frac.toRat (NF.getD j (Frac.ofNat 0)) ≤
        Frac.toRat (fRow.getD j (Frac.ofNat 0)) := by
    intro j hj
    rw [c1 j hj]
    split
    · have := hfcell0 j hj
      nlinarith
    · exact le_refl _
  have hNT0 : ∀ j, j < N → 0 ≤ Frac.toRat (NT.getD j (Frac.ofNat 0)) := by
    intro j hj
    rw [c2 j hj]
    have := htcell0 j hj
    have := hNFle j hj
    linarith
  have hNTeq : rowQ NT = rowQ tRow + (rowQ fRow - rowQ NF) := by
    have e1 : rowQ NT = ((List.range N).map
        (fun j => Frac.toRat (NT.getD j (Frac.ofNat 0)))).sum := by
      rw [← sum_range_getD NT, l2, htLen]
    have e2 : ((List.range N).map
        (fun j => Frac.toRat (NT.getD j (Frac.ofNat 0)))).sum =
        ((List.range N).map (fun j =>
          Frac.toRat (tRow.getD j (Frac.ofNat 0)) +
            (Frac.toRat (fRow.getD j (Frac.ofNat 0)) -
              Frac.toRat (NF.getD j (Frac.ofNat 0))))).sum :=
      sum_range_congr N _ _ (fun j hj => c2 j hj)
    rw [e1, e2, sum_range_map_add, sum_range_map_sub]
    have e3 : ((List.range N).map
        (fun j => Frac.toRat (tRow.getD j (Frac.ofNat 0)))).sum = rowQ tRow := by
      rw [← sum_range_getD tRow, htLen]
    have e4 : ((List.range N).map
        (fun j => Frac.toRat (fRow.getD j (Frac.ofNat 0)))).sum = rowQ fRow := by
      rw [← sum_range_getD fRow, hfLen]
    have e5 : ((List.range N).map
        (fun j => Frac.toRat (NF.getD j (Frac.ofNat 0)))).sum = rowQ NF := by
      rw [← sum_range_getD NF, l1, hfLen]
    rw [e3, e4, e5]
  have hstep1 : alKeys (alSet vv.values fromC NF) = alKeys vv.values :=
    alKeys_alSet_of_mem _ _ _ hfromK
  have htoK' : toC ∈ alKeys (alSet vv.values fromC NF) := by
    rw [hstep1]
    exact htoK
  obtain ⟨pre1, post1, old1, hm1, hset1, hget1⟩ := alSet_split vv.values fromC hfromK
  have hold1 : old1 = fRow := by
    have := hget1.symm.trans hfRow
    exact Option.some_injective _ this
  subst hold1
  obtain ⟨pre2, post2, old2, hm2, hset2, hget2⟩ :=
    alSet_split (alSet vv.values fromC NF) toC htoK'
  have hold2 : old2 = tRow := by
    have hX : alGet (alSet vv.values fromC NF) toC = alGet vv.values toC :=
      alGet_alSet_ne _ _ _ _ (Ne.symm hne)
    have := hget2.symm.trans (hX.trans htRow)
    exact Option.some_injective _ this
  subst hold2
  have hcolpres : ∀ i, i < N →
      colQ (alSet (alSet vv.values fromC NF) toC NT) i = colQ vv.values i := by
    intro i hi
    rw [colQ_alSet _ _ _ _ _ _ hm2 (hset2 NT) i,
      colQ_alSet _ _ _ _ _ _ hm1 (hset1 NF) i]
    have := c2 i hi
    linarith
  refine ⟨?_, hInv.keysNodup, ?_, ?_, ?_, ?_, ?_, ?_⟩
  · show alKeys (alSet (alSet vv.values fromC NF) toC NT) = keys
    rw [alKeys_alSet_of_mem _ _ _ htoK', hstep1, hInv.keysEq]
  · intro p hp
    rcases mem_alSet_sub _ _ _ p hp with hp1 | rfl
    · rcases mem_alSet_sub _ _ _ p hp1 with hp2 | rfl
      · exact hInv.rowsLen p hp2
      · show NF.length = N
        exact l1.trans hfLen
    · show NT.length = N
      exact l2.trans htLen
  · intro p hp
    rcases mem_alSet_sub _ _ _ p hp with hp1 | rfl
    · rcases mem_alSet_sub _ _ _ p hp1 with hp2 | rfl
      · exact hInv.cellsOk p hp2
      · intro f hf
        have hf' : f ∈ NF := hf
        obtain ⟨j, hj, rfl⟩ := List.mem_iff_getElem.mp hf'
        refine ⟨d1 _ hf', ?_⟩
        refine toRat_num_nonneg _ (d1 _ hf') ?_
        have hjN : j < N := by
          have := l1.trans hfLen
          omega
        have := hNF0 j hjN
        rwa [List.getD_eq_getElem NF (Frac.ofNat 0) hj] at this
    · intro f hf
      have hf' : f ∈ NT := hf
      obtain ⟨j, hj, rfl⟩ := List.mem_iff_getElem.mp hf'
      refine ⟨d2 _ hf', ?_⟩
      refine toRat_num_nonneg _ (d2 _ hf') ?_
      have hjN : j < N := by
        have := l2.trans htLen
        omega
      have := hNT0 j hjN
      rwa [List.getD_eq_getElem NT (Frac.ofNat 0) hj] at this
  · intro i hi
    rw [hcolpres i hi]
    exact hInv.colLe i hi
  · intro k hk
    rcases alKeys_alSet_sub _ _ _ k hk with hk1 | rfl
    · rcases alKeys_alSet_sub _ _ _ k hk1 with hk2 | rfl
      · exact hInv.cvKeys k hk2
      · exact hfrom
    · exact hto
  · intro p hp
    rcases mem_alSet_sub _ _ _ p hp with hp1 | rfl
    · rcases mem_alSet_sub _ _ _ p hp1 with hp2 | rfl
      · exact hInv.cvDen p hp2
      · show 0 < (Frac.sub (alGetD vv.candValues fromC (Frac.ofNat 0)) TT).den
        unfold Frac.sub
        exact Nat.mul_pos (cv_den_pos N keys vv hInv fromC) dt
    · show 0 < (Frac.add (alGetD vv.candValues toC (Frac.ofNat 0)) TT).den
      unfold Frac.add
      exact Nat.mul_pos (cv_den_pos N keys vv hInv toC) dt
  · intro c hc
    by_cases hcto : c = toC
    · subst hcto
      show Frac.toRat (alGetD (alSet (alSet vv.candValues fromC _) c
          (Frac.add (alGetD vv.candValues c (Frac.ofNat 0)) TT)) c (Frac.ofNat 0)) = _
      rw [alGetD_alSet_self]
      rw [toRat_add _ _ (cv_den_pos N keys vv hInv c) dt]
      have hTo : Frac.toRat (alGetD vv.candValues c (Frac.ofNat 0)) = rowQ old2 := by
        have := hInv.cvEq c hc
        rwa [htRow, Option.getD_some] at this
      have hget : alGet (alSet (alSet vv.values fromC NF) c NT) c = some NT :=
        alGet_alSet_self _ _ _
      rw [hget, Option.getD_some, hTo, ct, hNTeq]
    · by_cases hcfrom : c = fromC
      · subst hcfrom
        show Frac.toRat (alGetD (alSet (alSet vv.candValues c
            (Frac.sub (alGetD vv.candValues c (Frac.ofNat 0)) TT)) toC _) c
            (Frac.ofNat 0)) = _
        rw [alGetD_alSet_other _ _ _ _ _ hcto, alGetD_alSet_self]
        rw [toRat_sub _ _ (cv_den_pos N keys vv hInv c) dt]
        have hFrom : Frac.toRat (alGetD vv.candValues c (Frac.ofNat 0)) =
            rowQ old1 := by
          have := hInv.cvEq c hc
          rwa [hfRow, Option.getD_some] at this
        have hget : alGet (alSet (alSet vv.values c NF) toC NT) c = some NF := by
          rw [alGet_alSet_ne _ _ _ _ hcto, alGet_alSet_self]
        rw [hget, Option.getD_some, hFrom, ct]
        ring
      · show Frac.toRat (alGetD (alSet (alSet vv.candValues fromC _) toC _) c
            (Frac.ofNat 0)) = _
        rw [alGetD_alSet_other _ _ _ _ _ hcto, alGetD_alSet_other _ _ _ _ _ hcfrom]
        have hget : alGet (alSet (alSet vv.values fromC NF) toC NT) c =
            alGet vv.values c := by
          rw [alGet_alSet_ne _ _ _ _ hcto, alGet_alSet_ne _ _ _ _ hcfrom]
        rw [hget]
        exact hInv.cvEq c hc

end Voting

namespace Voting

theorem transferVotes_spec (N : Nat) (keys : List Nat) (vv : VoteValues)
    (fromC toC : Nat) (amount : Frac) (filt : Nat → Bool)
    (hInv : VVInv N keys vv) (hfrom : fromC ∈ keys) (hto : toC ∈ keys)
    (hne : fromC ≠ toC) (hden : 0 < amount.den)
    (h0 : 0 ≤ amount.toRat) (h1 : amount.toRat ≤ 1) :
    VVInv N keys (transferVotes vv fromC toC amount filt) ∧
    (∀ c, c ≠ fromC → c ≠ toC →
      alGetD (transferVotes vv fromC toC amount filt).candValues c
          (Frac.ofNat 0) = alGetD vv.candValues c (Frac.ofNat 0)) ∧
    (∀ j, j < N →
      Frac.toRat (((alGet (transferVotes vv fromC toC amount filt).values
          fromC).getD []).getD j (Frac.ofNat 0)) =
        if filt j = true then
          Frac.toRat (((alGet vv.values fromC).getD []).getD j (Frac.ofNat 0)) *
            (1 - amount.toRat)
        else
          Frac.toRat (((alGet vv.values fromC).getD []).getD j (Frac.ofNat 0))) ∧
    (∀ c, c ≠ fromC → c ≠ toC →
      alGet (transferVotes vv fromC toC amount filt).values c =
        alGet vv.values c) := by
  have hfromK : fromC ∈ alKeys vv.values := by
    rw [hInv.keysEq]
    exact hfrom
  have htoK : toC ∈ alKeys vv.values := by
    rw [hInv.keysEq]
    exact hto
  obtain ⟨fRow, hfRow⟩ := alGet_of_mem_keys vv.values fromC hfromK
  obtain ⟨tRow, htRow⟩ := alGet_of_mem_keys vv.values toC htoK
  have hfMem : (fromC, fRow) ∈ vv.values := alGet_mem _ _ _ hfRow
  have htMem : (toC, tRow) ∈ vv.values := alGet_mem _ _ _ htRow
  have hfLen : fRow.length = N := hInv.rowsLen _ hfMem
  have htLen : tRow.length = N := hInv.rowsLen _ htMem
  obtain ⟨l1, l2, d1, d2, dt, c1, c2, ct⟩ :=
    transferRows_spec amount filt hden fRow tRow 0 (Frac.ofNat 0)
      (by omega) (by simp [Frac.ofNat])
      (fun f hf => (hInv.cellsOk _ hfMem f hf).1)
      (fun f hf => (hInv.cellsOk _ htMem f hf).1)
  have c1' : ∀ j, j < N →
      Frac.toRat ((transferRows amount filt 0 (Frac.ofNat 0) fRow tRow).1.getD j
        (Frac.ofNat 0)) =
        if filt j = true then
          Frac.toRat (fRow.getD j (Frac.ofNat 0)) * (1 - amount.toRat)
        else Frac.toRat (fRow.getD j (Frac.ofNat 0)) := by
    intro j hj
    have h := c1 j (by omega)
    rwa [Nat.zero_add] at h
  have c2' : ∀ j, j < N →
      Frac.toRat ((transferRows amount filt 0 (Frac.ofNat 0) fRow tRow).2.1.getD j
        (Frac.ofNat 0)) =
        Frac.toRat (tRow.getD j (Frac.ofNat 0)) +
          (Frac.toRat (fRow.getD j (Frac.ofNat 0)) -
            Frac.toRat ((transferRows amount filt 0 (Frac.ofNat 0)
              fRow tRow).1.getD j (Frac.ofNat 0))) :=
    fun j hj => c2 j (by omega)
  have ct' : Frac.toRat (transferRows amount filt 0 (Frac.ofNat 0) fRow tRow).2.2 =
      rowQ fRow - rowQ (transferRows amount filt 0 (Frac.ofNat 0) fRow tRow).1 := by
    have h := ct
    simp only [toRat_ofNat, Nat.cast_zero, zero_add] at h
    exact h
  have hEq := transferVotes_eq vv fromC toC amount filt fRow tRow hfRow htRow
  refine ⟨?_, ?_, ?_, ?_⟩
  · rw [hEq]
    exact transferVotes_core N keys vv fromC toC amount filt fRow tRow _ _ _
      hInv hfrom hto hne hfRow htRow h0 h1 l1 l2 d1 d2 dt c1' c2' ct'
  · intro c hcf hct
    rw [hEq]
    dsimp only
    rw [alGetD_alSet_other _ _ _ _ _ hct, alGetD_alSet_other _ _ _ _ _ hcf]
  · intro j hj
    rw [hEq]
    dsimp only
    rw [alGet_alSet_ne _ _ _ _ hne, alGet_alSet_self, hfRow]
    simp only [Option.getD_some]
    exact c1' j hj
  · intro c hcf hct
    rw [hEq]
    dsimp only
    rw [alGet_alSet_ne _ _ _ _ hct, alGet_alSet_ne _ _ _ _ hcf]

end Voting

namespace Voting

theorem transferFold_spec (N : Nat) (keys : List Nat) (src : Nat) (p : Frac)
    (vals : List Nat) (hpd : 0 < p.den) (hp0 : 0 ≤ p.toRat) (hp1 : p.toRat ≤ 1)
    (hsrc : src ∈ keys) :
    ∀ (ocs : List Nat) (vv : VoteValues),
      VVInv N keys vv → (∀ oc ∈ ocs, oc ∈ keys ∧ oc ≠ src) → ocs.Nodup →
      VVInv N keys (ocs.foldl (fun vv oc =>
        transferVotes vv src oc p (fun i => vals.getD i 0 == oc)) vv) ∧
      (∀ c, c ≠ src → c ∉ ocs →
        alGetD (ocs.foldl (fun vv oc =>
          transferVotes vv src oc p (fun i => vals.getD i 0 == oc)) vv).candValues
            c (Frac.ofNat 0) =
          alGetD vv.candValues c (Frac.ofNat 0)) ∧
      (∀ j, j < N →
        (vals.getD j 0 ∉ ocs →
          Frac.toRat (((alGet (ocs.foldl (fun vv oc =>
            transferVotes vv src oc p (fun i => vals.getD i 0 == oc)) vv).values
              src).getD []).getD j (Frac.ofNat 0)) =
            Frac.toRat (((alGet vv.values src).getD []).getD j (Frac.ofNat 0))) ∧
        (Frac.toRat (((alGet (ocs.foldl (fun vv oc =>
            transferVotes vv src oc p (fun i => vals.getD i 0 == oc)) vv).values
              src).getD []).getD j (Frac.ofNat 0)) =
            Frac.toRat (((alGet vv.values src).getD []).getD j (Frac.ofNat 0)) ∨
          Frac.toRat (((alGet (ocs.foldl (fun vv oc =>
            transferVotes vv src oc p (fun i => vals.getD i 0 == oc)) vv).values
              src).getD []).getD j (Frac.ofNat 0)) =
            Frac.toRat (((alGet vv.values src).getD []).getD j (Frac.ofNat 0)) *
              (1 - p.toRat))) := by
  intro ocs
  induction ocs with
  | nil =>
    intro vv hInv _ _
    refine ⟨hInv, fun c _ _ => rfl, fun j _ => ⟨fun _ => rfl, Or.inl rfl⟩⟩
  | cons oc rest ih =>
    intro vv hInv hocs hnd
    rw [List.nodup_cons] at hnd
    have hoc := hocs oc (List.mem_cons_self oc rest)
    obtain ⟨hstep, hcvo, hrow, _⟩ :=
      transferVotes_spec N keys vv src oc p (fun i => vals.getD i 0 == oc)
        hInv hsrc hoc.1 (Ne.symm hoc.2) hpd hp0 hp1
    obtain ⟨ihInv, ihcv, ihrow⟩ :=
      ih (transferVotes vv src oc p (fun i => vals.getD i 0 == oc)) hstep
        (fun o ho => hocs o (List.mem_cons_of_mem oc ho)) hnd.2
    rw [List.foldl_cons]
    refine ⟨ihInv, ?_, ?_⟩
    · intro c hcs hcm
      rw [ihcv c hcs (fun h => hcm (List.mem_cons_of_mem oc h))]
      exact hcvo c hcs (fun h => hcm (h ▸ List.mem_cons_self oc rest))
    · intro j hj
      have hstepj := hrow j hj
      obtain ⟨ihuj, ihdj⟩ := ihrow j hj
      by_cases hvj : vals.getD j 0 = oc
      · have hfire : (vals.getD j 0 == oc) = true := by
          simpa using hvj
        simp only [hfire, eq_self_iff_true, if_true] at hstepj
        have hnorest : vals.getD j 0 ∉ rest := by
          rw [hvj]
          exact hnd.1
        have hkeep := ihuj hnorest
        constructor
        · intro hnotin
          exact absurd (hvj ▸ List.mem_cons_self oc rest) hnotin
        · right
          rw [hkeep, hstepj]
      · have hnofire : (vals.getD j 0 == oc) = false := by
          simpa using hvj
        simp only [hnofire, Bool.false_eq_true, if_false] at hstepj
        constructor
        · intro hnotin
          have hnorest : vals.getD j 0 ∉ rest :=
            fun h => hnotin (List.mem_cons_of_mem oc h)
          rw [ihuj hnorest, hstepj]
        · rcases ihdj with h | h
          · left
            rw [h, hstepj]
          · right
            rw [h, hstepj]

end Voting

namespace Voting

theorem sum_range_le_sum_range (N : Nat) (f g : Nat → ℚ)
    (h : ∀ i, i < N → f i ≤ g i) :
    ((List.range N).map f).sum ≤ ((List.range N).map g).sum := by
  induction N with
  | zero => simp
  | succ n ih =>
    rw [List.range_succ]
    simp only [List.map_append, List.sum_append, List.map_cons, List.map_nil,
      List.sum_cons, List.sum_nil]
    have h1 := ih (fun i hi => h i (by omega))
    have h2 := h n (by omega)
    linarith

theorem sum_range_mul_const (N : Nat) (f : Nat → ℚ) (a : ℚ) :
    ((List.range N).map (fun i => f i * a)).sum = ((List.range N).map f).sum * a := by
  induction N with
  | zero => simp
  | succ n ih =>
    rw [List.range_succ]
    simp only [List.map_append, List.sum_append, List.map_cons, List.map_nil,
      List.sum_cons, List.sum_nil]
    rw [ih]
    ring

theorem transferSurplus_spec (N : Nat) (keys : List Nat) (b : VoteBuffer)
    (quota : Frac) (remaining : List Nat) (vv : VoteValues) (ec : Nat)
    (hInv : VVInv N keys vv) (hec : ec ∈ keys) (hecr : ec ∉ remaining)
    (hrem : ∀ c ∈ remaining, c ∈ keys)
    (hqd : 0 < quota.den) (hq0 : 0 ≤ quota.toRat)
    (hval : quota.toRat <
      Frac.toRat (alGetD vv.candValues ec (Frac.ofNat 0))) :
    VVInv N keys (transferSurplus b quota remaining vv ec) ∧
    (∀ c, c ≠ ec → c ∉ remaining →
      alGetD (transferSurplus b quota remaining vv ec).candValues c
          (Frac.ofNat 0) = alGetD vv.candValues c (Frac.ofNat 0)) ∧
    quota.toRat ≤ Frac.toRat
      (alGetD (transferSurplus b quota remaining vv ec).candValues ec
        (Frac.ofNat 0)) := by
  have hTden : 0 < (alGetD vv.candValues ec (Frac.ofNat 0)).den :=
    cv_den_pos N keys vv hInv ec
  have hTpos : 0 < Frac.toRat (alGetD vv.candValues ec (Frac.ofNat 0)) :=
    lt_of_le_of_lt hq0 hval
  have hTnum : 0 < (alGetD vv.candValues ec (Frac.ofNat 0)).num :=
    toRat_num_pos _ hTden hTpos
  have hpvden : 0 < (Frac.div
      (Frac.sub (alGetD vv.candValues ec (Frac.ofNat 0)) quota)
      (alGetD vv.candValues ec (Frac.ofNat 0))).den := by
    unfold Frac.div
    rw [if_neg (by omega)]
    show 0 < (Frac.sub (alGetD vv.candValues ec (Frac.ofNat 0)) quota).den *
      (alGetD vv.candValues ec (Frac.ofNat 0)).num.toNat
    refine Nat.mul_pos ?_ (by omega)
    unfold Frac.sub
    exact Nat.mul_pos hTden hqd
  have hpvval : (Frac.div
      (Frac.sub (alGetD vv.candValues ec (Frac.ofNat 0)) quota)
      (alGetD vv.candValues ec (Frac.ofNat 0))).toRat =
      (Frac.toRat (alGetD vv.candValues ec (Frac.ofNat 0)) - quota.toRat) /
        Frac.toRat (alGetD vv.candValues ec (Frac.ofNat 0)) := by
    rw [toRat_div _ _ hTnum, toRat_sub _ _ hTden hqd]
  have hp0 : 0 ≤ (Frac.div
      (Frac.sub (alGetD vv.candValues ec (Frac.ofNat 0)) quota)
      (alGetD vv.candValues ec (Frac.ofNat 0))).toRat := by
    rw [hpvval]
    exact div_nonneg (by linarith) (le_of_lt hTpos)
  have hp1 : (Frac.div
      (Frac.sub (alGetD vv.candValues ec (Frac.ofNat 0)) quota)
      (alGetD vv.candValues ec (Frac.ofNat 0))).toRat ≤ 1 := by
    rw [hpvval, div_le_one hTpos]
    linarith
  obtain ⟨ws, hscan, hwlen, hwmem⟩ := scanNext_eq b remaining ec
  have hknd : (alKeys (tallyFrom [] ws)).Nodup :=
    tallyFrom_nodup ws [] (by simp [KeysNodup, alKeys])
  have hksub : ∀ oc ∈ alKeys (tallyFrom [] ws), oc ∈ remaining := by
    intro oc hoc
    rcases tallyFrom_keys ws [] oc hoc with h | h
    · simp [alKeys] at h
    · rcases hwmem oc h.1 with h2 | h2
      · exact absurd h2 h.2
      · exact h2
  have hocs : ∀ oc ∈ alKeys (tallyFrom [] ws), oc ∈ keys ∧ oc ≠ ec := by
    intro oc hoc
    have h2 := hksub oc hoc
    exact ⟨hrem oc h2, fun h => hecr (h ▸ h2)⟩
  have hTS : transferSurplus b quota remaining vv ec =
      (alKeys (tallyFrom [] ws)).foldl (fun acc oc =>
        transferVotes acc ec oc
          (Frac.div (Frac.sub (alGetD vv.candValues ec (Frac.ofNat 0)) quota)
            (alGetD vv.candValues ec (Frac.ofNat 0)))
          (fun i => ws.getD i 0 == oc)) vv := by
    unfold transferSurplus
    rw [hscan]
  obtain ⟨fInv, fcv, frow⟩ := transferFold_spec N keys ec
    (Frac.div (Frac.sub (alGetD vv.candValues ec (Frac.ofNat 0)) quota)
      (alGetD vv.candValues ec (Frac.ofNat 0))) ws hpvden hp0 hp1 hec
    (alKeys (tallyFrom [] ws)) vv hInv hocs hknd
  refine ⟨?_, ?_, ?_⟩
  · rw [hTS]
    exact fInv
  · intro c hce hcr
    rw [hTS]
    exact fcv c hce (fun h => hcr (hksub c h))
  · rw [hTS]
    have hecK : ec ∈ alKeys vv.values := by
      rw [hInv.keysEq]
      exact hec
    obtain ⟨R0, hR0⟩ := alGet_of_mem_keys vv.values ec hecK
    have hR0mem : (ec, R0) ∈ vv.values := alGet_mem _ _ _ hR0
    have hR0len : R0.length = N := hInv.rowsLen _ hR0mem
    have hecKF : ec ∈ alKeys ((alKeys (tallyFrom [] ws)).foldl (fun acc oc =>
        transferVotes acc ec oc
          (Frac.div (Frac.sub (alGetD vv.candValues ec (Frac.ofNat 0)) quota)
            (alGetD vv.candValues ec (Frac.ofNat 0)))
          (fun i => ws.getD i 0 == oc)) vv).values := by
      rw [fInv.keysEq]
      exact hec
    obtain ⟨RF, hRF⟩ := alGet_of_mem_keys _ ec hecKF
    have hRFmem := alGet_mem _ _ _ hRF
    have hRFlen : RF.length = N := fInv.rowsLen _ hRFmem
    have hcvF := fInv.cvEq ec hec
    rw [hRF, Option.getD_some] at hcvF
    have hcv0 := hInv.cvEq ec hec
    rw [hR0, Option.getD_some] at hcv0
    rw [hcvF]
    have hptwise : ∀ j, j < N →
        Frac.toRat (R0.getD j (Frac.ofNat 0)) *
          (1 - (Frac.div (Frac.sub (alGetD vv.candValues ec (Frac.ofNat 0)) quota)
            (alGetD vv.candValues ec (Frac.ofNat 0))).toRat) ≤
          Frac.toRat (RF.getD j (Frac.ofNat 0)) := by
      intro j hj
      have h := (frow j hj).2
      rw [hRF, hR0, Option.getD_some, Option.getD_some] at h
      have hc0 : 0 ≤ Frac.toRat (R0.getD j (Frac.ofNat 0)) := by
        have hjl : j < R0.length := by omega
        rw [List.getD_eq_getElem _ _ hjl]
        exact toRat_nonneg _ ((hInv.cellsOk _ hR0mem _ (List.getElem_mem hjl)).2)
      rcases h with h | h
      · rw [h]
        nlinarith
      · rw [h]
    have hsum : rowQ R0 *
        (1 - (Frac.div (Frac.sub (alGetD vv.candValues ec (Frac.ofNat 0)) quota)
          (alGetD vv.candValues ec (Frac.ofNat 0))).toRat) ≤ rowQ RF := by
      have e1 : rowQ RF = ((List.range N).map
          (fun j => Frac.toRat (RF.getD j (Frac.ofNat 0)))).sum := by
        rw [← sum_range_getD RF, hRFlen]
      have e2 : rowQ R0 = ((List.range N).map
          (fun j => Frac.toRat (R0.getD j (Frac.ofNat 0)))).sum := by
        rw [← sum_range_getD R0, hR0len]
      rw [e1, e2, ← sum_range_mul_const]
      exact sum_range_le_sum_range N _ _ hptwise
    rw [← hcv0] at hsum
    rw [hpvval] at hsum
    have hfin : (1 - (Frac.toRat (alGetD vv.candValues ec (Frac.ofNat 0)) -
        quota.toRat) / Frac.toRat (alGetD vv.candValues ec (Frac.ofNat 0))) *
        Frac.toRat (alGetD vv.candValues ec (Frac.ofNat 0)) = quota.toRat := by
      field_simp
    nlinarith [hsum, hfin]

theorem transferElim_spec (N : Nat) (keys : List Nat) (b : VoteBuffer)
    (remaining : List Nat) (vv : VoteValues) (cand : Nat)
    (hInv : VVInv N keys vv) (hcand : cand ∈ keys) (hcr : cand ∉ remaining)
    (hrem : ∀ c ∈ remaining, c ∈ keys) :
    VVInv N keys (transferElim b remaining vv cand) ∧
    (∀ c, c ≠ cand → c ∉ remaining →
      alGetD (transferElim b remaining vv cand).candValues c (Frac.ofNat 0) =
        alGetD vv.candValues c (Frac.ofNat 0)) := by
  obtain ⟨ws, hscan, hwlen, hwmem⟩ := scanNext_eq b remaining cand
  have hknd : (alKeys (tallyFrom [] ws)).Nodup :=
    tallyFrom_nodup ws [] (by simp [KeysNodup, alKeys])
  have hksub : ∀ oc ∈ alKeys (tallyFrom [] ws), oc ∈ remaining := by
    intro oc hoc
    rcases tallyFrom_keys ws [] oc hoc with h | h
    · simp [alKeys] at h
    · rcases hwmem oc h.1 with h2 | h2
      · exact absurd h2 h.2
      · exact h2
  have hocs : ∀ oc ∈ alKeys (tallyFrom [] ws), oc ∈ keys ∧ oc ≠ cand := by
    intro oc hoc
    have h2 := hksub oc hoc
    exact ⟨hrem oc h2, fun h => hcr (h ▸ h2)⟩
  have hTE : transferElim b remaining vv cand =
      (alKeys (tallyFrom [] ws)).foldl (fun vv oc =>
        transferVotes vv cand oc (Frac.ofNat 1)
          (fun i => ws.getD i 0 == oc)) vv := by
    unfold transferElim
    rw [hscan]
  obtain ⟨fInv, fcv, _⟩ := transferFold_spec N keys cand (Frac.ofNat 1) ws
    (by simp [Frac.ofNat]) (by rw [toRat_ofNat]; norm_num)
    (by rw [toRat_ofNat]; norm_num) hcand
    (alKeys (tallyFrom [] ws)) vv hInv hocs hknd
  refine ⟨?_, ?_⟩
  · rw [hTE]
    exact fInv
  · intro c hce hcr2
    rw [hTE]
    exact fcv c hce (fun h => hcr2 (hksub c h))

end Voting

namespace Voting

/-! ## Theorems: choosing a candidate to eliminate -/

theorem findFewest_fold_some {α : Type} (lt : α → α → Bool) (zero : α)
    (vc : List (Nat × α)) :
    ∀ (l : List Nat) (s : α),
      ∃ s', l.foldl (fun s c =>
        let v := alGetD vc c zero
        match s with
        | none => some v
        | some sv => if lt v sv then some v else some sv) (some s) = some s' ∧
        (s' = s ∨ ∃ c ∈ l, alGetD vc c zero = s') := by
  intro l
  induction l with
  | nil => intro s; exact ⟨s, rfl, Or.inl rfl⟩
  | cons c cs ih =>
    intro s
    rw [List.foldl_cons]
    dsimp only
    by_cases hlt : lt (alGetD vc c zero) s = true
    · rw [if_pos hlt]
      obtain ⟨s', hfold, hs'⟩ := ih (alGetD vc c zero)
      refine ⟨s', hfold, ?_⟩
      rcases hs' with rfl | ⟨c', hc', he⟩
      · exact Or.inr ⟨c, List.mem_cons_self c cs, rfl⟩
      · exact Or.inr ⟨c', List.mem_cons_of_mem c hc', he⟩
    · rw [if_neg hlt]
      obtain ⟨s', hfold, hs'⟩ := ih s
      refine ⟨s', hfold, ?_⟩
      rcases hs' with rfl | ⟨c', hc', he⟩
      · exact Or.inl rfl
      · exact Or.inr ⟨c', List.mem_cons_of_mem c hc', he⟩

theorem findFewest_spec {α : Type} (lt le : α → α → Bool) (zero : α)
    (hrefl : ∀ a, le a a = true) (cands : List Nat) (vc : List (Nat × α)) :
    (∀ x ∈ findFewest lt le zero cands vc, x ∈ cands) ∧
    (cands ≠ [] → findFewest lt le zero cands vc ≠ []) := by
  constructor
  · intro x hx
    unfold findFewest at hx
    simp only [] at hx
    split at hx
    · cases hx
    · exact (List.mem_filter.mp hx).1
  · intro hne
    rcases cands with _ | ⟨c0, cs⟩
    · exact absurd rfl hne
    unfold findFewest
    simp only [List.foldl_cons]
    obtain ⟨s', hfold, hs'⟩ := findFewest_fold_some lt zero vc cs (alGetD vc c0 zero)
    rw [hfold]
    have hex : ∃ ca ∈ c0 :: cs, alGetD vc ca zero = s' := by
      rcases hs' with rfl | ⟨c', hc', he⟩
      · exact ⟨c0, List.mem_cons_self _ _, rfl⟩
      · exact ⟨c', List.mem_cons_of_mem _ hc', he⟩
    obtain ⟨ca, hca, hva⟩ := hex
    intro hempty
    dsimp only at hempty
    have hmem : ca ∈ (c0 :: cs).filter (fun c => le (alGetD vc c zero) s') := by
      rw [List.mem_filter]
      exact ⟨hca, by rw [hva]; exact hrefl s'⟩
    rw [hempty] at hmem
    cases hmem

theorem ble_refl (a : Frac) : Frac.ble a a = true := by
  unfold Frac.ble
  simp

theorem fewestFrac_spec (cands : List Nat) (vc : List (Nat × Frac)) :
    (∀ x ∈ fewestFrac cands vc, x ∈ cands) ∧
    (cands ≠ [] → fewestFrac cands vc ≠ []) := by
  unfold fewestFrac
  exact findFewest_spec Frac.blt Frac.ble (Frac.ofNat 0) ble_refl cands vc

theorem fewestNat_spec (cands : List Nat) (vc : List (Nat × Nat)) :
    (∀ x ∈ fewestNat cands vc, x ∈ cands) ∧
    (cands ≠ [] → fewestNat cands vc ≠ []) := by
  unfold fewestNat
  exact findFewest_spec _ _ 0 (fun a => by simp) cands vc

theorem mem_getLastD : ∀ (l : List Nat) (d : Nat), l ≠ [] → l.getLastD d ∈ l := by
  intro l
  induction l with
  | nil => intro d h; exact absurd rfl h
  | cons a l ih =>
    intro d _
    rcases hl : l with _ | ⟨b, l'⟩
    · simp
    · rw [← hl]
      have h2 : (a :: l).getLastD d = l.getLastD a := by
        rw [List.getLastD_cons]
      rw [h2]
      have h3 : l ≠ [] := by rw [hl]; exact List.cons_ne_nil b l'
      exact List.mem_cons_of_mem a (ih a h3)

theorem mem_getD_zero (l : List Nat) (d : Nat) (h : l ≠ []) : l.getD 0 d ∈ l := by
  rcases l with _ | ⟨a, l⟩
  · exact absurd rfl h
  · simp

theorem sortByTieBreaker_ok_perm (cands tbl : List Nat) (l : List Nat)
    (h : sortByTieBreaker cands tbl = .ok l) : l.Perm cands := by
  unfold sortByTieBreaker at h
  simp only [] at h
  split at h
  · obtain rfl : sortByLe (fun a b => tbl.indexOf a ≤ tbl.indexOf b) cands = l := by
      simpa using h
    exact sortByLe_perm _ cands
  · cases h

theorem elimFewestLoop_spec (b : VoteBuffer) (origCands remaining : List Nat) :
    ∀ (fuel n : Nat) (cwf : List Nat),
      (∀ x ∈ cwf, x ∈ remaining) → cwf ≠ [] → remaining ≠ [] →
      ∀ out, elimFewestLoop b origCands remaining fuel n cwf = some out →
        (∀ x ∈ out, x ∈ remaining) ∧ out ≠ [] := by
  intro fuel
  induction fuel with
  | zero =>
    intro n cwf _ _ _ out h
    cases h
  | succ fuel ih =>
    intro n cwf hsub hne hrne out h
    unfold elimFewestLoop at h
    split at h
    · obtain rfl : cwf = out := by simpa using h
      exact ⟨hsub, hne⟩
    · simp only [] at h
      split at h
      · obtain rfl : cwf = out := by simpa using h
        exact ⟨hsub, hne⟩
      · exact ih (n + 1) _ (fewestNat_spec remaining _).1
          ((fewestNat_spec remaining _).2 hrne) hrne out h

theorem findElim_mem (b : VoteBuffer) (origCands remaining : List Nat)
    (vv : VoteValues) (tb : Option (List Nat)) (cand : Nat)
    (hrne : remaining ≠ [])
    (h : findCandidateToEliminate b origCands remaining vv tb = .inl cand) :
    cand ∈ remaining := by
  unfold findCandidateToEliminate at h
  rcases hloop : elimFewestLoop b origCands remaining (elimFuel b) 0
      (fewestFrac remaining vv.candValues) with _ | cwf
  · rw [hloop] at h
    cases h
  · rw [hloop] at h
    obtain ⟨hcsub, hcne⟩ := elimFewestLoop_spec b origCands remaining
      (elimFuel b) 0 (fewestFrac remaining vv.candValues)
      (fewestFrac_spec remaining vv.candValues).1
      ((fewestFrac_spec remaining vv.candValues).2 hrne) hrne cwf hloop
    dsimp only at h
    split at h
    · rcases tb with _ | tbl
      · cases h
      · dsimp only at h
        rcases hsort : sortByTieBreaker cwf tbl with missing | sorted
        · rw [hsort] at h
          cases h
        · rw [hsort] at h
          obtain rfl : sorted.getLastD 0 = cand := by simpa using h
          have hperm := sortByTieBreaker_ok_perm cwf tbl sorted hsort
          have hsne : sorted ≠ [] := by
            intro h0
            rw [h0] at hperm
            exact hcne hperm.nil_eq.symm
          exact hcsub _ (hperm.mem_iff.mp (mem_getLastD sorted 0 hsne))
    · obtain rfl : cwf.getD 0 0 = cand := by simpa using h
      exact hcsub _ (mem_getD_zero cwf 0 hcne)

end Voting

namespace Voting

/-! ## Theorems: quota election never overflows -/

theorem filterMap_keyed {β : Type} (f : Nat → Option (Nat × β))
    (hf : ∀ c p, f c = some p → p.1 = c) :
    ∀ (l : List Nat), (∀ x ∈ (l.filterMap f).map Prod.fst, x ∈ l) ∧
      (l.Nodup → ((l.filterMap f).map Prod.fst).Nodup) := by
  intro l
  induction l with
  | nil => exact ⟨fun x hx => by simpa using hx, fun _ => by simp⟩
  | cons a rest ih =>
    rcases hfa : f a with _ | p
    · rw [List.filterMap_cons, hfa]
      refine ⟨fun x hx => List.mem_cons_of_mem a (ih.1 x hx), fun hnd => ?_⟩
      rw [List.nodup_cons] at hnd
      exact ih.2 hnd.2
    · rw [List.filterMap_cons, hfa]
      have hpa : p.1 = a := hf a p hfa
      constructor
      · intro x hx
        rw [List.map_cons, List.mem_cons] at hx
        rcases hx with rfl | hx
        · rw [hpa]
          exact List.mem_cons_self a rest
        · exact List.mem_cons_of_mem a (ih.1 x hx)
      · intro hnd
        rw [List.nodup_cons] at hnd
        rw [List.map_cons, List.nodup_cons]
        refine ⟨?_, ih.2 hnd.2⟩
        intro hmem
        exact hnd.1 (hpa ▸ ih.1 _ hmem)

theorem electPool_sub_nodup (remaining : List Nat) (vv : VoteValues)
    (quota : Frac) (hnd : remaining.Nodup) :
    (∀ c ∈ electPool remaining vv quota, c ∈ remaining) ∧
    (electPool remaining vv quota).Nodup := by
  have hf : ∀ c (p : Nat × Frac),
      (match alGet vv.candValues c with
        | some v => if Frac.blt quota v then some (c, v) else none
        | none => none) = some p → p.1 = c := by
    intro c p h
    rcases hg : alGet vv.candValues c with _ | v
    · rw [hg] at h
      cases h
    · rw [hg] at h
      dsimp only at h
      split at h
      · obtain rfl : (c, v) = p := by simpa using h
        rfl
      · cases h
  have hfm := filterMap_keyed _ hf remaining
  have hperm : ((sortByLe (fun p q : Nat × Frac => Frac.ble q.2 p.2)
      (remaining.filterMap (fun c =>
        match alGet vv.candValues c with
        | some v => if Frac.blt quota v then some (c, v) else none
        | none => none))).map Prod.fst).Perm
      ((remaining.filterMap (fun c =>
        match alGet vv.candValues c with
        | some v => if Frac.blt quota v then some (c, v) else none
        | none => none)).map Prod.fst) :=
    (sortByLe_perm _ _).map Prod.fst
  constructor
  · intro c hc
    unfold electPool at hc
    exact hfm.1 c (hperm.mem_iff.mp hc)
  · unfold electPool
    exact hperm.nodup_iff.mpr (hfm.2 hnd)

theorem electPool_val (N : Nat) (keys : List Nat) (remaining : List Nat)
    (vv : VoteValues) (quota : Frac) (hInv : VVInv N keys vv)
    (hqd : 0 < quota.den) :
    ∀ c ∈ electPool remaining vv quota,
      quota.toRat < Frac.toRat (alGetD vv.candValues c (Frac.ofNat 0)) := by
  intro c hc
  obtain ⟨v, hv, hblt⟩ := electPool_mem remaining vv quota c hc
  have hvd : 0 < v.den := hInv.cvDen (c, v) (alGet_mem _ _ _ hv)
  have : quota.toRat < v.toRat := (blt_iff quota v hqd hvd).mp hblt
  unfold alGetD
  rw [hv]
  exact this

theorem not_mem_foldl_erase {α : Type} [DecidableEq α] (xs : List α) :
    ∀ (l : List α), l.Nodup → ∀ x ∈ xs, x ∉ xs.foldl List.erase l := by
  induction xs with
  | nil => intro l _ x hx; cases hx
  | cons y ys ih =>
    intro l hnd x hx
    rw [List.foldl_cons]
    rcases List.mem_cons.mp hx with rfl | hx'
    · intro hmem
      have hsub := foldl_erase_subset ys (l.erase x) x hmem
      rw [hnd.mem_erase_iff] at hsub
      exact hsub.1 rfl
    · exact ih (l.erase y) (hnd.erase y) x hx'

theorem stv_no_overflow (N : Nat) (origCands : List Nat) (quota : Frac)
    (mw : Nat) (remaining elected : List Nat) (vv : VoteValues)
    (hInv : VVInv N origCands vv)
    (hremSub : ∀ c ∈ remaining, c ∈ origCands) (hremNd : remaining.Nodup)
    (helSub : ∀ c ∈ elected, c ∈ origCands) (helNd : elected.Nodup)
    (hdisj : ∀ c ∈ elected, c ∉ remaining)
    (helVal : ∀ c ∈ elected, quota.toRat ≤
      Frac.toRat (alGetD vv.candValues c (Frac.ofNat 0)))
    (hqd : 0 < quota.den) (hq0 : 0 ≤ quota.toRat)
    (hN : quota.toRat * ((mw : ℚ) + 1) = (N : ℚ))
    (helLen : elected.length ≤ mw) :
    elected.length + (electPool remaining vv quota).length ≤ mw := by
  by_contra hover
  push_neg at hover
  obtain ⟨hpoolSub, hpoolNd⟩ := electPool_sub_nodup remaining vv quota hremNd
  have hpoolVal := electPool_val N origCands remaining vv quota hInv hqd
  have hpoolNe : electPool remaining vv quota ≠ [] := by
    intro h
    rw [h] at hover
    simp at hover
    omega
  have hlnd : (elected ++ electPool remaining vv quota).Nodup := by
    refine List.Nodup.append helNd hpoolNd ?_
    intro a ha hpa
    exact hdisj a ha (hpoolSub a hpa)
  have hlsub : ∀ x ∈ elected ++ electPool remaining vv quota, x ∈ origCands := by
    intro x hx
    rcases List.mem_append.mp hx with h | h
    · exact helSub x h
    · exact hremSub x (hpoolSub x h)
  have hbound := candValues_sum_le N origCands vv hInv _ hlnd hlsub
  rw [List.map_append, List.sum_append] at hbound
  have hsum_el := sum_ge_mul
    (fun c => Frac.toRat (alGetD vv.candValues c (Frac.ofNat 0))) quota.toRat
    elected helVal
  have hsum_pool := sum_gt_mul
    (fun c => Frac.toRat (alGetD vv.candValues c (Frac.ofNat 0))) quota.toRat
    (electPool remaining vv quota) hpoolVal hpoolNe
  have hcast : (mw : ℚ) + 1 ≤
      (elected.length : ℚ) + ((electPool remaining vv quota).length : ℚ) := by
    have : mw + 1 ≤ elected.length + (electPool remaining vv quota).length := by
      omega
    exact_mod_cast this
  nlinarith [mul_le_mul_of_nonneg_right hcast hq0]

theorem elect_step (N : Nat) (origCands : List Nat) (quota : Frac)
    (mw : Nat) (remaining elected : List Nat) (vv : VoteValues)
    (tb : Option (List Nat))
    (hInv : VVInv N origCands vv)
    (hremSub : ∀ c ∈ remaining, c ∈ origCands) (hremNd : remaining.Nodup)
    (helSub : ∀ c ∈ elected, c ∈ origCands) (helNd : elected.Nodup)
    (hdisj : ∀ c ∈ elected, c ∉ remaining)
    (helVal : ∀ c ∈ elected, quota.toRat ≤
      Frac.toRat (alGetD vv.candValues c (Frac.ofNat 0)))
    (hqd : 0 < quota.den) (hq0 : 0 ≤ quota.toRat)
    (hN : quota.toRat * ((mw : ℚ) + 1) = (N : ℚ))
    (helLen : elected.length ≤ mw) :
    electUsingFixedQuota remaining vv quota mw tb elected =
      .inl (electPool remaining vv quota,
        (electPool remaining vv quota).foldl insertUniq elected,
        (electPool remaining vv quota).foldl List.erase remaining) := by
  unfold electUsingFixedQuota electFromPool
  rw [if_neg]
  rw [Nat.not_lt]
  exact stv_no_overflow N origCands quota mw remaining elected vv hInv hremSub
    hremNd helSub helNd hdisj helVal hqd hq0 hN helLen

end Voting

namespace Voting

/-! ## Theorems: the loop invariant of the transferable-vote rounds -/

theorem surplus_fold (N : Nat) (origCands : List Nat) (quota : Frac)
    (b : VoteBuffer) (remaining elected : List Nat)
    (hremSub : ∀ c ∈ remaining, c ∈ origCands)
    (helSub : ∀ c ∈ elected, c ∈ origCands)
    (hdisj : ∀ c ∈ elected, c ∉ remaining)
    (hqd : 0 < quota.den) (hq0 : 0 ≤ quota.toRat) :
    ∀ (qes : List Nat) (vv : VoteValues),
      VVInv N origCands vv → qes.Nodup → (∀ c ∈ qes, c ∈ elected) →
      (∀ c ∈ qes, quota.toRat <
        Frac.toRat (alGetD vv.candValues c (Frac.ofNat 0))) →
      (∀ c ∈ elected, c ∉ qes → quota.toRat ≤
        Frac.toRat (alGetD vv.candValues c (Frac.ofNat 0))) →
      VVInv N origCands (qes.foldl (transferSurplus b quota remaining) vv) ∧
      (∀ c ∈ elected, quota.toRat ≤ Frac.toRat
        (alGetD (qes.foldl (transferSurplus b quota remaining) vv).candValues c
          (Frac.ofNat 0))) := by
  intro qes
  induction qes with
  | nil =>
    intro vv hInv _ _ _ hrest
    exact ⟨hInv, fun c hc => hrest c hc (fun h => by cases h)⟩
  | cons ec rest ih =>
    intro vv hInv hnd hsub hstrict hrest
    rw [List.nodup_cons] at hnd
    have hecE : ec ∈ elected := hsub ec (List.mem_cons_self ec rest)
    have hecK : ec ∈ origCands := helSub ec hecE
    have hecR : ec ∉ remaining := hdisj ec hecE
    obtain ⟨hvv1, hunch, hecge⟩ := transferSurplus_spec N origCands b quota
      remaining vv ec hInv hecK hecR hremSub hqd hq0
      (hstrict ec (List.mem_cons_self ec rest))
    rw [List.foldl_cons]
    refine ih (transferSurplus b quota remaining vv ec) hvv1 hnd.2
      (fun c hc => hsub c (List.mem_cons_of_mem ec hc)) ?_ ?_
    · intro c hc
      have hcE : c ∈ elected := hsub c (List.mem_cons_of_mem ec hc)
      have hcne : c ≠ ec := fun h => hnd.1 (h ▸ hc)
      rw [hunch c hcne (hdisj c hcE)]
      exact hstrict c (List.mem_cons_of_mem ec hc)
    · intro c hcE hcr
      by_cases hce : c = ec
      · subst hce
        exact hecge
      · rw [hunch c hce (hdisj c hcE)]
        refine hrest c hcE ?_
        intro hmem
        rcases List.mem_cons.mp hmem with h | h
        · exact hce h
        · exact hcr h

theorem elect_stinv (N : Nat) (origCands : List Nat) (quota : Frac)
    (mw : Nat) (remaining elected : List Nat) (vv : VoteValues)
    (evs : List StvEvent)
    (hInv : VVInv N origCands vv)
    (hremSub : ∀ c ∈ remaining, c ∈ origCands) (hremNd : remaining.Nodup)
    (helSub : ∀ c ∈ elected, c ∈ origCands) (helNd : elected.Nodup)
    (hdisj : ∀ c ∈ elected, c ∉ remaining)
    (helVal : ∀ c ∈ elected, quota.toRat ≤
      Frac.toRat (alGetD vv.candValues c (Frac.ofNat 0)))
    (hqd : 0 < quota.den) (hq0 : 0 ≤ quota.toRat)
    (hN : quota.toRat * ((mw : ℚ) + 1) = (N : ℚ))
    (helLen : elected.length ≤ mw) :
    StInv N origCands quota mw
      ⟨(electPool remaining vv quota).foldl List.erase remaining,
        (electPool remaining vv quota).foldl insertUniq elected,
        vv, electPool remaining vv quota, evs⟩ := by
  obtain ⟨hpoolSub, hpoolNd⟩ := electPool_sub_nodup remaining vv quota hremNd
  have hpoolVal := electPool_val N origCands remaining vv quota hInv hqd
  have hlen := stv_no_overflow N origCands quota mw remaining elected vv hInv
    hremSub hremNd helSub helNd hdisj helVal hqd hq0 hN helLen
  refine ⟨?_, ?_, ?_, ?_, ?_, ?_, hInv, ?_, ?_, hpoolNd, hpoolVal⟩
  · intro c hc
    exact hremSub c (foldl_erase_subset _ _ c hc)
  · exact foldl_erase_nodup _ _ hremNd
  · intro c hc
    rcases (foldl_insertUniq_mem _ _ c).mp hc with h | h
    · exact helSub c h
    · exact hremSub c (hpoolSub c h)
  · exact foldl_insertUniq_nodup _ _ helNd
  · intro c hc
    rcases (foldl_insertUniq_mem _ _ c).mp hc with h | h
    · intro hmem
      exact hdisj c h (foldl_erase_subset _ _ c hmem)
    · exact not_mem_foldl_erase _ _ hremNd c h
  · calc ((electPool remaining vv quota).foldl insertUniq elected).length
        ≤ elected.length + (electPool remaining vv quota).length :=
          foldl_insertUniq_length _ _
      _ ≤ mw := hlen
  · intro c hc
    rcases (foldl_insertUniq_mem _ _ c).mp hc with h | h
    · exact helVal c h
    · exact le_of_lt (hpoolVal c h)
  · intro c hc
    exact (foldl_insertUniq_mem _ _ c).mpr (Or.inr hc)

end Voting

namespace Voting

theorem stvInner_stinv (N : Nat) (b : VoteBuffer) (origCands : List Nat)
    (quota : Frac) (mw : Nat) (tb : Option (List Nat))
    (hqd : 0 < quota.den) (hq0 : 0 ≤ quota.toRat)
    (hN : quota.toRat * ((mw : ℚ) + 1) = (N : ℚ)) :
    ∀ (fuel : Nat) (st : StvState), StInv N origCands quota mw st →
      InnerStOut (StInv N origCands quota mw)
        (stvInner b origCands quota mw tb fuel st) := by
  intro fuel
  induction fuel with
  | zero =>
    intro st _
    unfold stvInner
    intro w evs heq
    cases heq
  | succ fuel ih =>
    intro st hst
    unfold stvInner
    by_cases hguard : (st.quotaElected.isEmpty && !st.remaining.isEmpty) = true
    · rw [if_pos hguard]
      have hrne : st.remaining ≠ [] := by
        intro h
        rw [Bool.and_eq_true] at hguard
        rw [h] at hguard
        simp at hguard
      rcases hfind : findCandidateToEliminate b origCands st.remaining st.vv tb
        with cand | r
      · simp only []
        have hcand : cand ∈ st.remaining :=
          findElim_mem b origCands st.remaining st.vv tb cand hrne hfind
        have hcandK : cand ∈ origCands := hst.remSub cand hcand
        have hremSub' : ∀ c ∈ st.remaining.erase cand, c ∈ origCands :=
          fun c hc => hst.remSub c (List.mem_of_mem_erase hc)
        have hremNd' : (st.remaining.erase cand).Nodup := hst.remNodup.erase cand
        have hcandNotIn : cand ∉ st.remaining.erase cand := by
          intro h
          exact ((hst.remNodup.mem_erase_iff).mp h).1 rfl
        obtain ⟨hvv', hcv'⟩ := transferElim_spec N origCands b
          (st.remaining.erase cand) st.vv cand hst.vvInv hcandK hcandNotIn
          hremSub'
        have hdisj' : ∀ c ∈ st.elected, c ∉ st.remaining.erase cand :=
          fun c hc h => hst.disj c hc (List.mem_of_mem_erase h)
        have helVal' : ∀ c ∈ st.elected, quota.toRat ≤ Frac.toRat
            (alGetD (transferElim b (st.remaining.erase cand) st.vv
              cand).candValues c (Frac.ofNat 0)) := by
          intro c hc
          have hcne : c ≠ cand := fun h => hst.disj c hc (h ▸ hcand)
          rw [hcv' c hcne (hdisj' c hc)]
          exact hst.elVal c hc
        rw [elect_step N origCands quota mw (st.remaining.erase cand) st.elected
          (transferElim b (st.remaining.erase cand) st.vv cand) tb hvv' hremSub'
          hremNd' hst.elSub hst.elNodup hdisj' helVal' hqd hq0 hN hst.elLen]
        simp only []
        have hst' := elect_stinv N origCands quota mw (st.remaining.erase cand)
          st.elected (transferElim b (st.remaining.erase cand) st.vv cand)
          ((st.events ++ [StvEvent.eliminate cand (transferElim b
              (st.remaining.erase cand) st.vv cand).candValues]) ++
            [StvEvent.electWithQuota (electPool (st.remaining.erase cand)
                (transferElim b (st.remaining.erase cand) st.vv cand) quota)
              (transferElim b (st.remaining.erase cand) st.vv cand).candValues
              quota])
          hvv' hremSub' hremNd' hst.elSub hst.elNodup hdisj' helVal' hqd hq0 hN
          hst.elLen
        split
        · exact hst'
        · split
          · exact hst'
          · exact ih _ hst'
      · simp only []
        exact fun w evs => findElim_inr_ne_success b origCands _ _ tb r hfind w evs
    · rw [if_neg hguard]
      exact hst

theorem innerStOut_elim (P : StvState → Prop)
    (G : List Nat → List StvEvent → Prop)
    (f : StvState → StvResult) (res : StvState ⊕ StvResult)
    (hres : InnerStOut P res)
    (hcont : ∀ st'', P st'' → ∀ w evs, f st'' = .success w evs → G w evs)
    (w : List Nat) (evs : List StvEvent)
    (heq : (match res with | .inl st'' => f st'' | .inr r => r) =
      StvResult.success w evs) : G w evs := by
  rcases res with st'' | r
  · exact hcont st'' hres w evs heq
  · exact absurd heq (hres w evs)

theorem stvOuter_stinv (N : Nat) (b : VoteBuffer) (origCands : List Nat)
    (quota : Frac) (mw : Nat) (tb : Option (List Nat))
    (hqd : 0 < quota.den) (hq0 : 0 ≤ quota.toRat)
    (hN : quota.toRat * ((mw : ℚ) + 1) = (N : ℚ)) :
    ∀ (fuel : Nat) (st : StvState), StInv N origCands quota mw st →
      ∀ w evs, stvOuter b origCands quota mw tb fuel st =
        StvResult.success w evs →
        w.length ≤ mw ∧ (∀ x ∈ w, x ∈ origCands) ∧ w.Nodup := by
  intro fuel
  induction fuel with
  | zero =>
    intro st _ w evs heq
    unfold stvOuter at heq
    cases heq
  | succ fuel ih =>
    intro st hst w evs heq
    unfold stvOuter at heq
    by_cases hsmall : st.elected.length + st.remaining.length ≤ mw
    · rw [if_pos hsmall] at heq
      cases heq
      refine ⟨?_, ?_, foldl_insertUniq_nodup _ _ hst.elNodup⟩
      · have h1 := foldl_insertUniq_length st.remaining st.elected
        omega
      · intro x hx
        rcases (foldl_insertUniq_mem _ _ x).mp hx with h | h
        · exact hst.elSub x h
        · exact hst.remSub x h
    · rw [if_neg hsmall] at heq
      simp only [] at heq
      obtain ⟨hvv2, helVal2⟩ := surplus_fold N origCands quota b st.remaining
        st.elected hst.remSub hst.elSub hst.disj hqd hq0 st.quotaElected st.vv
        hst.vvInv hst.qeNodup hst.qeSub hst.qeVal
        (fun c hc _ => hst.elVal c hc)
      rw [elect_step N origCands quota mw st.remaining st.elected
        (st.quotaElected.foldl (transferSurplus b quota st.remaining) st.vv) tb
        hvv2 hst.remSub hst.remNodup hst.elSub hst.elNodup hst.disj helVal2
        hqd hq0 hN hst.elLen] at heq
      simp only [] at heq
      have hst' := elect_stinv N origCands quota mw st.remaining st.elected
        (st.quotaElected.foldl (transferSurplus b quota st.remaining) st.vv)
        (st.events ++ [StvEvent.electWithQuota (electPool st.remaining
            (st.quotaElected.foldl (transferSurplus b quota st.remaining) st.vv)
            quota)
          (st.quotaElected.foldl (transferSurplus b quota st.remaining)
            st.vv).candValues quota])
        hvv2 hst.remSub hst.remNodup hst.elSub hst.elNodup hst.disj helVal2 hqd
        hq0 hN hst.elLen
      split at heq
      · cases heq
        exact ⟨hst'.elLen, hst'.elSub, hst'.elNodup⟩
      · have hfact := stvInner_stinv N b origCands quota mw tb hqd hq0 hN
          ((List.foldl List.erase st.remaining (electPool st.remaining
            (List.foldl (transferSurplus b quota st.remaining) st.vv
              st.quotaElected) quota)).length + 1) _ hst'
        split at heq
        · rename_i r hinner
          rw [hinner] at hfact
          exact absurd heq (hfact w evs)
        · rename_i st'' hinner
          rw [hinner] at hfact
          exact ih st'' hfact w evs heq

end Voting

namespace Voting

theorem quota_den_pos (n m : Nat) :
    0 < (Frac.div (Frac.ofNat n) (Frac.ofNat (m + 1))).den := by
  unfold Frac.div Frac.ofNat
  dsimp only
  rw [if_neg (by omega)]
  dsimp only
  omega

theorem stv_winners (maxWinners : Nat) (candidates : List Nat) (b : VoteBuffer)
    (tb : Option (List Nat)) (w : List Nat) (evs : List StvEvent)
    (hnd : candidates.Nodup)
    (h : singleTransferableVote maxWinners candidates b tb =
      StvResult.success w evs) :
    w.length ≤ maxWinners ∧ (∀ x ∈ w, x ∈ candidates) ∧ w.Nodup := by
  unfold singleTransferableVote at h
  by_cases hsmall : candidates.length ≤ maxWinners
  · rw [if_pos hsmall] at h
    cases h
    exact ⟨hsmall, fun x hx => hx, hnd⟩
  · rw [if_neg hsmall] at h
    simp only [] at h
    have hmw : min maxWinners candidates.length = maxWinners :=
      Nat.min_eq_left (by omega)
    rw [hmw] at h
    have hoSub : ∀ c ∈ candidates.foldl insertUniq [], c ∈ candidates := by
      intro c hc
      rcases (foldl_insertUniq_mem _ _ c).mp hc with h2 | h2
      · cases h2
      · exact h2
    have hoNd : (candidates.foldl insertUniq []).Nodup :=
      foldl_insertUniq_nodup _ _ List.nodup_nil
    obtain ⟨ws, hscan, hwlen, hwmem⟩ :=
      scanNth_eq b (candidates.foldl insertUniq []) 0
    rw [hscan] at h
    dsimp only at h
    have hInv := VVInv_init (candidates.foldl insertUniq []) ws hoNd hwmem
    have hqd := quota_den_pos b.count maxWinners
    have hqval := quota_toRat b.count maxWinners
    have hq0 : 0 ≤ (Frac.div (Frac.ofNat b.count)
        (Frac.ofNat (maxWinners + 1))).toRat := by
      rw [hqval]
      positivity
    have hN : (Frac.div (Frac.ofNat b.count)
        (Frac.ofNat (maxWinners + 1))).toRat * ((maxWinners : ℚ) + 1) =
        ((ws.length : Nat) : ℚ) := by
      rw [hqval, hwlen]
      have hne : ((maxWinners : ℚ) + 1) ≠ 0 := by positivity
      field_simp
    have helSub : ∀ c ∈ ([] : List Nat), c ∈ candidates.foldl insertUniq [] := by
      intro c hc
      cases hc
    have hdisj : ∀ c ∈ ([] : List Nat), c ∉ candidates.foldl insertUniq [] := by
      intro c hc
      cases hc
    have helVal : ∀ c ∈ ([] : List Nat),
        (Frac.div (Frac.ofNat b.count) (Frac.ofNat (maxWinners + 1))).toRat ≤
          Frac.toRat (alGetD (VoteValues.init (candidates.foldl insertUniq [])
            (tallyFrom [] ws) ws).candValues c (Frac.ofNat 0)) := by
      intro c hc
      cases hc
    rw [elect_step ws.length (candidates.foldl insertUniq [])
      (Frac.div (Frac.ofNat b.count) (Frac.ofNat (maxWinners + 1))) maxWinners
      (candidates.foldl insertUniq []) []
      (VoteValues.init (candidates.foldl insertUniq []) (tallyFrom [] ws) ws) tb
      hInv (fun c hc => hc) hoNd helSub List.nodup_nil hdisj helVal hqd hq0 hN
      (Nat.zero_le maxWinners)] at h
    simp only [] at h
    have hst0 := elect_stinv ws.length (candidates.foldl insertUniq [])
      (Frac.div (Frac.ofNat b.count) (Frac.ofNat (maxWinners + 1))) maxWinners
      (candidates.foldl insertUniq []) []
      (VoteValues.init (candidates.foldl insertUniq []) (tallyFrom [] ws) ws)
      [StvEvent.electWithQuota
        (electPool (candidates.foldl insertUniq [])
          (VoteValues.init (candidates.foldl insertUniq [])
            (tallyFrom [] ws) ws)
          (Frac.div (Frac.ofNat b.count) (Frac.ofNat (maxWinners + 1))))
        (VoteValues.init (candidates.foldl insertUniq [])
          (tallyFrom [] ws) ws).candValues
        (Frac.div (Frac.ofNat b.count) (Frac.ofNat (maxWinners + 1)))]
      hInv (fun c hc => hc) hoNd helSub List.nodup_nil hdisj helVal hqd hq0 hN
      (Nat.zero_le maxWinners)
    obtain ⟨h1, h2, h3⟩ := stvOuter_stinv ws.length b
      (candidates.foldl insertUniq [])
      (Frac.div (Frac.ofNat b.count) (Frac.ofNat (maxWinners + 1))) maxWinners
      tb hqd hq0 hN ((candidates.foldl insertUniq []).length + 3) _ hst0 w evs h
    exact ⟨h1, fun x hx => hoSub x (h2 x hx), h3⟩

end Voting

namespace Voting

/-- C2 counterexample: with `max_winners = 0` the ranked-pairs engine still
returns a Success result carrying one winner — the round winner is pushed
onto the winner list before the length check, so `|winners| ≤ max_winners`
fails on this input. -/
theorem c2_winners_counterexample :
    rankedPairs 0 [1, 2]
        { count := 2,
          rows := [[1, 0, 2], [1, 0, 2]],
          tailWords := [1, 0, 2, 0, 2, 0, 2, 0],
          mentionsTable := [(1, 2), (2, 2)] } none =
      .success { winners := [some 1],
                 rounds := [{ winner := some 1,
                              orderedPairs := [(2, 1)],
                              lockGraphEdges := [(1, 2)] }] } ∧
    0 < ({ winners := [some 1],
           rounds := [{ winner := some 1,
                        orderedPairs := [(2, 1)],
                        lockGraphEdges := [(1, 2)] }] } : RpData).winners.length := by
  constructor
  · rfl
  · decide

/-- C2 (amended): on every Success result the engines return pairwise
distinct winners drawn from the input candidate list, and the winner count
is bounded by `max_winners` for threshold majority and single transferable
vote but only by `max max_winners 1` for ranked pairs (each round pushes
its winner before checking the bound, so `max_winners = 0` still yields one
winner).  Threshold majority and single transferable vote assume a
duplicate-free candidate list; ranked pairs additionally assumes nonzero
candidate ids, ballots mentioning each candidate at most once per row, and
that every candidate retained by the mention filter appears on at least
half the ballots. -/
theorem c2_winner_conservation :
    (∀ (mw : Nat) (cands : List Nat) (b : VoteBuffer) (tb : Option (List Nat))
      (d : TmData), cands.Nodup →
      thresholdMajority mw cands b tb = .success d →
      d.winners.length ≤ mw ∧ (∀ x ∈ d.winners, x ∈ cands) ∧
        d.winners.Nodup) ∧
    (∀ (mw : Nat) (cands : List Nat) (b : VoteBuffer) (tb : Option (List Nat))
      (data : RpData), cands.Nodup → 0 ∉ cands →
      (∀ row ∈ b.rows, ∀ c ∈ cands, idCount c row ≤ 1) →
      (∀ c ∈ rpFilterCandidates (sortByLe (fun x y => x ≤ y) cands) b,
        b.rows.length ≤ 2 * b.rows.countP (fun row => decide (c ∈ row))) →
      rankedPairs mw cands b tb = .success data →
      ∃ ws : List Nat, data.winners = ws.map some ∧ ws.Nodup ∧
        (∀ x ∈ ws, x ∈ cands) ∧ data.winners.length ≤ max mw 1) ∧
    (∀ (mw : Nat) (cands : List Nat) (b : VoteBuffer) (tb : Option (List Nat))
      (w : List Nat) (evs : List StvEvent), cands.Nodup →
      singleTransferableVote mw cands b tb = StvResult.success w evs →
      w.length ≤ mw ∧ (∀ x ∈ w, x ∈ cands) ∧ w.Nodup) :=
  ⟨fun mw cands b tb d hnd h => tm_winners_invariant mw cands b tb d hnd h,
   fun mw cands b tb data hnd h0 hOnce hWF h =>
     rankedPairs_winners mw cands b tb data hnd h0 hOnce hWF h,
   fun mw cands b tb w evs hnd h => stv_winners mw cands b tb w evs hnd h⟩

/-- C2 witness: each engine exercised on a concrete two-candidate election
with one seat; the conclusions are obtained by applying the conservation
theorem, with every hypothesis checked on the concrete input. -/
theorem c2_winner_conservation_witness :
    (({ winners := [1], tally := [(2, 2)] } : TmData).winners.length ≤ 1 ∧
      (∀ x ∈ ({ winners := [1], tally := [(2, 2)] } : TmData).winners,
        x ∈ ([1, 2] : List Nat)) ∧
      ({ winners := [1], tally := [(2, 2)] } : TmData).winners.Nodup) ∧
    (∃ ws : List Nat,
      ({ winners := [some 1],
         rounds := [{ winner := some 1,
                      orderedPairs := [(2, 1)],
                      lockGraphEdges := [(1, 2)] }] } :
        RpData).winners = ws.map some ∧ ws.Nodup ∧
      (∀ x ∈ ws, x ∈ ([1, 2] : List Nat)) ∧
      ({ winners := [some 1],
         rounds := [{ winner := some 1,
                      orderedPairs := [(2, 1)],
                      lockGraphEdges := [(1, 2)] }] } :
        RpData).winners.length ≤ max 1 1) ∧
    (([1] : List Nat).length ≤ 1 ∧
      (∀ x ∈ ([1] : List Nat), x ∈ ([1, 2] : List Nat)) ∧
      ([1] : List Nat).Nodup) :=
  ⟨c2_winner_conservation.1 1 [1, 2]
      { count := 2,
        rows := [[2], [2]],
        tailWords := [2, 0, 2, 0],
        mentionsTable := [(2, 2)] } none
      { winners := [1], tally := [(2, 2)] } (by decide) (by rfl),
   c2_winner_conservation.2.1 1 [1, 2]
      { count := 2,
        rows := [[1, 0, 2], [1, 0, 2]],
        tailWords := [1, 0, 2, 0, 2, 0, 2, 0],
        mentionsTable := [(1, 2), (2, 2)] } none
      { winners := [some 1],
        rounds := [{ winner := some 1,
                     orderedPairs := [(2, 1)],
                     lockGraphEdges := [(1, 2)] }] }
      (by decide) (by decide) (by decide) (by decide) (by rfl),
   c2_winner_conservation.2.2 1 [1, 2]
      { count := 3,
        rows := [[1], [1], [1]],
        tailWords := [0, 1, 0, 3, 0],
        mentionsTable := [(1, 3)] } none [1]
      [StvEvent.electWithQuota [1] [(1, ⟨3, 1⟩)] ⟨3, 2⟩,
       StvEvent.electWithQuota [] [(1, ⟨3, 1⟩)] ⟨3, 2⟩] (by decide) (by rfl)⟩

end Voting
